import Mathlib

set_option maxHeartbeats 1000000

/-!
Verification development for the asm-rs bytecode toolkit.

Part 1 embeds the type-descriptor model of `src/types.rs`:
the recursive `Type` enum (here `JvmType`, since `Type` is a Lean keyword),
the descriptor encoder `get_descriptor`, and the recursive-descent parser
underlying `Type::get_type`.  The source parser aborts the process on
malformed input; the embedding renders every abort path (bad byte,
out-of-bounds scan) as `none`.
-/

/-- Descriptor strings at the character level (`&[u8]` in the source; the
descriptor alphabet is ASCII so bytes and characters coincide). -/
abbrev Chars := List Char

/-- A single character (`Char` is shadowed by a constructor inside the
`JvmType` namespace). -/
abbrev Ch := Char

/-- The `Type` enum from `src/types.rs`.  `Array` stores its element type,
`Object` the internal name, `Method` its argument list and return type. -/
inductive JvmType where
  | Void
  | Boolean
  | Char
  | Byte
  | Short
  | Int
  | Float
  | Long
  | Double
  | Array (elem : JvmType)
  | Object (name : String)
  | Method (argument_types : List JvmType) (return_type : JvmType)

namespace JvmType

mutual
/-- `Type::get_descriptor` from `src/types.rs`, rendered as a character list. -/
def descriptor : JvmType → Chars
  | .Void => ['V']
  | .Boolean => ['Z']
  | .Char => ['C']
  | .Byte => ['B']
  | .Short => ['S']
  | .Int => ['I']
  | .Float => ['F']
  | .Long => ['J']
  | .Double => ['D']
  | .Array elem => '[' :: descriptor elem
  | .Object name => 'L' :: name.data ++ [';']
  | .Method args ret => '(' :: descriptorList args ++ ')' :: descriptor ret

/-- The concatenation over `Method` argument lists performed by the
`for arg in argument_types` loop of `get_descriptor`. -/
def descriptorList : List JvmType → Chars
  | [] => []
  | t :: ts => descriptor t ++ descriptorList ts
end

/-- `Type::get_descriptor`, returning a `String` exactly as the source does. -/
def get_descriptor (t : JvmType) : String := String.mk t.descriptor

mutual
/-- A type value is producible by the parser iff no `Object` name inside it
contains `';'` (the scan in the `'L'` arm of `Type::parse` stops at the first
`';'`, so parsed names never contain one). -/
def noSemi : JvmType → Bool
  | .Array elem => noSemi elem
  | .Object name => name.data.all fun c => c != ';'
  | .Method args ret => noSemiList args && noSemi ret
  | _ => true

/-- `noSemi` over an argument list. -/
def noSemiList : List JvmType → Bool
  | [] => true
  | t :: ts => noSemi t && noSemiList ts
end

/-- The scan of the `'L'` arm of `Type::parse`: advance until `';'`, returning
the span before it and the input after it.  Running off the end of the input
(a `bytes[*pos]` panic in the source) is `none`. -/
def scanName : Chars → Option (Chars × Chars)
  | [] => none
  | ';' :: rest => some ([], rest)
  | c :: rest =>
    match scanName rest with
    | some (name, rest') => some (c :: name, rest')
    | none => none

/-- `Type::parse` from `src/types.rs` together with the argument loop of its
`'('` arm, with the shared cursor rendered as the unconsumed suffix and
process aborts as `none`.  The `Nat` argument is pure termination fuel (every
recursive source call consumes input; fuel independence is proved below).
The two components are packaged in a pair so that the recursion is structural
on the fuel and therefore computes definitionally. -/
def parsePair : Nat → ((Chars → Option (JvmType × Chars)) × (Chars → Option (List JvmType × Chars)))
  | 0 => (fun _ => none, fun _ => none)
  | fuel + 1 =>
    let p := parsePair fuel
    ( fun s =>
        match s with
        | [] => none
        | c :: rest =>
          match c with
          | 'V' => some (.Void, rest)
          | 'Z' => some (.Boolean, rest)
          | 'C' => some (.Char, rest)
          | 'B' => some (.Byte, rest)
          | 'S' => some (.Short, rest)
          | 'I' => some (.Int, rest)
          | 'F' => some (.Float, rest)
          | 'J' => some (.Long, rest)
          | 'D' => some (.Double, rest)
          | 'L' =>
            match scanName rest with
            | some (name, rest') => some (.Object (String.mk name), rest')
            | none => none
          | '[' =>
            match p.1 rest with
            | some (elem, rest') => some (.Array elem, rest')
            | none => none
          | '(' =>
            match p.2 rest with
            | some (args, rest') =>
              match p.1 rest' with
              | some (ret, rest'') => some (.Method args ret, rest'')
              | none => none
            | none => none
          | _ => none,
      fun s =>
        match s with
        | [] => none
        | ')' :: rest => some (([] : List JvmType), rest)
        | s =>
          match p.1 s with
          | some (t, rest') =>
            match p.2 rest' with
            | some (args, rest'') => some (t :: args, rest'')
            | none => none
          | none => none )

/-- `Type::parse` (one type at the cursor). -/
def parse (fuel : Nat) (s : Chars) : Option (JvmType × Chars) :=
  (parsePair fuel).1 s

/-- The `while bytes[*pos] != b')'` argument loop of the `'('` arm. -/
def parseArgs (fuel : Nat) (s : Chars) : Option (List JvmType × Chars) :=
  (parsePair fuel).2 s

/-- `Type::get_type`: parse from position 0, ignoring any unconsumed suffix.
The fuel `s.data.length + 1` is always sufficient (fuel lemmas below), so this
is exactly the source parse as a partial function. -/
def get_type (s : String) : Option JvmType :=
  (parse (s.data.length + 1) s.data).map Prod.fst

end JvmType

example : JvmType.get_type "I" = some JvmType.Int := rfl
example : JvmType.get_type "[[J" = some (.Array (.Array .Long)) := rfl
example : JvmType.get_type "Ljava/lang/Object;" = some (.Object "java/lang/Object") := rfl
example : JvmType.get_type "([[IJ)Ljava/lang/String;" =
    some (.Method [.Array (.Array .Int), .Long] (.Object "java/lang/String")) := rfl
example : JvmType.get_type "L" = none := rfl
example : JvmType.get_type "(I" = none := rfl
example : JvmType.get_type "X" = none := rfl
example : JvmType.get_type "IJ" = some JvmType.Int := rfl
example : JvmType.get_descriptor (.Method [.Array (.Array .Int), .Long] (.Object "java/lang/String"))
    = "([[IJ)Ljava/lang/String;" := by
  simp [JvmType.get_descriptor, JvmType.descriptor, JvmType.descriptorList]

namespace JvmType

theorem parse_zero (s : Chars) : parse 0 s = none := rfl

theorem parse_nil (fuel : Nat) : parse (fuel + 1) [] = none := rfl

theorem parseArgs_zero (s : Chars) : parseArgs 0 s = none := rfl

theorem parseArgs_nil (fuel : Nat) : parseArgs (fuel + 1) [] = none := rfl

theorem parseArgs_close (fuel : Nat) (r : Chars) :
    parseArgs (fuel + 1) (')' :: r) = some ([], r) := rfl

/-- Unfolding of `scanName` on a head that is not `';'`. -/
theorem scanName_cons_ne {c : Ch} (hc : c ≠ ';') (cs : Chars) :
    scanName (c :: cs) = match scanName cs with
      | some (name, rest') => some (c :: name, rest')
      | none => none := by
  rw [scanName]
  exact hc

/-- A successful scan splits the input at the first `';'`. -/
theorem scanName_shape : ∀ {s name rest : Chars}, scanName s = some (name, rest) →
    s = name ++ ';' :: rest ∧ ';' ∉ name := by
  intro s
  induction s with
  | nil => intro name rest h; simp [scanName] at h
  | cons c cs ih =>
    intro name rest h
    by_cases hc : c = ';'
    · subst hc
      rw [scanName] at h
      simp only [Option.some.injEq, Prod.mk.injEq] at h
      obtain ⟨h1, h2⟩ := h
      subst h1; subst h2
      simp
    · rw [scanName_cons_ne hc] at h
      cases hscan : scanName cs with
      | none => rw [hscan] at h; exact absurd h (by simp)
      | some p =>
        obtain ⟨name', rest'⟩ := p
        rw [hscan] at h
        simp only [Option.some.injEq, Prod.mk.injEq] at h
        obtain ⟨h1, h2⟩ := h
        subst h2
        obtain ⟨hcs, hnot⟩ := ih hscan
        subst hcs
        refine ⟨by simp [← h1], ?_⟩
        rw [← h1]
        intro hmem
        rcases List.mem_cons.mp hmem with h | h
        · exact hc h.symm
        · exact hnot h

/-- The scan succeeds on a span with no `';'` followed by `';'`. -/
theorem scanName_append {name : Chars} (hname : ';' ∉ name) (r : Chars) :
    scanName (name ++ ';' :: r) = some (name, r) := by
  induction name with
  | nil => rfl
  | cons c cs ih =>
    have hc : c ≠ ';' := fun h => hname (h ▸ List.mem_cons_self c cs)
    have hcs : ';' ∉ cs := fun h => hname (List.mem_cons_of_mem c h)
    rw [List.cons_append, scanName_cons_ne hc, ih hcs]

end JvmType

namespace JvmType

theorem mk_data (l : Chars) : (String.mk l).data = l := rfl

/-- Unfolding of `parse` on a nonempty input. -/
theorem parse_cons (fuel : Nat) (c : Ch) (rest : Chars) :
    parse (fuel + 1) (c :: rest) =
      match c with
      | 'V' => some (.Void, rest)
      | 'Z' => some (.Boolean, rest)
      | 'C' => some (.Char, rest)
      | 'B' => some (.Byte, rest)
      | 'S' => some (.Short, rest)
      | 'I' => some (.Int, rest)
      | 'F' => some (.Float, rest)
      | 'J' => some (.Long, rest)
      | 'D' => some (.Double, rest)
      | 'L' =>
        (match scanName rest with
         | some (name, rest') => some (.Object (String.mk name), rest')
         | none => none)
      | '[' =>
        (match parse fuel rest with
         | some (elem, rest') => some (.Array elem, rest')
         | none => none)
      | '(' =>
        (match parseArgs fuel rest with
         | some (args, rest') =>
           (match parse fuel rest' with
            | some (ret, rest'') => some (.Method args ret, rest'')
            | none => none)
         | none => none)
      | _ => none := rfl

/-- Unfolding of the argument loop on a head that is not `')'`. -/
theorem parseArgs_cons_ne {c : Ch} (hc : c ≠ ')') (fuel : Nat) (rest : Chars) :
    parseArgs (fuel + 1) (c :: rest) =
      match parse fuel (c :: rest) with
      | some (t, rest') =>
        (match parseArgs fuel rest' with
         | some (args, rest'') => some (t :: args, rest'')
         | none => none)
      | none => none := by
  simp only [parseArgs, parsePair]
  split
  · rename_i heq
    exact absurd heq (by simp)
  · rename_i heq
    injection heq with h1 h2
    exact absurd h1 hc
  · rfl

end JvmType

namespace JvmType

/-- Canonicality: a successful parse consumed exactly the descriptor of the
value it returned, and that value has no `';'` in any object name.  Joint
with the corresponding statement for the argument loop. -/
theorem parse_shape_aux : ∀ fuel : Nat,
    (∀ s t r, parse fuel s = some (t, r) →
      s = descriptor t ++ r ∧ noSemi t = true) ∧
    (∀ s args r, parseArgs fuel s = some (args, r) →
      s = descriptorList args ++ ')' :: r ∧ noSemiList args = true) := by
  intro fuel
  induction fuel with
  | zero =>
    refine ⟨?_, ?_⟩ <;> intro s a r h <;>
      simp [parse_zero, parseArgs_zero] at h
  | succ fuel ih =>
    obtain ⟨ihp, iha⟩ := ih
    refine ⟨?_, ?_⟩
    · intro s t r h
      cases s with
      | nil => rw [parse_nil] at h; exact absurd h (by simp)
      | cons c rest =>
        rw [parse_cons] at h
        split at h
        · -- 'V'
          simp only [Option.some.injEq, Prod.mk.injEq] at h
          obtain ⟨ht, hr⟩ := h; subst ht; subst hr; simp [descriptor, noSemi]
        · simp only [Option.some.injEq, Prod.mk.injEq] at h
          obtain ⟨ht, hr⟩ := h; subst ht; subst hr; simp [descriptor, noSemi]
        · simp only [Option.some.injEq, Prod.mk.injEq] at h
          obtain ⟨ht, hr⟩ := h; subst ht; subst hr; simp [descriptor, noSemi]
        · simp only [Option.some.injEq, Prod.mk.injEq] at h
          obtain ⟨ht, hr⟩ := h; subst ht; subst hr; simp [descriptor, noSemi]
        · simp only [Option.some.injEq, Prod.mk.injEq] at h
          obtain ⟨ht, hr⟩ := h; subst ht; subst hr; simp [descriptor, noSemi]
        · simp only [Option.some.injEq, Prod.mk.injEq] at h
          obtain ⟨ht, hr⟩ := h; subst ht; subst hr; simp [descriptor, noSemi]
        · simp only [Option.some.injEq, Prod.mk.injEq] at h
          obtain ⟨ht, hr⟩ := h; subst ht; subst hr; simp [descriptor, noSemi]
        · simp only [Option.some.injEq, Prod.mk.injEq] at h
          obtain ⟨ht, hr⟩ := h; subst ht; subst hr; simp [descriptor, noSemi]
        · simp only [Option.some.injEq, Prod.mk.injEq] at h
          obtain ⟨ht, hr⟩ := h; subst ht; subst hr; simp [descriptor, noSemi]
        · -- 'L'
          split at h
          · rename_i name rest' hscan
            simp only [Option.some.injEq, Prod.mk.injEq] at h
            obtain ⟨ht, hr⟩ := h; subst ht; subst hr
            obtain ⟨hs, hnot⟩ := scanName_shape hscan
            subst hs
            constructor
            · simp [descriptor, mk_data]
            · simp only [noSemi, mk_data, List.all_eq_true]
              intro x hx
              simp only [bne_iff_ne, ne_eq, decide_eq_true_eq]
              exact fun he => hnot (he ▸ hx)
          · exact absurd h (by simp)
        · -- '['
          split at h
          · rename_i elem rest' hp
            simp only [Option.some.injEq, Prod.mk.injEq] at h
            obtain ⟨ht, hr⟩ := h; subst ht; subst hr
            obtain ⟨hs, hn⟩ := ihp _ _ _ hp
            subst hs
            simp [descriptor, noSemi, hn]
          · exact absurd h (by simp)
        · -- '('
          split at h
          · rename_i args rest' ha
            split at h
            · rename_i ret rest'' hp
              simp only [Option.some.injEq, Prod.mk.injEq] at h
              obtain ⟨ht, hr⟩ := h; subst ht; subst hr
              obtain ⟨hs1, hn1⟩ := iha _ _ _ ha
              obtain ⟨hs2, hn2⟩ := ihp _ _ _ hp
              subst hs1
              constructor
              · simp [descriptor, hs2]
              · simp [noSemi, hn1, hn2]
            · exact absurd h (by simp)
          · exact absurd h (by simp)
        · exact absurd h (by simp)
    · intro s args r h
      cases s with
      | nil => rw [parseArgs_nil] at h; exact absurd h (by simp)
      | cons c rest =>
        by_cases hc : c = ')'
        · subst hc
          rw [parseArgs_close] at h
          simp only [Option.some.injEq, Prod.mk.injEq] at h
          obtain ⟨ha, hr⟩ := h; subst ha; subst hr
          simp [descriptorList, noSemiList]
        · rw [parseArgs_cons_ne hc] at h
          split at h
          · rename_i t' rest' hp
            split at h
            · rename_i args' rest'' ha
              simp only [Option.some.injEq, Prod.mk.injEq] at h
              obtain ⟨ha2, hr⟩ := h; subst ha2; subst hr
              obtain ⟨hs1, hn1⟩ := ihp _ _ _ hp
              obtain ⟨hs2, hn2⟩ := iha _ _ _ ha
              constructor
              · rw [descriptorList, List.append_assoc, ← hs2, hs1]
              · simp [noSemiList, hn1, hn2]
            · exact absurd h (by simp)
          · exact absurd h (by simp)

end JvmType

namespace JvmType

theorem parse_L (fuel : Nat) (rest : Chars) :
    parse (fuel + 1) ('L' :: rest) = match scanName rest with
      | some (name, rest') => some (.Object (String.mk name), rest')
      | none => none := rfl

theorem parse_arr (fuel : Nat) (rest : Chars) :
    parse (fuel + 1) ('[' :: rest) = match parse fuel rest with
      | some (elem, rest') => some (.Array elem, rest')
      | none => none := rfl

theorem parse_paren (fuel : Nat) (rest : Chars) :
    parse (fuel + 1) ('(' :: rest) = match parseArgs fuel rest with
      | some (args, rest') =>
        (match parse fuel rest' with
         | some (ret, rest'') => some (.Method args ret, rest'')
         | none => none)
      | none => none := rfl

theorem descriptor_length_pos (t : JvmType) : 1 ≤ (descriptor t).length := by
  cases t <;> simp [descriptor]

theorem descriptor_head (t : JvmType) :
    ∃ c cs, descriptor t = c :: cs ∧ c ≠ ')' := by
  cases t with
  | Void => exact ⟨'V', [], by simp [descriptor], by decide⟩
  | Boolean => exact ⟨'Z', [], by simp [descriptor], by decide⟩
  | Char => exact ⟨'C', [], by simp [descriptor], by decide⟩
  | Byte => exact ⟨'B', [], by simp [descriptor], by decide⟩
  | Short => exact ⟨'S', [], by simp [descriptor], by decide⟩
  | Int => exact ⟨'I', [], by simp [descriptor], by decide⟩
  | Float => exact ⟨'F', [], by simp [descriptor], by decide⟩
  | Long => exact ⟨'J', [], by simp [descriptor], by decide⟩
  | Double => exact ⟨'D', [], by simp [descriptor], by decide⟩
  | Array elem => exact ⟨'[', descriptor elem, by simp [descriptor], by decide⟩
  | Object name => exact ⟨'L', name.data ++ [';'], by simp [descriptor], by decide⟩
  | Method args ret =>
    exact ⟨'(', descriptorList args ++ ')' :: descriptor ret, by simp [descriptor], by decide⟩

/-- Forward direction: the parser accepts `descriptor t ++ r` whenever
`noSemi t` holds and the fuel is at least the descriptor's length, consuming
exactly the descriptor.  Strong induction on the descriptor length, joint
with the statement for the argument loop. -/
theorem descriptor_parse_aux : ∀ n : Nat,
    (∀ t, noSemi t = true → (descriptor t).length ≤ n →
      ∀ fuel r, (descriptor t).length ≤ fuel →
        parse fuel (descriptor t ++ r) = some (t, r)) ∧
    (∀ args, noSemiList args = true → (descriptorList args).length + 1 ≤ n →
      ∀ fuel r, (descriptorList args).length + 1 ≤ fuel →
        parseArgs fuel (descriptorList args ++ ')' :: r) = some (args, r)) := by
  intro n
  induction n using Nat.strong_induction_on with
  | _ n ih =>
    constructor
    · intro t hns hlen fuel r hfuel
      have hpos := descriptor_length_pos t
      obtain ⟨f, rfl⟩ : ∃ f, fuel = f + 1 := ⟨fuel - 1, by omega⟩
      cases t with
      | Void => rw [show descriptor .Void ++ r = 'V' :: r from by simp [descriptor]]; exact rfl
      | Boolean => rw [show descriptor .Boolean ++ r = 'Z' :: r from by simp [descriptor]]; exact rfl
      | Char => rw [show descriptor .Char ++ r = 'C' :: r from by simp [descriptor]]; exact rfl
      | Byte => rw [show descriptor .Byte ++ r = 'B' :: r from by simp [descriptor]]; exact rfl
      | Short => rw [show descriptor .Short ++ r = 'S' :: r from by simp [descriptor]]; exact rfl
      | Int => rw [show descriptor .Int ++ r = 'I' :: r from by simp [descriptor]]; exact rfl
      | Float => rw [show descriptor .Float ++ r = 'F' :: r from by simp [descriptor]]; exact rfl
      | Long => rw [show descriptor .Long ++ r = 'J' :: r from by simp [descriptor]]; exact rfl
      | Double => rw [show descriptor .Double ++ r = 'D' :: r from by simp [descriptor]]; exact rfl
      | Object name =>
        rw [show descriptor (.Object name) ++ r = 'L' :: (name.data ++ ';' :: r) from by
          simp [descriptor]]
        rw [parse_L]
        have hnot : ';' ∉ name.data := by
          have := hns
          simp only [noSemi, List.all_eq_true, bne_iff_ne, ne_eq, decide_eq_true_eq] at this
          intro hmem
          exact (this ';' hmem) rfl
        rw [scanName_append hnot]
      | Array elem =>
        rw [show descriptor (.Array elem) ++ r = '[' :: (descriptor elem ++ r) from by
          simp [descriptor]]
        rw [parse_arr]
        have hlen' : (descriptor elem).length < n := by
          simp only [descriptor, List.length_cons] at hlen; omega
        have hfuel' : (descriptor elem).length ≤ f := by
          simp only [descriptor, List.length_cons] at hfuel; omega
        have hns' : noSemi elem = true := by simpa [noSemi] using hns
        rw [(ih _ hlen').1 elem hns' (le_refl _) f r hfuel']
      | Method args ret =>
        rw [show descriptor (.Method args ret) ++ r
            = '(' :: (descriptorList args ++ ')' :: (descriptor ret ++ r)) from by
          simp [descriptor]]
        rw [parse_paren]
        have hretpos := descriptor_length_pos ret
        have hlen' : (descriptorList args).length + (descriptor ret).length + 2 ≤ n := by
          simp only [descriptor, List.length_cons, List.length_append] at hlen; omega
        have hfuel' : (descriptorList args).length + (descriptor ret).length + 2 ≤ f + 1 := by
          simp only [descriptor, List.length_cons, List.length_append] at hfuel; omega
        obtain ⟨hn1, hn2⟩ : noSemiList args = true ∧ noSemi ret = true := by
          simpa [noSemi] using hns
        rw [(ih ((descriptorList args).length + 1) (by omega)).2 args hn1 (le_refl _)
          f (descriptor ret ++ r) (by omega)]
        show (match parse f (descriptor ret ++ r) with
          | some (ret, rest'') => some (Method args ret, rest'')
          | none => none) = some (Method args ret, r)
        rw [(ih ((descriptor ret).length) (by omega)).1 ret hn2 (le_refl _) f r (by omega)]
    · intro args hns hlen fuel r hfuel
      obtain ⟨f, rfl⟩ : ∃ f, fuel = f + 1 := ⟨fuel - 1, by omega⟩
      cases args with
      | nil =>
        rw [show descriptorList ([] : List JvmType) ++ ')' :: r = ')' :: r from by
          simp [descriptorList]]
        exact parseArgs_close f r
      | cons a as =>
        obtain ⟨c, cs, hdesc, hcne⟩ := descriptor_head a
        have hlena : (descriptor a).length = cs.length + 1 := by rw [hdesc]; simp
        have hapos := descriptor_length_pos a
        have hlen' : (descriptor a).length + (descriptorList as).length + 1 ≤ n := by
          simp only [descriptorList, List.length_append] at hlen; omega
        have hfuel' : (descriptor a).length + (descriptorList as).length + 1 ≤ f + 1 := by
          simp only [descriptorList, List.length_append] at hfuel; omega
        obtain ⟨hn1, hn2⟩ : noSemi a = true ∧ noSemiList as = true := by
          simpa [noSemiList] using hns
        rw [show descriptorList (a :: as) ++ ')' :: r
            = c :: (cs ++ (descriptorList as ++ ')' :: r)) from by
          simp [descriptorList, hdesc]]
        rw [parseArgs_cons_ne hcne]
        have hP : parse f (c :: (cs ++ (descriptorList as ++ ')' :: r)))
            = some (a, descriptorList as ++ ')' :: r) := by
          have := (ih ((descriptor a).length) (by omega)).1 a hn1 (le_refl _)
            f (descriptorList as ++ ')' :: r) (by omega)
          rwa [hdesc, List.cons_append] at this
        rw [hP]
        show (match parseArgs f (descriptorList as ++ ')' :: r) with
          | some (args, rest'') => some (a :: args, rest'')
          | none => none) = some (a :: as, r)
        rw [(ih ((descriptorList as).length + 1) (by omega)).2 as hn2 (le_refl _) f r (by omega)]

end JvmType

namespace JvmType

/-- The `type` production of the descriptor grammar in spec section 4.1:
`type := primitive | 'L' name ';' | '[' type`, where a name is any span of
characters not containing `';'` (the scan stops at the first `';'`). -/
inductive DerivT : Chars → Prop where
  | void : DerivT ['V']
  | boolean : DerivT ['Z']
  | char : DerivT ['C']
  | byte : DerivT ['B']
  | short : DerivT ['S']
  | int : DerivT ['I']
  | float : DerivT ['F']
  | long : DerivT ['J']
  | double : DerivT ['D']
  | obj (name : Chars) : ';' ∉ name → DerivT ('L' :: name ++ [';'])
  | arr {s : Chars} : DerivT s → DerivT ('[' :: s)

/-- A descriptor derivable from the grammar in spec section 4.1: a single
`type`, or a method descriptor `'(' type* ')' type`. -/
inductive Derivable : Chars → Prop where
  | ty {s : Chars} : DerivT s → Derivable s
  | method (args : List Chars) (ret : Chars) :
      (∀ a ∈ args, DerivT a) → DerivT ret →
      Derivable ('(' :: args.flatten ++ ')' :: ret)

/-- Every grammar-derivable `type` is the descriptor of a parser-producible
value. -/
theorem derivT_exists {s : Chars} (h : DerivT s) :
    ∃ t, noSemi t = true ∧ descriptor t = s := by
  induction h with
  | void => exact ⟨.Void, by simp [noSemi], by simp [descriptor]⟩
  | boolean => exact ⟨.Boolean, by simp [noSemi], by simp [descriptor]⟩
  | char => exact ⟨.Char, by simp [noSemi], by simp [descriptor]⟩
  | byte => exact ⟨.Byte, by simp [noSemi], by simp [descriptor]⟩
  | short => exact ⟨.Short, by simp [noSemi], by simp [descriptor]⟩
  | int => exact ⟨.Int, by simp [noSemi], by simp [descriptor]⟩
  | float => exact ⟨.Float, by simp [noSemi], by simp [descriptor]⟩
  | long => exact ⟨.Long, by simp [noSemi], by simp [descriptor]⟩
  | double => exact ⟨.Double, by simp [noSemi], by simp [descriptor]⟩
  | obj name hnot =>
    refine ⟨.Object (String.mk name), ?_, ?_⟩
    · simp only [noSemi, mk_data, List.all_eq_true]
      intro x hx
      simp only [bne_iff_ne, ne_eq, decide_eq_true_eq]
      exact fun he => hnot (he ▸ hx)
    · simp [descriptor, mk_data]
  | arr _ ih =>
    obtain ⟨t, h1, h2⟩ := ih
    exact ⟨.Array t, by simp [noSemi, h1], by simp [descriptor, h2]⟩

/-- Every grammar-derivable argument span is the argument-list encoding of a
list of parser-producible values. -/
theorem derivTList_exists : ∀ (l : List Chars), (∀ a ∈ l, DerivT a) →
    ∃ ts, noSemiList ts = true ∧ descriptorList ts = l.flatten := by
  intro l
  induction l with
  | nil => intro _; exact ⟨[], by simp [noSemiList], by simp [descriptorList]⟩
  | cons a l ih =>
    intro h
    obtain ⟨t, h1, h2⟩ := derivT_exists (h a (List.mem_cons_self a l))
    obtain ⟨ts, h3, h4⟩ := ih fun x hx => h x (List.mem_cons_of_mem a hx)
    exact ⟨t :: ts, by simp [noSemiList, h1, h3], by simp [descriptorList, h2, h4]⟩

/-- Every grammar-derivable descriptor is the descriptor of a
parser-producible value. -/
theorem derivable_exists {s : Chars} (h : Derivable s) :
    ∃ t, noSemi t = true ∧ descriptor t = s := by
  cases h with
  | ty h => exact derivT_exists h
  | method args ret hargs hret =>
    obtain ⟨ts, h1, h2⟩ := derivTList_exists args hargs
    obtain ⟨tr, h3, h4⟩ := derivT_exists hret
    exact ⟨.Method ts tr, by simp [noSemi, h1, h3], by simp [descriptor, h2, h4]⟩

/-- Parsing the descriptor of any `noSemi` value, with any suffix appended and
any sufficient fuel, succeeds and consumes exactly the descriptor. -/
theorem descriptor_parse {t : JvmType} (hns : noSemi t = true) (fuel : Nat) (r : Chars)
    (hfuel : (descriptor t).length ≤ fuel) :
    parse fuel (descriptor t ++ r) = some (t, r) :=
  (descriptor_parse_aux (descriptor t).length).1 t hns (le_refl _) fuel r hfuel

/-- Canonicality at top level. -/
theorem parse_shape {fuel : Nat} {s : Chars} {t : JvmType} {r : Chars}
    (h : parse fuel s = some (t, r)) :
    s = descriptor t ++ r ∧ noSemi t = true :=
  (parse_shape_aux fuel).1 s t r h

end JvmType

namespace JvmType

theorem get_type_mk (s : Chars) :
    get_type (String.mk s) = (parse (s.length + 1) s).map Prod.fst := rfl

/-- C1.  Descriptor round-trip: for every descriptor string derivable from the
grammar in spec section 4.1, `Type::get_type` followed by `get_descriptor` is
the identity on the string; and for every `Type` value the parser can produce
(i.e. any successful result of `Type::parse`), `get_type (get_descriptor t)`
returns `t` itself. -/
theorem spec_C1_descriptor_roundtrip :
    (∀ s : Chars, Derivable s →
      ∃ t, get_type (String.mk s) = some t ∧ get_descriptor t = String.mk s) ∧
    (∀ (fuel : Nat) (s : Chars) (t : JvmType) (rest : Chars),
      parse fuel s = some (t, rest) → get_type (get_descriptor t) = some t) := by
  constructor
  · intro s hs
    obtain ⟨t, hns, hdesc⟩ := derivable_exists hs
    refine ⟨t, ?_, ?_⟩
    · rw [get_type_mk]
      have := descriptor_parse hns (s.length + 1) [] (by rw [hdesc]; omega)
      rw [List.append_nil, hdesc] at this
      rw [this]
      rfl
    · rw [get_descriptor, hdesc]
  · intro fuel s t rest h
    obtain ⟨_, hns⟩ := parse_shape h
    show (parse ((descriptor t).length + 1) (descriptor t)).map Prod.fst = some t
    have := descriptor_parse hns ((descriptor t).length + 1) [] (by omega)
    rw [List.append_nil] at this
    rw [this]
    rfl

/-- Witness for C1 at concrete inputs: the descriptor `"I"` round-trips, and
the parse result of `"IJ"` (the value `Int`) round-trips through
`get_descriptor`. -/
theorem spec_C1_witness :
    (∃ t, get_type (String.mk ['I']) = some t ∧ get_descriptor t = String.mk ['I']) ∧
    get_type (get_descriptor .Int) = some .Int :=
  ⟨spec_C1_descriptor_roundtrip.1 ['I'] (Derivable.ty DerivT.int),
   spec_C1_descriptor_roundtrip.2 2 ['I', 'J'] .Int ['J'] rfl⟩

/-- C9.  Parser failure on malformed descriptors: `Type::get_type` (whose
abort paths are `none` in this embedding) fails on an input exactly when no
parser-producible descriptor is a prefix of it — that is, whenever the single
forward scan hits a byte matching no grammar rule, an unterminated `L...;`
span, or an unterminated argument list; and it succeeds, producing the
corresponding value, on every descriptor derivable from the grammar. -/
theorem spec_C9_parse_failure :
    (∀ s : String, get_type s = none ↔
      ¬ ∃ t rest, s.data = descriptor t ++ rest ∧ noSemi t = true) ∧
    (∀ s : Chars, Derivable s →
      ∃ t, get_type (String.mk s) = some t ∧ get_descriptor t = String.mk s) := by
  constructor
  · intro s
    constructor
    · intro h
      rintro ⟨t, rest, hs, hns⟩
      have hlen : (descriptor t).length ≤ s.data.length + 1 := by
        rw [hs]; simp; omega
      have := descriptor_parse hns (s.data.length + 1) rest hlen
      rw [← hs] at this
      rw [show get_type s = (parse (s.data.length + 1) s.data).map Prod.fst from rfl, this] at h
      exact absurd h (by simp)
    · intro h
      cases heq : parse (s.data.length + 1) s.data with
      | none => rw [show get_type s = (parse (s.data.length + 1) s.data).map Prod.fst from rfl, heq]; rfl
      | some p =>
        obtain ⟨t, rest⟩ := p
        obtain ⟨hs, hns⟩ := parse_shape heq
        exact absurd ⟨t, rest, hs, hns⟩ h
  · exact spec_C1_descriptor_roundtrip.1

/-- Witness for C9 at concrete inputs: `"X"` (a byte matching no grammar rule)
fails, hence has no producible-descriptor prefix; and the derivable descriptor
`"V"` succeeds. -/
theorem spec_C9_witness :
    (¬ ∃ t rest, ("X" : String).data = descriptor t ++ rest ∧ noSemi t = true) ∧
    (∃ t, get_type (String.mk ['V']) = some t ∧ get_descriptor t = String.mk ['V']) :=
  ⟨(spec_C9_parse_failure.1 "X").mp rfl,
   spec_C9_parse_failure.2 ['V'] (Derivable.ty DerivT.void)⟩

/-- C10.  `Type::get_type` does not require the whole input to be consumed:
for any grammar-derivable descriptor `d` and arbitrary suffix `r`,
`get_type` on `d ++ r` succeeds and returns the same value as on `d` alone,
never examining the trailing characters. -/
theorem spec_C10_prefix_parse :
    ∀ (d r : Chars), Derivable d →
      get_type (String.mk (d ++ r)) = get_type (String.mk d) ∧
      ∃ t, get_type (String.mk (d ++ r)) = some t := by
  intro d r hd
  obtain ⟨t, hns, hdesc⟩ := derivable_exists hd
  have h1 : get_type (String.mk (d ++ r)) = some t := by
    rw [get_type_mk]
    have := descriptor_parse hns ((d ++ r).length + 1) r (by rw [hdesc]; simp; omega)
    rw [hdesc] at this
    rw [this]
    rfl
  have h2 : get_type (String.mk d) = some t := by
    rw [get_type_mk]
    have := descriptor_parse hns (d.length + 1) [] (by rw [hdesc]; omega)
    rw [List.append_nil, hdesc] at this
    rw [this]
    rfl
  exact ⟨h1.trans h2.symm, t, h1⟩

/-- Witness for C10: `get_type "IJ"` equals `get_type "I"` and succeeds
(with the value `Int`). -/
theorem spec_C10_witness :
    get_type (String.mk ['I', 'J']) = get_type (String.mk ['I']) ∧
    ∃ t, get_type (String.mk ['I', 'J']) = some t :=
  spec_C10_prefix_parse ['I'] ['J'] (Derivable.ty DerivT.int)

end JvmType

/-!
Part 2 embeds the constant-pool builder of `src/constant_pool.rs`:
the `CpInfo` entry union, the `Handle` record consumed by `method_handle`,
and `ConstantPoolBuilder` with its insertion operations and dedup maps.
`u16` indices are `Nat` values taken modulo `2^16` exactly where the source
performs an `as u16` cast.  `HashMap`s are modelled as functions to
`Option Nat`; `f32`/`f64` payloads are carried as opaque bit patterns (the
source never computes with them).
-/

/-- Alias (the `String` name is shadowed by the `CpInfo.String` constructor
inside match arms and the inductive declaration). -/
abbrev Str := String

/-- The `CpInfo` enum from `src/constant_pool.rs`: one entry per constant-pool
slot, each variant holding only indices into the same pool. -/
inductive CpInfo where
  | Unusable
  | Utf8 (value : Str)
  | Integer (value : Int)
  | Float (bits : Nat)
  | Long (value : Int)
  | Double (bits : Nat)
  | Class (name_index : Nat)
  | String (string_index : Nat)
  | Fieldref (class_index : Nat) (name_and_type_index : Nat)
  | Methodref (class_index : Nat) (name_and_type_index : Nat)
  | InterfaceMethodref (class_index : Nat) (name_and_type_index : Nat)
  | NameAndType (name_index : Nat) (descriptor_index : Nat)
  | MethodHandle (reference_kind : Nat) (reference_index : Nat)
  | MethodType (descriptor_index : Nat)
  | Dynamic (bootstrap_method_attr_index : Nat) (name_and_type_index : Nat)
  | InvokeDynamic (bootstrap_method_attr_index : Nat) (name_and_type_index : Nat)
  | Module (name_index : Nat)
  | Package (name_index : Nat)
  deriving DecidableEq

/-- Modelled from the spec: the `Handle` value from the instruction module
(`crate::insn`, which is not under `src/`).  Its fields are exactly those read
by `ConstantPoolBuilder::method_handle`: the reference kind (spec glossary
"Method handle reference kind"), the owner/name/descriptor of the referenced
member, and the interface flag. -/
structure Handle where
  reference_kind : Nat
  owner : Str
  name : Str
  descriptor : Str
  is_interface : Bool
  deriving DecidableEq

/-- A `HashMap<K, u16>` as a lookup function. -/
def CpMap (α : Type) : Type := α → Option Nat

/-- The empty map. -/
def CpMap.empty {α : Type} : CpMap α := fun _ => none

/-- `HashMap::insert`. -/
def CpMap.insert {α : Type} [DecidableEq α] (m : CpMap α) (k : α) (v : Nat) : CpMap α :=
  fun k' => if k' = k then some v else m k'

/-- `HashMap::entry(k).or_insert(v)`. -/
def CpMap.orInsert {α : Type} [DecidableEq α] (m : CpMap α) (k : α) (v : Nat) : CpMap α :=
  match m k with
  | some _ => m
  | none => m.insert k v

/-- `ConstantPoolBuilder` from `src/constant_pool.rs`: the entry sequence plus
one dedup map per semantically distinct constant shape.  Field defaults mirror
the Rust `Default` derive (empty pool, empty maps); map fields carry a `Map`
suffix because in Lean the insertion operations of the same names live in the
same namespace. -/
structure ConstantPoolBuilder where
  cp : List CpInfo := []
  utf8Map : CpMap Str := CpMap.empty
  classMap : CpMap Str := CpMap.empty
  stringMap : CpMap Str := CpMap.empty
  nameAndTypeMap : CpMap (Str × Str) := CpMap.empty
  fieldRefMap : CpMap (Str × Str × Str) := CpMap.empty
  methodRefMap : CpMap (Str × Str × Str) := CpMap.empty
  interfaceMethodRefMap : CpMap (Str × Str × Str) := CpMap.empty
  methodTypeMap : CpMap Str := CpMap.empty
  methodHandleMap : CpMap (Nat × Str × Str × Str × Bool) := CpMap.empty
  invokeDynamicMap : CpMap (Nat × Str × Str) := CpMap.empty

namespace ConstantPoolBuilder

/-- `ConstantPoolBuilder::new`: a pool containing only the reserved unusable
slot 0. -/
def new : ConstantPoolBuilder := { cp := [CpInfo.Unusable] }

/-- `ConstantPoolBuilder::into_pool`. -/
def into_pool (b : ConstantPoolBuilder) : List CpInfo := b.cp

/-- `ConstantPoolBuilder::push`: append and return the new entry's index as
`u16` (`(self.cp.len() - 1) as u16`). -/
def push (b : ConstantPoolBuilder) (entry : CpInfo) : Nat × ConstantPoolBuilder :=
  let cp := b.cp ++ [entry]
  ((cp.length - 1) % 65536, { b with cp := cp })

/-- `ConstantPoolBuilder::utf8`. -/
def utf8 (b : ConstantPoolBuilder) (value : Str) : Nat × ConstantPoolBuilder :=
  match b.utf8Map value with
  | some index => (index, b)
  | none =>
    let (index, b') := push b (.Utf8 value)
    (index, { b' with utf8Map := b'.utf8Map.insert value index })

/-- `ConstantPoolBuilder::class` (named `class_` since `class` is a Lean
keyword).  Recursively adds the UTF-8 name. -/
def class_ (b : ConstantPoolBuilder) (name : Str) : Nat × ConstantPoolBuilder :=
  match b.classMap name with
  | some index => (index, b)
  | none =>
    let (name_index, b1) := utf8 b name
    let (index, b2) := push b1 (.Class name_index)
    (index, { b2 with classMap := b2.classMap.insert name index })

/-- `ConstantPoolBuilder::string`. -/
def string (b : ConstantPoolBuilder) (value : Str) : Nat × ConstantPoolBuilder :=
  match b.stringMap value with
  | some index => (index, b)
  | none =>
    let (string_index, b1) := utf8 b value
    let (index, b2) := push b1 (.String string_index)
    (index, { b2 with stringMap := b2.stringMap.insert value index })

/-- `ConstantPoolBuilder::integer` (no dedup). -/
def integer (b : ConstantPoolBuilder) (value : Int) : Nat × ConstantPoolBuilder :=
  push b (.Integer value)

/-- `ConstantPoolBuilder::float` (no dedup; payload carried as opaque bits). -/
def float (b : ConstantPoolBuilder) (bits : Nat) : Nat × ConstantPoolBuilder :=
  push b (.Float bits)

/-- `ConstantPoolBuilder::long`: primary entry plus one `Unusable`
placeholder. -/
def long (b : ConstantPoolBuilder) (value : Int) : Nat × ConstantPoolBuilder :=
  let (index, b') := push b (.Long value)
  (index, { b' with cp := b'.cp ++ [.Unusable] })

/-- `ConstantPoolBuilder::double`: primary entry plus one `Unusable`
placeholder (payload carried as opaque bits). -/
def double (b : ConstantPoolBuilder) (bits : Nat) : Nat × ConstantPoolBuilder :=
  let (index, b') := push b (.Double bits)
  (index, { b' with cp := b'.cp ++ [.Unusable] })

/-- `ConstantPoolBuilder::name_and_type`. -/
def name_and_type (b : ConstantPoolBuilder) (name descriptor : Str) :
    Nat × ConstantPoolBuilder :=
  let key := (name, descriptor)
  match b.nameAndTypeMap key with
  | some index => (index, b)
  | none =>
    let (name_index, b1) := utf8 b name
    let (descriptor_index, b2) := utf8 b1 descriptor
    let (index, b3) := push b2 (.NameAndType name_index descriptor_index)
    (index, { b3 with nameAndTypeMap := b3.nameAndTypeMap.insert key index })

/-- `ConstantPoolBuilder::field_ref`. -/
def field_ref (b : ConstantPoolBuilder) (owner name descriptor : Str) :
    Nat × ConstantPoolBuilder :=
  let key := (owner, name, descriptor)
  match b.fieldRefMap key with
  | some index => (index, b)
  | none =>
    let (class_index, b1) := class_ b owner
    let (name_and_type_index, b2) := name_and_type b1 name descriptor
    let (index, b3) := push b2 (.Fieldref class_index name_and_type_index)
    (index, { b3 with fieldRefMap := b3.fieldRefMap.insert key index })

/-- `ConstantPoolBuilder::method_ref`. -/
def method_ref (b : ConstantPoolBuilder) (owner name descriptor : Str) :
    Nat × ConstantPoolBuilder :=
  let key := (owner, name, descriptor)
  match b.methodRefMap key with
  | some index => (index, b)
  | none =>
    let (class_index, b1) := class_ b owner
    let (name_and_type_index, b2) := name_and_type b1 name descriptor
    let (index, b3) := push b2 (.Methodref class_index name_and_type_index)
    (index, { b3 with methodRefMap := b3.methodRefMap.insert key index })

/-- `ConstantPoolBuilder::interface_method_ref`. -/
def interface_method_ref (b : ConstantPoolBuilder) (owner name descriptor : Str) :
    Nat × ConstantPoolBuilder :=
  let key := (owner, name, descriptor)
  match b.interfaceMethodRefMap key with
  | some index => (index, b)
  | none =>
    let (class_index, b1) := class_ b owner
    let (name_and_type_index, b2) := name_and_type b1 name descriptor
    let (index, b3) := push b2 (.InterfaceMethodref class_index name_and_type_index)
    (index, { b3 with interfaceMethodRefMap := b3.interfaceMethodRefMap.insert key index })

/-- `ConstantPoolBuilder::method_type`. -/
def method_type (b : ConstantPoolBuilder) (descriptor : Str) :
    Nat × ConstantPoolBuilder :=
  match b.methodTypeMap descriptor with
  | some index => (index, b)
  | none =>
    let (descriptor_index, b1) := utf8 b descriptor
    let (index, b2) := push b1 (.MethodType descriptor_index)
    (index, { b2 with methodTypeMap := b2.methodTypeMap.insert descriptor index })

/-- `ConstantPoolBuilder::method_handle`: reference-kind dispatch to
`field_ref` (kinds 1-4), `interface_method_ref` (kind 9) or `method_ref`
(all other kinds). -/
def method_handle (b : ConstantPoolBuilder) (handle : Handle) :
    Nat × ConstantPoolBuilder :=
  let key := (handle.reference_kind, handle.owner, handle.name,
    handle.descriptor, handle.is_interface)
  match b.methodHandleMap key with
  | some index => (index, b)
  | none =>
    let (reference_index, b1) :=
      if handle.reference_kind = 1 ∨ handle.reference_kind = 2 ∨
         handle.reference_kind = 3 ∨ handle.reference_kind = 4 then
        field_ref b handle.owner handle.name handle.descriptor
      else if handle.reference_kind = 9 then
        interface_method_ref b handle.owner handle.name handle.descriptor
      else
        method_ref b handle.owner handle.name handle.descriptor
    let (index, b2) := push b1 (.MethodHandle handle.reference_kind reference_index)
    (index, { b2 with methodHandleMap := b2.methodHandleMap.insert key index })

/-- `ConstantPoolBuilder::invoke_dynamic`. -/
def invoke_dynamic (b : ConstantPoolBuilder) (bsm_index : Nat) (name descriptor : Str) :
    Nat × ConstantPoolBuilder :=
  let key := (bsm_index, name, descriptor)
  match b.invokeDynamicMap key with
  | some index => (index, b)
  | none =>
    let (name_and_type_index, b1) := name_and_type b name descriptor
    let (index, b2) := push b1 (.InvokeDynamic bsm_index name_and_type_index)
    (index, { b2 with invokeDynamicMap := b2.invokeDynamicMap.insert key index })

end ConstantPoolBuilder

example : (ConstantPoolBuilder.method_ref ConstantPoolBuilder.new "a/B" "m" "()V").2.cp =
    [.Unusable, .Utf8 "a/B", .Class 1, .Utf8 "m", .Utf8 "()V",
     .NameAndType 3 4, .Methodref 2 5] := rfl
example : (ConstantPoolBuilder.method_ref ConstantPoolBuilder.new "a/B" "m" "()V").1 = 6 := rfl

namespace ConstantPoolBuilder

/-- The nested `cp_utf8` helper of `from_pool`. -/
def cp_utf8 (cp : List CpInfo) (index : Nat) : Option Str :=
  match cp[index]? with
  | some (.Utf8 value) => some value
  | _ => none

/-- The nested `cp_class_name` helper of `from_pool`. -/
def cp_class_name (cp : List CpInfo) (index : Nat) : Option Str :=
  match cp[index]? with
  | some (.Class name_index) => cp_utf8 cp name_index
  | _ => none

/-- The nested `cp_name_and_type` helper of `from_pool`. -/
def cp_name_and_type (cp : List CpInfo) (index : Nat) : Option (Str × Str) :=
  match cp[index]? with
  | some (.NameAndType name_index descriptor_index) =>
    match cp_utf8 cp name_index, cp_utf8 cp descriptor_index with
    | some name, some desc => some (name, desc)
    | _, _ => none
  | _ => none

/-- The nested `cp_member_ref` helper of `from_pool`. -/
def cp_member_ref (cp : List CpInfo) (index : Nat) :
    Option (Str × Str × Str × Bool) :=
  match cp[index]? with
  | some (.Fieldref class_index name_and_type_index) =>
    match cp_class_name cp class_index, cp_name_and_type cp name_and_type_index with
    | some owner, some (name, desc) => some (owner, name, desc, false)
    | _, _ => none
  | some (.Methodref class_index name_and_type_index) =>
    match cp_class_name cp class_index, cp_name_and_type cp name_and_type_index with
    | some owner, some (name, desc) => some (owner, name, desc, false)
    | _, _ => none
  | some (.InterfaceMethodref class_index name_and_type_index) =>
    match cp_class_name cp class_index, cp_name_and_type cp name_and_type_index with
    | some owner, some (name, desc) => some (owner, name, desc, true)
    | _, _ => none
  | _ => none

/-- One iteration of the map-rebuilding loop of `from_pool`: register entry
`entry`, which sits at position `index` of `cp`, in its dedup map — but only
if every index it depends on resolves (entries that fail to resolve are
silently skipped). -/
def registerEntry (cp : List CpInfo) (b : ConstantPoolBuilder) (index0 : Nat)
    (entry : CpInfo) : ConstantPoolBuilder :=
  match entry, index0 % 65536 with
  | .Utf8 value, index => { b with utf8Map := b.utf8Map.orInsert value index }
  | .Class name_index, index =>
    match cp_utf8 cp name_index with
    | some name => { b with classMap := b.classMap.orInsert name index }
    | none => b
  | .String string_index, index =>
    match cp_utf8 cp string_index with
    | some value => { b with stringMap := b.stringMap.orInsert value index }
    | none => b
  | .NameAndType name_index descriptor_index, index =>
    match cp_utf8 cp name_index, cp_utf8 cp descriptor_index with
    | some name, some desc =>
      { b with nameAndTypeMap := b.nameAndTypeMap.orInsert (name, desc) index }
    | _, _ => b
  | .Fieldref class_index name_and_type_index, index =>
    match cp_class_name cp class_index, cp_name_and_type cp name_and_type_index with
    | some owner, some (name, desc) =>
      { b with fieldRefMap := b.fieldRefMap.orInsert (owner, name, desc) index }
    | _, _ => b
  | .Methodref class_index name_and_type_index, index =>
    match cp_class_name cp class_index, cp_name_and_type cp name_and_type_index with
    | some owner, some (name, desc) =>
      { b with methodRefMap := b.methodRefMap.orInsert (owner, name, desc) index }
    | _, _ => b
  | .InterfaceMethodref class_index name_and_type_index, index =>
    match cp_class_name cp class_index, cp_name_and_type cp name_and_type_index with
    | some owner, some (name, desc) =>
      { b with interfaceMethodRefMap :=
          b.interfaceMethodRefMap.orInsert (owner, name, desc) index }
    | _, _ => b
  | .MethodType descriptor_index, index =>
    match cp_utf8 cp descriptor_index with
    | some desc => { b with methodTypeMap := b.methodTypeMap.orInsert desc index }
    | none => b
  | .MethodHandle reference_kind reference_index, index =>
    match cp_member_ref cp reference_index with
    | some (owner, name, desc, is_interface) =>
      { b with methodHandleMap :=
          b.methodHandleMap.orInsert (reference_kind, owner, name, desc, is_interface) index }
    | none => b
  | .InvokeDynamic bootstrap_method_attr_index name_and_type_index, index =>
    match cp_name_and_type cp name_and_type_index with
    | some (name, desc) =>
      { b with invokeDynamicMap :=
          b.invokeDynamicMap.orInsert (bootstrap_method_attr_index, name, desc) index }
    | none => b
  | _, _ => b

/-- The `for (index, entry) in builder.cp.iter().enumerate()` loop of
`from_pool`, carrying the running position. -/
def registerAll (cp : List CpInfo) : Nat → List CpInfo → ConstantPoolBuilder → ConstantPoolBuilder
  | _, [], b => b
  | i, e :: rest, b => registerAll cp (i + 1) rest (registerEntry cp b i e)

/-- `ConstantPoolBuilder::from_pool`: adopt a pre-populated sequence (or seed
one unusable slot if it is empty) and rebuild every dedup map by a single
pass over the entries. -/
def from_pool (pool : List CpInfo) : ConstantPoolBuilder :=
  let cp := if pool.isEmpty then [CpInfo.Unusable] else pool
  registerAll cp 0 cp { cp := cp }

end ConstantPoolBuilder

/-- One insertion operation of the builder, for reasoning about arbitrary
call sequences. -/
inductive Op where
  | utf8 (value : Str)
  | class_ (name : Str)
  | string (value : Str)
  | integer (value : Int)
  | float (bits : Nat)
  | long (value : Int)
  | double (bits : Nat)
  | name_and_type (name descriptor : Str)
  | field_ref (owner name descriptor : Str)
  | method_ref (owner name descriptor : Str)
  | interface_method_ref (owner name descriptor : Str)
  | method_type (descriptor : Str)
  | method_handle (handle : Handle)
  | invoke_dynamic (bsm_index : Nat) (name descriptor : Str)
  deriving DecidableEq

namespace Op

/-- Dispatch an operation to the corresponding builder method. -/
def run (b : ConstantPoolBuilder) : Op → Nat × ConstantPoolBuilder
  | .utf8 v => b.utf8 v
  | .class_ n => b.class_ n
  | .string v => b.string v
  | .integer v => b.integer v
  | .float v => b.float v
  | .long v => b.long v
  | .double v => b.double v
  | .name_and_type n d => b.name_and_type n d
  | .field_ref o n d => b.field_ref o n d
  | .method_ref o n d => b.method_ref o n d
  | .interface_method_ref o n d => b.interface_method_ref o n d
  | .method_type d => b.method_type d
  | .method_handle h => b.method_handle h
  | .invoke_dynamic i n d => b.invoke_dynamic i n d

/-- The dedup-map lookup each operation performs first (the numeric literal
operations keep no dedup map). -/
def lookup (b : ConstantPoolBuilder) : Op → Option Nat
  | .utf8 v => b.utf8Map v
  | .class_ n => b.classMap n
  | .string v => b.stringMap v
  | .integer _ => none
  | .float _ => none
  | .long _ => none
  | .double _ => none
  | .name_and_type n d => b.nameAndTypeMap (n, d)
  | .field_ref o n d => b.fieldRefMap (o, n, d)
  | .method_ref o n d => b.methodRefMap (o, n, d)
  | .interface_method_ref o n d => b.interfaceMethodRefMap (o, n, d)
  | .method_type d => b.methodTypeMap d
  | .method_handle h =>
    b.methodHandleMap (h.reference_kind, h.owner, h.name, h.descriptor, h.is_interface)
  | .invoke_dynamic i n d => b.invokeDynamicMap (i, n, d)

/-- Whether the operation deduplicates (all but the numeric literals). -/
def dedupable : Op → Bool
  | .integer _ | .float _ | .long _ | .double _ => false
  | _ => true

/-- The immediate dependency operations a composite insertion resolves
recursively before appending its own entry. -/
def deps : Op → List Op
  | .utf8 _ => []
  | .class_ n => [.utf8 n]
  | .string v => [.utf8 v]
  | .integer _ => []
  | .float _ => []
  | .long _ => []
  | .double _ => []
  | .name_and_type n d => [.utf8 n, .utf8 d]
  | .field_ref o n d => [.class_ o, .name_and_type n d]
  | .method_ref o n d => [.class_ o, .name_and_type n d]
  | .interface_method_ref o n d => [.class_ o, .name_and_type n d]
  | .method_type d => [.utf8 d]
  | .method_handle h =>
    if h.reference_kind = 1 ∨ h.reference_kind = 2 ∨
       h.reference_kind = 3 ∨ h.reference_kind = 4 then
      [.field_ref h.owner h.name h.descriptor]
    else if h.reference_kind = 9 then
      [.interface_method_ref h.owner h.name h.descriptor]
    else
      [.method_ref h.owner h.name h.descriptor]
  | .invoke_dynamic _ n d => [.name_and_type n d]

/-- Run a sequence of operations from a starting builder. -/
def runSeq (b : ConstantPoolBuilder) : List Op → ConstantPoolBuilder
  | [] => b
  | op :: rest => runSeq (run b op).2 rest

/-- The pool length stays within the 65536-slot `u16` range after every step
of the sequence. -/
def boundedRun (b : ConstantPoolBuilder) : List Op → Bool
  | [] => true
  | op :: rest =>
    decide ((run b op).2.cp.length ≤ 65536) && boundedRun (run b op).2 rest

end Op

/-!
Semantic layer: what it means for a pool index to resolve to a given logical
constant, per-variant index-wiring well-formedness, and monotonicity of both
under appending entries.
-/

theorem getElem?_append_of_some {α : Type} {l t : List α} {i : Nat} {x : α}
    (h : l[i]? = some x) : (l ++ t)[i]? = some x := by
  rw [List.getElem?_append_left (List.getElem?_eq_some.mp h).1]
  exact h

/-- Slot `i` holds `Utf8 s`. -/
def ResolvesUtf8 (cp : List CpInfo) (i : Nat) (s : Str) : Prop :=
  cp[i]? = some (.Utf8 s)

/-- Slot `i` holds a `Class` whose `name_index` resolves to `name`. -/
def ResolvesClass (cp : List CpInfo) (i : Nat) (name : Str) : Prop :=
  ∃ j, cp[i]? = some (.Class j) ∧ ResolvesUtf8 cp j name

/-- Slot `i` holds a `String` whose `string_index` resolves to `s`. -/
def ResolvesString (cp : List CpInfo) (i : Nat) (s : Str) : Prop :=
  ∃ j, cp[i]? = some (.String j) ∧ ResolvesUtf8 cp j s

/-- Slot `i` holds a `NameAndType` resolving to `(n, d)`. -/
def ResolvesNAT (cp : List CpInfo) (i : Nat) (n d : Str) : Prop :=
  ∃ j k, cp[i]? = some (.NameAndType j k) ∧ ResolvesUtf8 cp j n ∧ ResolvesUtf8 cp k d

/-- Slot `i` holds a `MethodType` whose `descriptor_index` resolves to `d`. -/
def ResolvesMethodType (cp : List CpInfo) (i : Nat) (d : Str) : Prop :=
  ∃ j, cp[i]? = some (.MethodType j) ∧ ResolvesUtf8 cp j d

/-- Slot `i` holds a `Fieldref` resolving to `(o, n, d)`. -/
def ResolvesFieldref (cp : List CpInfo) (i : Nat) (o n d : Str) : Prop :=
  ∃ c t, cp[i]? = some (.Fieldref c t) ∧ ResolvesClass cp c o ∧ ResolvesNAT cp t n d

/-- Slot `i` holds a `Methodref` resolving to `(o, n, d)`. -/
def ResolvesMethodref (cp : List CpInfo) (i : Nat) (o n d : Str) : Prop :=
  ∃ c t, cp[i]? = some (.Methodref c t) ∧ ResolvesClass cp c o ∧ ResolvesNAT cp t n d

/-- Slot `i` holds an `InterfaceMethodref` resolving to `(o, n, d)`. -/
def ResolvesInterfaceMethodref (cp : List CpInfo) (i : Nat) (o n d : Str) : Prop :=
  ∃ c t, cp[i]? = some (.InterfaceMethodref c t) ∧ ResolvesClass cp c o ∧ ResolvesNAT cp t n d

/-- Slot `i` holds an `InvokeDynamic` with the given bootstrap index whose
`name_and_type_index` resolves to `(n, d)`. -/
def ResolvesInvokeDynamic (cp : List CpInfo) (i : Nat) (bsm : Nat) (n d : Str) : Prop :=
  ∃ t, cp[i]? = some (.InvokeDynamic bsm t) ∧ ResolvesNAT cp t n d

/-- Slot `i` holds a `MethodHandle` with the given kind whose
`reference_index` resolves, through the member variant selected by the
reference-kind dispatch, to `(o, n, d)`. -/
def ResolvesMethodHandle (cp : List CpInfo) (i : Nat) (kind : Nat) (o n d : Str) : Prop :=
  ∃ r, cp[i]? = some (.MethodHandle kind r) ∧
    (if kind = 1 ∨ kind = 2 ∨ kind = 3 ∨ kind = 4 then ResolvesFieldref cp r o n d
     else if kind = 9 then ResolvesInterfaceMethodref cp r o n d
     else ResolvesMethodref cp r o n d)

theorem ResolvesUtf8_mono {cp t : List CpInfo} {i : Nat} {s : Str}
    (h : ResolvesUtf8 cp i s) : ResolvesUtf8 (cp ++ t) i s :=
  getElem?_append_of_some h

theorem ResolvesClass_mono {cp t : List CpInfo} {i : Nat} {s : Str}
    (h : ResolvesClass cp i s) : ResolvesClass (cp ++ t) i s := by
  obtain ⟨j, h1, h2⟩ := h
  exact ⟨j, getElem?_append_of_some h1, ResolvesUtf8_mono h2⟩

theorem ResolvesString_mono {cp t : List CpInfo} {i : Nat} {s : Str}
    (h : ResolvesString cp i s) : ResolvesString (cp ++ t) i s := by
  obtain ⟨j, h1, h2⟩ := h
  exact ⟨j, getElem?_append_of_some h1, ResolvesUtf8_mono h2⟩

theorem ResolvesNAT_mono {cp t : List CpInfo} {i : Nat} {n d : Str}
    (h : ResolvesNAT cp i n d) : ResolvesNAT (cp ++ t) i n d := by
  obtain ⟨j, k, h1, h2, h3⟩ := h
  exact ⟨j, k, getElem?_append_of_some h1, ResolvesUtf8_mono h2, ResolvesUtf8_mono h3⟩

theorem ResolvesMethodType_mono {cp t : List CpInfo} {i : Nat} {d : Str}
    (h : ResolvesMethodType cp i d) : ResolvesMethodType (cp ++ t) i d := by
  obtain ⟨j, h1, h2⟩ := h
  exact ⟨j, getElem?_append_of_some h1, ResolvesUtf8_mono h2⟩

theorem ResolvesFieldref_mono {cp t : List CpInfo} {i : Nat} {o n d : Str}
    (h : ResolvesFieldref cp i o n d) : ResolvesFieldref (cp ++ t) i o n d := by
  obtain ⟨c, x, h1, h2, h3⟩ := h
  exact ⟨c, x, getElem?_append_of_some h1, ResolvesClass_mono h2, ResolvesNAT_mono h3⟩

theorem ResolvesMethodref_mono {cp t : List CpInfo} {i : Nat} {o n d : Str}
    (h : ResolvesMethodref cp i o n d) : ResolvesMethodref (cp ++ t) i o n d := by
  obtain ⟨c, x, h1, h2, h3⟩ := h
  exact ⟨c, x, getElem?_append_of_some h1, ResolvesClass_mono h2, ResolvesNAT_mono h3⟩

theorem ResolvesInterfaceMethodref_mono {cp t : List CpInfo} {i : Nat} {o n d : Str}
    (h : ResolvesInterfaceMethodref cp i o n d) :
    ResolvesInterfaceMethodref (cp ++ t) i o n d := by
  obtain ⟨c, x, h1, h2, h3⟩ := h
  exact ⟨c, x, getElem?_append_of_some h1, ResolvesClass_mono h2, ResolvesNAT_mono h3⟩

theorem ResolvesInvokeDynamic_mono {cp t : List CpInfo} {i bsm : Nat} {n d : Str}
    (h : ResolvesInvokeDynamic cp i bsm n d) :
    ResolvesInvokeDynamic (cp ++ t) i bsm n d := by
  obtain ⟨x, h1, h2⟩ := h
  exact ⟨x, getElem?_append_of_some h1, ResolvesNAT_mono h2⟩

theorem ResolvesMethodHandle_mono {cp t : List CpInfo} {i kind : Nat} {o n d : Str}
    (h : ResolvesMethodHandle cp i kind o n d) :
    ResolvesMethodHandle (cp ++ t) i kind o n d := by
  obtain ⟨r, h1, h2⟩ := h
  refine ⟨r, getElem?_append_of_some h1, ?_⟩
  by_cases h4 : kind = 1 ∨ kind = 2 ∨ kind = 3 ∨ kind = 4
  · rw [if_pos h4] at h2 ⊢; exact ResolvesFieldref_mono h2
  · rw [if_neg h4] at h2 ⊢
    by_cases h9 : kind = 9
    · rw [if_pos h9] at h2 ⊢; exact ResolvesInterfaceMethodref_mono h2
    · rw [if_neg h9] at h2 ⊢; exact ResolvesMethodref_mono h2

/-- What the index returned by an operation means in the pool: the semantic
identity of the logical constant described by the operation's arguments.
The numeric literal operations keep no dedup map, so no meaning is
required. -/
def OpResolves (cp : List CpInfo) : Op → Nat → Prop
  | .utf8 v => fun i => ResolvesUtf8 cp i v
  | .class_ n => fun i => ResolvesClass cp i n
  | .string v => fun i => ResolvesString cp i v
  | .integer _ => fun _ => True
  | .float _ => fun _ => True
  | .long _ => fun _ => True
  | .double _ => fun _ => True
  | .name_and_type n d => fun i => ResolvesNAT cp i n d
  | .field_ref o n d => fun i => ResolvesFieldref cp i o n d
  | .method_ref o n d => fun i => ResolvesMethodref cp i o n d
  | .interface_method_ref o n d => fun i => ResolvesInterfaceMethodref cp i o n d
  | .method_type d => fun i => ResolvesMethodType cp i d
  | .method_handle h => fun i => ResolvesMethodHandle cp i h.reference_kind h.owner h.name h.descriptor
  | .invoke_dynamic bsm n d => fun i => ResolvesInvokeDynamic cp i bsm n d

theorem OpResolves_mono {cp t : List CpInfo} {op : Op} {i : Nat}
    (h : OpResolves cp op i) : OpResolves (cp ++ t) op i := by
  cases op <;> simp only [OpResolves] at h ⊢
  all_goals first
    | trivial
    | exact ResolvesUtf8_mono h
    | exact ResolvesClass_mono h
    | exact ResolvesString_mono h
    | exact ResolvesNAT_mono h
    | exact ResolvesMethodType_mono h
    | exact ResolvesFieldref_mono h
    | exact ResolvesMethodref_mono h
    | exact ResolvesInterfaceMethodref_mono h
    | exact ResolvesInvokeDynamic_mono h
    | exact ResolvesMethodHandle_mono h

/-- The builder's dedup maps are semantically consistent: every binding's
index resolves, in the current pool, to the logical constant named by the
key. -/
def MapsOk (b : ConstantPoolBuilder) : Prop :=
  ∀ op i, Op.lookup b op = some i → OpResolves b.cp op i

/-- Map bindings and the entry sequence only grow across an operation. -/
def MapsLE (b b' : ConstantPoolBuilder) : Prop :=
  ∀ op i, Op.lookup b op = some i → Op.lookup b' op = some i

theorem MapsLE.refl (b : ConstantPoolBuilder) : MapsLE b b := fun _ _ h => h

theorem MapsLE.trans {a b c : ConstantPoolBuilder}
    (h1 : MapsLE a b) (h2 : MapsLE b c) : MapsLE a c :=
  fun op i h => h2 op i (h1 op i h)

/-- Per-variant index-wiring well-formedness (spec section 3 invariant):
every index field points at a slot of the variant the referencing variant
expects. -/
def EntryWF (cp : List CpInfo) : CpInfo → Prop
  | .Class j => ∃ s, cp[j]? = some (.Utf8 s)
  | .String j => ∃ s, cp[j]? = some (.Utf8 s)
  | .NameAndType j k => (∃ s, cp[j]? = some (.Utf8 s)) ∧ (∃ s, cp[k]? = some (.Utf8 s))
  | .Fieldref c t =>
    (∃ j, cp[c]? = some (.Class j)) ∧ (∃ j k, cp[t]? = some (.NameAndType j k))
  | .Methodref c t =>
    (∃ j, cp[c]? = some (.Class j)) ∧ (∃ j k, cp[t]? = some (.NameAndType j k))
  | .InterfaceMethodref c t =>
    (∃ j, cp[c]? = some (.Class j)) ∧ (∃ j k, cp[t]? = some (.NameAndType j k))
  | .MethodHandle _ r =>
    (∃ c t, cp[r]? = some (.Fieldref c t)) ∨ (∃ c t, cp[r]? = some (.Methodref c t)) ∨
    (∃ c t, cp[r]? = some (.InterfaceMethodref c t))
  | .MethodType j => ∃ s, cp[j]? = some (.Utf8 s)
  | .InvokeDynamic _ t => ∃ j k, cp[t]? = some (.NameAndType j k)
  | _ => True

/-- Every entry of the pool is well-wired. -/
def WFpool (cp : List CpInfo) : Prop :=
  ∀ (i : Nat) (e : CpInfo), cp[i]? = some e → EntryWF cp e

theorem EntryWF_mono {cp t : List CpInfo} {e : CpInfo}
    (h : EntryWF cp e) : EntryWF (cp ++ t) e := by
  cases e <;> simp only [EntryWF] at h ⊢
  case Class j => obtain ⟨s, hs⟩ := h; exact ⟨s, getElem?_append_of_some hs⟩
  case String j => obtain ⟨s, hs⟩ := h; exact ⟨s, getElem?_append_of_some hs⟩
  case NameAndType j k =>
    obtain ⟨⟨s1, h1⟩, ⟨s2, h2⟩⟩ := h
    exact ⟨⟨s1, getElem?_append_of_some h1⟩, ⟨s2, getElem?_append_of_some h2⟩⟩
  case Fieldref c x =>
    obtain ⟨⟨j, h1⟩, ⟨j2, k2, h2⟩⟩ := h
    exact ⟨⟨j, getElem?_append_of_some h1⟩, ⟨j2, k2, getElem?_append_of_some h2⟩⟩
  case Methodref c x =>
    obtain ⟨⟨j, h1⟩, ⟨j2, k2, h2⟩⟩ := h
    exact ⟨⟨j, getElem?_append_of_some h1⟩, ⟨j2, k2, getElem?_append_of_some h2⟩⟩
  case InterfaceMethodref c x =>
    obtain ⟨⟨j, h1⟩, ⟨j2, k2, h2⟩⟩ := h
    exact ⟨⟨j, getElem?_append_of_some h1⟩, ⟨j2, k2, getElem?_append_of_some h2⟩⟩
  case MethodHandle k r =>
    rcases h with ⟨c, t', h1⟩ | ⟨c, t', h1⟩ | ⟨c, t', h1⟩
    · exact Or.inl ⟨c, t', getElem?_append_of_some h1⟩
    · exact Or.inr (Or.inl ⟨c, t', getElem?_append_of_some h1⟩)
    · exact Or.inr (Or.inr ⟨c, t', getElem?_append_of_some h1⟩)
  case MethodType j => obtain ⟨s, hs⟩ := h; exact ⟨s, getElem?_append_of_some hs⟩
  case InvokeDynamic bsm x =>
    obtain ⟨j, k, hs⟩ := h; exact ⟨j, k, getElem?_append_of_some hs⟩

/-- Appending one well-wired entry preserves pool well-formedness. -/
theorem WFpool.push {cp : List CpInfo} {e : CpInfo}
    (hwf : WFpool cp) (he : EntryWF (cp ++ [e]) e) : WFpool (cp ++ [e]) := by
  intro i x hx
  by_cases hi : i < cp.length
  · rw [List.getElem?_append_left hi] at hx
    exact EntryWF_mono (hwf i x hx)
  · have hlen : i < cp.length + 1 := by
      have := (List.getElem?_eq_some.mp hx).1
      simpa using this
    have hieq : i = cp.length := by omega
    subst hieq
    rw [List.getElem?_concat_length] at hx
    cases hx
    exact he

namespace ConstantPoolBuilder

/-- Structural facts about `utf8`: the pool is extended by at most one entry,
map bindings only grow, and afterwards the key is bound to the returned
index. -/
theorem utf8_spec (b : ConstantPoolBuilder) (s : Str) :
    (∃ tail, (b.utf8 s).2.cp = b.cp ++ tail ∧ tail.length ≤ 1) ∧
    MapsLE b (b.utf8 s).2 ∧
    (b.utf8 s).2.utf8Map s = some (b.utf8 s).1 := by
  unfold ConstantPoolBuilder.utf8
  cases h : b.utf8Map s with
  | some i =>
    simp only [h]
    exact ⟨⟨[], by simp, by simp⟩, MapsLE.refl b, trivial⟩
  | none =>
    simp only [h, ConstantPoolBuilder.push]
    refine ⟨⟨[CpInfo.Utf8 s], rfl, by simp⟩, ?_, ?_⟩
    · intro op i hl
      cases op <;> simp only [Op.lookup] at hl ⊢ <;> try exact hl
      rename_i v
      simp only [CpMap.insert]
      by_cases hv : v = s
      · subst hv; rw [hl] at h; exact absurd h (by simp)
      · rw [if_neg hv]; exact hl
    · simp [CpMap.insert]

/-- Semantic facts about `utf8`: map consistency is preserved, the returned
index resolves to the string, and pool well-formedness is preserved, given
the pool stays within the `u16` range. -/
theorem utf8_sem (b : ConstantPoolBuilder) (s : Str) (hok : MapsOk b)
    (hlen : (b.utf8 s).2.cp.length ≤ 65536) :
    MapsOk (b.utf8 s).2 ∧ ResolvesUtf8 (b.utf8 s).2.cp (b.utf8 s).1 s ∧
    (WFpool b.cp → WFpool (b.utf8 s).2.cp) := by
  unfold ConstantPoolBuilder.utf8 at hlen ⊢
  cases h : b.utf8Map s with
  | some i =>
    simp only [h] at hlen ⊢
    exact ⟨hok, hok (.utf8 s) i h, fun hwf => hwf⟩
  | none =>
    simp only [h, ConstantPoolBuilder.push] at hlen ⊢
    have hblen : b.cp.length < 65536 := by
      simp only [List.length_append, List.length_cons, List.length_nil] at hlen; omega
    have hidx : ((b.cp ++ [CpInfo.Utf8 s]).length - 1) % 65536 = b.cp.length := by
      simp only [List.length_append, List.length_cons, List.length_nil]
      rw [Nat.add_sub_cancel, Nat.mod_eq_of_lt hblen]
    have hres : ResolvesUtf8 (b.cp ++ [CpInfo.Utf8 s])
        (((b.cp ++ [CpInfo.Utf8 s]).length - 1) % 65536) s := by
      rw [hidx]
      exact List.getElem?_concat_length b.cp (CpInfo.Utf8 s)
    refine ⟨?_, hres, ?_⟩
    · intro op i hl
      cases op <;> simp only [Op.lookup] at hl <;>
        first
        | exact Option.noConfusion hl
        | exact OpResolves_mono (hok _ _ hl)
        | skip
      case utf8 v =>
        simp only [CpMap.insert] at hl
        by_cases hv : v = s
        · subst hv
          rw [if_pos rfl] at hl
          cases hl
          exact hres
        · rw [if_neg hv] at hl
          exact OpResolves_mono (hok (.utf8 v) _ hl)
    · intro hwf
      exact hwf.push trivial

end ConstantPoolBuilder

namespace ConstantPoolBuilder

/-- Structural facts about `class_`. -/
theorem class_spec (b : ConstantPoolBuilder) (name : Str) :
    (∃ tail, (b.class_ name).2.cp = b.cp ++ tail ∧ tail.length ≤ 2) ∧
    MapsLE b (b.class_ name).2 ∧
    (b.class_ name).2.classMap name = some (b.class_ name).1 ∧
    (b.classMap name = none → ((b.class_ name).2.utf8Map name).isSome) := by
  unfold ConstantPoolBuilder.class_
  cases h : b.classMap name with
  | some i =>
    simp only [h]
    exact ⟨⟨[], by simp, by simp⟩, MapsLE.refl b, trivial, fun hc => by simp [h] at hc⟩
  | none =>
    obtain ⟨hcp1, hle1, hpost1⟩ := utf8_spec b name
    rcases hp : b.utf8 name with ⟨ni, b1⟩
    rw [hp] at hcp1 hle1 hpost1
    simp only [h, hp, ConstantPoolBuilder.push]
    obtain ⟨t1, ht1, hlen1⟩ := hcp1
    refine ⟨⟨t1 ++ [CpInfo.Class ni], by rw [ht1, List.append_assoc],
      by simp only [List.length_append, List.length_cons, List.length_nil]; omega⟩, ?_, ?_, ?_⟩
    · intro op i hl
      have hl1 := hle1 op i hl
      cases op <;> simp only [Op.lookup] at hl hl1 ⊢ <;> try exact hl1
      rename_i k
      simp only [CpMap.insert]
      by_cases hk : k = name
      · subst hk; rw [hl] at h; exact Option.noConfusion h
      · rw [if_neg hk]; exact hl1
    · simp [CpMap.insert]
    · intro _
      show (b1.utf8Map name).isSome = true
      rw [hpost1]
      rfl

/-- Semantic facts about `class_`. -/
theorem class_sem (b : ConstantPoolBuilder) (name : Str) (hok : MapsOk b)
    (hlen : (b.class_ name).2.cp.length ≤ 65536) :
    MapsOk (b.class_ name).2 ∧ ResolvesClass (b.class_ name).2.cp (b.class_ name).1 name ∧
    (WFpool b.cp → WFpool (b.class_ name).2.cp) := by
  unfold ConstantPoolBuilder.class_ at hlen ⊢
  cases h : b.classMap name with
  | some i =>
    simp only [h] at hlen ⊢
    exact ⟨hok, hok (.class_ name) i h, fun hwf => hwf⟩
  | none =>
    rcases hp : b.utf8 name with ⟨ni, b1⟩
    simp only [h, hp, ConstantPoolBuilder.push] at hlen ⊢
    have hlen1 : (b.utf8 name).2.cp.length ≤ 65536 := by
      rw [hp]
      show b1.cp.length ≤ 65536
      simp only [List.length_append, List.length_cons, List.length_nil] at hlen
      omega
    obtain ⟨hok1, hres1, hwf1⟩ := utf8_sem b name hok hlen1
    rw [hp] at hok1 hres1 hwf1
    have hblen : b1.cp.length < 65536 := by
      simp only [List.length_append, List.length_cons, List.length_nil] at hlen
      omega
    have hidx : ((b1.cp ++ [CpInfo.Class ni]).length - 1) % 65536 = b1.cp.length := by
      simp only [List.length_append, List.length_cons, List.length_nil]
      rw [Nat.add_sub_cancel, Nat.mod_eq_of_lt hblen]
    have hres : ResolvesClass (b1.cp ++ [CpInfo.Class ni])
        (((b1.cp ++ [CpInfo.Class ni]).length - 1) % 65536) name := by
      rw [hidx]
      exact ⟨ni, List.getElem?_concat_length b1.cp (CpInfo.Class ni), ResolvesUtf8_mono hres1⟩
    refine ⟨?_, hres, ?_⟩
    · intro op i hl
      cases op <;> simp only [Op.lookup] at hl <;>
        first
        | exact Option.noConfusion hl
        | exact OpResolves_mono (hok1 _ _ hl)
        | skip
      case class_ k =>
        simp only [CpMap.insert] at hl
        by_cases hk : k = name
        · subst hk; rw [if_pos rfl] at hl; cases hl; exact hres
        · rw [if_neg hk] at hl; exact OpResolves_mono (hok1 _ _ hl)
    · intro hwf
      exact (hwf1 hwf).push ⟨name, ResolvesUtf8_mono hres1⟩

end ConstantPoolBuilder

namespace ConstantPoolBuilder

/-- Structural facts about `string`. -/
theorem string_spec (b : ConstantPoolBuilder) (v : Str) :
    (∃ tail, (b.string v).2.cp = b.cp ++ tail ∧ tail.length ≤ 2) ∧
    MapsLE b (b.string v).2 ∧
    (b.string v).2.stringMap v = some (b.string v).1 ∧
    (b.stringMap v = none → ((b.string v).2.utf8Map v).isSome) := by
  unfold ConstantPoolBuilder.string
  cases h : b.stringMap v with
  | some i =>
    simp only [h]
    exact ⟨⟨[], by simp, by simp⟩, MapsLE.refl b, trivial, fun hc => by simp [h] at hc⟩
  | none =>
    obtain ⟨hcp1, hle1, hpost1⟩ := utf8_spec b v
    rcases hp : b.utf8 v with ⟨ni, b1⟩
    rw [hp] at hcp1 hle1 hpost1
    simp only [h, hp, ConstantPoolBuilder.push]
    obtain ⟨t1, ht1, hlen1⟩ := hcp1
    refine ⟨⟨t1 ++ [CpInfo.String ni], by rw [ht1, List.append_assoc],
      by simp only [List.length_append, List.length_cons, List.length_nil]; omega⟩, ?_, ?_, ?_⟩
    · intro op i hl
      have hl1 := hle1 op i hl
      cases op <;> simp only [Op.lookup] at hl hl1 ⊢ <;> try exact hl1
      rename_i k
      simp only [CpMap.insert]
      by_cases hk : k = v
      · subst hk; rw [hl] at h; exact Option.noConfusion h
      · rw [if_neg hk]; exact hl1
    · simp [CpMap.insert]
    · intro _
      show (b1.utf8Map v).isSome = true
      rw [hpost1]
      rfl

/-- Semantic facts about `string`. -/
theorem string_sem (b : ConstantPoolBuilder) (v : Str) (hok : MapsOk b)
    (hlen : (b.string v).2.cp.length ≤ 65536) :
    MapsOk (b.string v).2 ∧ ResolvesString (b.string v).2.cp (b.string v).1 v ∧
    (WFpool b.cp → WFpool (b.string v).2.cp) := by
  unfold ConstantPoolBuilder.string at hlen ⊢
  cases h : b.stringMap v with
  | some i =>
    simp only [h] at hlen ⊢
    exact ⟨hok, hok (.string v) i h, fun hwf => hwf⟩
  | none =>
    rcases hp : b.utf8 v with ⟨ni, b1⟩
    simp only [h, hp, ConstantPoolBuilder.push] at hlen ⊢
    have hlen1 : (b.utf8 v).2.cp.length ≤ 65536 := by
      rw [hp]
      show b1.cp.length ≤ 65536
      simp only [List.length_append, List.length_cons, List.length_nil] at hlen
      omega
    obtain ⟨hok1, hres1, hwf1⟩ := utf8_sem b v hok hlen1
    rw [hp] at hok1 hres1 hwf1
    have hblen : b1.cp.length < 65536 := by
      simp only [List.length_append, List.length_cons, List.length_nil] at hlen
      omega
    have hidx : ((b1.cp ++ [CpInfo.String ni]).length - 1) % 65536 = b1.cp.length := by
      simp only [List.length_append, List.length_cons, List.length_nil]
      rw [Nat.add_sub_cancel, Nat.mod_eq_of_lt hblen]
    have hres : ResolvesString (b1.cp ++ [CpInfo.String ni])
        (((b1.cp ++ [CpInfo.String ni]).length - 1) % 65536) v := by
      rw [hidx]
      exact ⟨ni, List.getElem?_concat_length b1.cp (CpInfo.String ni), ResolvesUtf8_mono hres1⟩
    refine ⟨?_, hres, ?_⟩
    · intro op i hl
      cases op <;> simp only [Op.lookup] at hl <;>
        first
        | exact Option.noConfusion hl
        | exact OpResolves_mono (hok1 _ _ hl)
        | skip
      case string k =>
        simp only [CpMap.insert] at hl
        by_cases hk : k = v
        · subst hk; rw [if_pos rfl] at hl; cases hl; exact hres
        · rw [if_neg hk] at hl; exact OpResolves_mono (hok1 _ _ hl)
    · intro hwf
      exact (hwf1 hwf).push ⟨v, ResolvesUtf8_mono hres1⟩

/-- Structural facts about `method_type`. -/
theorem method_type_spec (b : ConstantPoolBuilder) (d : Str) :
    (∃ tail, (b.method_type d).2.cp = b.cp ++ tail ∧ tail.length ≤ 2) ∧
    MapsLE b (b.method_type d).2 ∧
    (b.method_type d).2.methodTypeMap d = some (b.method_type d).1 ∧
    (b.methodTypeMap d = none → ((b.method_type d).2.utf8Map d).isSome) := by
  unfold ConstantPoolBuilder.method_type
  cases h : b.methodTypeMap d with
  | some i =>
    simp only [h]
    exact ⟨⟨[], by simp, by simp⟩, MapsLE.refl b, trivial, fun hc => by simp [h] at hc⟩
  | none =>
    obtain ⟨hcp1, hle1, hpost1⟩ := utf8_spec b d
    rcases hp : b.utf8 d with ⟨ni, b1⟩
    rw [hp] at hcp1 hle1 hpost1
    simp only [h, hp, ConstantPoolBuilder.push]
    obtain ⟨t1, ht1, hlen1⟩ := hcp1
    refine ⟨⟨t1 ++ [CpInfo.MethodType ni], by rw [ht1, List.append_assoc],
      by simp only [List.length_append, List.length_cons, List.length_nil]; omega⟩, ?_, ?_, ?_⟩
    · intro op i hl
      have hl1 := hle1 op i hl
      cases op <;> simp only [Op.lookup] at hl hl1 ⊢ <;> try exact hl1
      rename_i k
      simp only [CpMap.insert]
      by_cases hk : k = d
      · subst hk; rw [hl] at h; exact Option.noConfusion h
      · rw [if_neg hk]; exact hl1
    · simp [CpMap.insert]
    · intro _
      show (b1.utf8Map d).isSome = true
      rw [hpost1]
      rfl

/-- Semantic facts about `method_type`. -/
theorem method_type_sem (b : ConstantPoolBuilder) (d : Str) (hok : MapsOk b)
    (hlen : (b.method_type d).2.cp.length ≤ 65536) :
    MapsOk (b.method_type d).2 ∧
    ResolvesMethodType (b.method_type d).2.cp (b.method_type d).1 d ∧
    (WFpool b.cp → WFpool (b.method_type d).2.cp) := by
  unfold ConstantPoolBuilder.method_type at hlen ⊢
  cases h : b.methodTypeMap d with
  | some i =>
    simp only [h] at hlen ⊢
    exact ⟨hok, hok (.method_type d) i h, fun hwf => hwf⟩
  | none =>
    rcases hp : b.utf8 d with ⟨ni, b1⟩
    simp only [h, hp, ConstantPoolBuilder.push] at hlen ⊢
    have hlen1 : (b.utf8 d).2.cp.length ≤ 65536 := by
      rw [hp]
      show b1.cp.length ≤ 65536
      simp only [List.length_append, List.length_cons, List.length_nil] at hlen
      omega
    obtain ⟨hok1, hres1, hwf1⟩ := utf8_sem b d hok hlen1
    rw [hp] at hok1 hres1 hwf1
    have hblen : b1.cp.length < 65536 := by
      simp only [List.length_append, List.length_cons, List.length_nil] at hlen
      omega
    have hidx : ((b1.cp ++ [CpInfo.MethodType ni]).length - 1) % 65536 = b1.cp.length := by
      simp only [List.length_append, List.length_cons, List.length_nil]
      rw [Nat.add_sub_cancel, Nat.mod_eq_of_lt hblen]
    have hres : ResolvesMethodType (b1.cp ++ [CpInfo.MethodType ni])
        (((b1.cp ++ [CpInfo.MethodType ni]).length - 1) % 65536) d := by
      rw [hidx]
      exact ⟨ni, List.getElem?_concat_length b1.cp (CpInfo.MethodType ni), ResolvesUtf8_mono hres1⟩
    refine ⟨?_, hres, ?_⟩
    · intro op i hl
      cases op <;> simp only [Op.lookup] at hl <;>
        first
        | exact Option.noConfusion hl
        | exact OpResolves_mono (hok1 _ _ hl)
        | skip
      case method_type k =>
        simp only [CpMap.insert] at hl
        by_cases hk : k = d
        · subst hk; rw [if_pos rfl] at hl; cases hl; exact hres
        · rw [if_neg hk] at hl; exact OpResolves_mono (hok1 _ _ hl)
    · intro hwf
      exact (hwf1 hwf).push ⟨d, ResolvesUtf8_mono hres1⟩

end ConstantPoolBuilder

namespace ConstantPoolBuilder

/-- Structural facts about `name_and_type`. -/
theorem name_and_type_spec (b : ConstantPoolBuilder) (n d : Str) :
    (∃ tail, (b.name_and_type n d).2.cp = b.cp ++ tail ∧ tail.length ≤ 3) ∧
    MapsLE b (b.name_and_type n d).2 ∧
    (b.name_and_type n d).2.nameAndTypeMap (n, d) = some (b.name_and_type n d).1 ∧
    (b.nameAndTypeMap (n, d) = none →
      ((b.name_and_type n d).2.utf8Map n).isSome ∧
      ((b.name_and_type n d).2.utf8Map d).isSome) := by
  unfold ConstantPoolBuilder.name_and_type
  cases h : b.nameAndTypeMap (n, d) with
  | some i =>
    simp only [h]
    exact ⟨⟨[], by simp, by simp⟩, MapsLE.refl b, trivial, fun hc => by simp [h] at hc⟩
  | none =>
    obtain ⟨hcp1, hle1, hpost1⟩ := utf8_spec b n
    rcases hp1 : b.utf8 n with ⟨ni, b1⟩
    rw [hp1] at hcp1 hle1 hpost1
    obtain ⟨hcp2, hle2, hpost2⟩ := utf8_spec b1 d
    rcases hp2 : b1.utf8 d with ⟨di, b2⟩
    rw [hp2] at hcp2 hle2 hpost2
    simp only [h, hp1, hp2, ConstantPoolBuilder.push]
    obtain ⟨t1, ht1, hlen1⟩ := hcp1
    obtain ⟨t2, ht2, hlen2⟩ := hcp2
    refine ⟨⟨t1 ++ t2 ++ [CpInfo.NameAndType ni di],
      by rw [ht2, ht1]; simp [List.append_assoc],
      by simp only [List.length_append, List.length_cons, List.length_nil]; omega⟩, ?_, ?_, ?_⟩
    · intro op i hl
      have hlK := (hle1.trans hle2) op i hl
      cases op <;> simp only [Op.lookup] at hl hlK ⊢ <;> try exact hlK
      rename_i x y
      simp only [CpMap.insert]
      by_cases hk : (x, y) = ((n : Str), (d : Str))
      · rw [hk] at hl; rw [hl] at h; exact Option.noConfusion h
      · rw [if_neg hk]; exact hlK
    · simp [CpMap.insert]
    · intro _
      constructor
      · show (b2.utf8Map n).isSome = true
        have hh : b2.utf8Map n = some ni := hle2 (.utf8 n) ni hpost1
        rw [hh]; rfl
      · show (b2.utf8Map d).isSome = true
        have hh : b2.utf8Map d = some di := hpost2
        rw [hh]; rfl

/-- Semantic facts about `name_and_type`. -/
theorem name_and_type_sem (b : ConstantPoolBuilder) (n d : Str) (hok : MapsOk b)
    (hlen : (b.name_and_type n d).2.cp.length ≤ 65536) :
    MapsOk (b.name_and_type n d).2 ∧
    ResolvesNAT (b.name_and_type n d).2.cp (b.name_and_type n d).1 n d ∧
    (WFpool b.cp → WFpool (b.name_and_type n d).2.cp) := by
  unfold ConstantPoolBuilder.name_and_type at hlen ⊢
  cases h : b.nameAndTypeMap (n, d) with
  | some i =>
    simp only [h] at hlen ⊢
    exact ⟨hok, hok (.name_and_type n d) i h, fun hwf => hwf⟩
  | none =>
    obtain ⟨hcp2s, hle2, hpost2⟩ := utf8_spec (b.utf8 n).2 d
    rcases hp1 : b.utf8 n with ⟨ni, b1⟩
    rw [hp1] at hcp2s hle2 hpost2
    rcases hp2 : b1.utf8 d with ⟨di, b2⟩
    rw [hp2] at hcp2s hle2 hpost2
    simp only [h, hp1, hp2, ConstantPoolBuilder.push] at hlen ⊢
    obtain ⟨t2, ht2, hlent2⟩ := hcp2s
    have hb2len : b2.cp.length < 65536 := by
      simp only [List.length_append, List.length_cons, List.length_nil] at hlen
      omega
    have hlen2 : (b1.utf8 d).2.cp.length ≤ 65536 := by
      rw [hp2]; show b2.cp.length ≤ 65536; omega
    have hlen1 : (b.utf8 n).2.cp.length ≤ 65536 := by
      rw [hp1]
      show b1.cp.length ≤ 65536
      have : b2.cp.length = b1.cp.length + t2.length := by rw [ht2]; simp
      omega
    obtain ⟨hok1, hres1, hwf1⟩ := utf8_sem b n hok hlen1
    rw [hp1] at hok1 hres1 hwf1
    obtain ⟨hok2, hres2, hwf2⟩ := utf8_sem b1 d hok1 hlen2
    rw [hp2] at hok2 hres2 hwf2
    have hres1' : ResolvesUtf8 b2.cp ni n := by rw [ht2]; exact ResolvesUtf8_mono hres1
    have hidx : ((b2.cp ++ [CpInfo.NameAndType ni di]).length - 1) % 65536 = b2.cp.length := by
      simp only [List.length_append, List.length_cons, List.length_nil]
      rw [Nat.add_sub_cancel, Nat.mod_eq_of_lt hb2len]
    have hres : ResolvesNAT (b2.cp ++ [CpInfo.NameAndType ni di])
        (((b2.cp ++ [CpInfo.NameAndType ni di]).length - 1) % 65536) n d := by
      rw [hidx]
      exact ⟨ni, di, List.getElem?_concat_length b2.cp (CpInfo.NameAndType ni di),
        ResolvesUtf8_mono hres1', ResolvesUtf8_mono hres2⟩
    refine ⟨?_, hres, ?_⟩
    · intro op i hl
      cases op <;> simp only [Op.lookup] at hl <;>
        first
        | exact Option.noConfusion hl
        | exact OpResolves_mono (hok2 _ _ hl)
        | skip
      case name_and_type x y =>
        simp only [CpMap.insert] at hl
        by_cases hk : (x, y) = ((n : Str), (d : Str))
        · rw [hk, if_pos rfl] at hl
          cases hl
          obtain ⟨hx, hy⟩ := Prod.mk.injEq .. ▸ hk
          subst hx; subst hy
          exact hres
        · rw [if_neg hk] at hl
          exact OpResolves_mono (hok2 _ _ hl)
    · intro hwf
      exact (hwf2 (hwf1 hwf)).push ⟨⟨n, ResolvesUtf8_mono hres1'⟩, ⟨d, ResolvesUtf8_mono hres2⟩⟩

end ConstantPoolBuilder

namespace ConstantPoolBuilder

/-- Structural facts about `field_ref`. -/
theorem field_ref_spec (b : ConstantPoolBuilder) (o n d : Str) :
    (∃ tail, (b.field_ref o n d).2.cp = b.cp ++ tail ∧ tail.length ≤ 6) ∧
    MapsLE b (b.field_ref o n d).2 ∧
    (b.field_ref o n d).2.fieldRefMap (o, n, d) = some (b.field_ref o n d).1 ∧
    (b.fieldRefMap (o, n, d) = none →
      ((b.field_ref o n d).2.classMap o).isSome ∧
      ((b.field_ref o n d).2.nameAndTypeMap (n, d)).isSome ∧
      ∃ m c t, (b.field_ref o n d).2.cp = m ++ [CpInfo.Fieldref c t] ∧
        b.cp.length ≤ m.length ∧ m.length ≤ b.cp.length + 5 ∧
        (b.field_ref o n d).1 = m.length % 65536) := by
  unfold ConstantPoolBuilder.field_ref
  cases h : b.fieldRefMap (o, n, d) with
  | some i =>
    simp only [h]
    exact ⟨⟨[], by simp, by simp⟩, MapsLE.refl b, trivial, fun hc => by simp [h] at hc⟩
  | none =>
    obtain ⟨hcp1, hle1, hpost1, _⟩ := class_spec b o
    rcases hp1 : b.class_ o with ⟨ci, b1⟩
    rw [hp1] at hcp1 hle1 hpost1
    obtain ⟨hcp2, hle2, hpost2, _⟩ := name_and_type_spec b1 n d
    rcases hp2 : b1.name_and_type n d with ⟨ti, b2⟩
    rw [hp2] at hcp2 hle2 hpost2
    simp only [h, hp1, hp2, ConstantPoolBuilder.push]
    obtain ⟨t1, ht1, hl1⟩ := hcp1
    obtain ⟨t2, ht2, hl2⟩ := hcp2
    have hb1 : b1.cp = b.cp ++ t1 := ht1
    have hb2 : b2.cp = b1.cp ++ t2 := ht2
    refine ⟨⟨t1 ++ t2 ++ [CpInfo.Fieldref ci ti],
      by rw [hb2, hb1]; simp [List.append_assoc],
      by simp only [List.length_append, List.length_cons, List.length_nil]; omega⟩, ?_, ?_, ?_⟩
    · intro op i hl
      have hlK : Op.lookup b2 op = some i := (hle1.trans hle2) op i hl
      cases op <;> simp only [Op.lookup] at hl hlK ⊢ <;> try exact hlK
      rename_i x y z
      simp only [CpMap.insert]
      by_cases hk : (x, y, z) = ((o : Str), (n : Str), (d : Str))
      · rw [hk] at hl; rw [hl] at h; exact Option.noConfusion h
      · rw [if_neg hk]; exact hlK
    · simp [CpMap.insert]
    · intro _
      have hc : b2.classMap o = some ci := hle2 (.class_ o) ci hpost1
      have ht : b2.nameAndTypeMap (n, d) = some ti := hpost2
      refine ⟨by show (b2.classMap o).isSome = true; rw [hc]; rfl,
        by show (b2.nameAndTypeMap (n, d)).isSome = true; rw [ht]; rfl,
        b2.cp, ci, ti, rfl, ?_, ?_, ?_⟩
      · rw [hb2, hb1]; simp only [List.length_append]; omega
      · rw [hb2, hb1]; simp only [List.length_append]; omega
      · simp only [List.length_append, List.length_cons, List.length_nil, Nat.add_sub_cancel]

/-- Semantic facts about `field_ref`. -/
theorem field_ref_sem (b : ConstantPoolBuilder) (o n d : Str) (hok : MapsOk b)
    (hlen : (b.field_ref o n d).2.cp.length ≤ 65536) :
    MapsOk (b.field_ref o n d).2 ∧
    ResolvesFieldref (b.field_ref o n d).2.cp (b.field_ref o n d).1 o n d ∧
    (WFpool b.cp → WFpool (b.field_ref o n d).2.cp) := by
  unfold ConstantPoolBuilder.field_ref at hlen ⊢
  cases h : b.fieldRefMap (o, n, d) with
  | some i =>
    simp only [h] at hlen ⊢
    exact ⟨hok, hok (.field_ref o n d) i h, fun hwf => hwf⟩
  | none =>
    obtain ⟨hcp1, _, _, _⟩ := class_spec b o
    rcases hp1 : b.class_ o with ⟨ci, b1⟩
    rw [hp1] at hcp1
    obtain ⟨hcp2, _, _, _⟩ := name_and_type_spec b1 n d
    rcases hp2 : b1.name_and_type n d with ⟨ti, b2⟩
    rw [hp2] at hcp2
    simp only [h, hp1, hp2, ConstantPoolBuilder.push] at hlen ⊢
    obtain ⟨t1, ht1, _⟩ := hcp1
    obtain ⟨t2, ht2, _⟩ := hcp2
    have hb1 : b1.cp = b.cp ++ t1 := ht1
    have hb2 : b2.cp = b1.cp ++ t2 := ht2
    have hb2len : b2.cp.length < 65536 := by
      simp only [List.length_append, List.length_cons, List.length_nil] at hlen
      omega
    have hlen2 : (b1.name_and_type n d).2.cp.length ≤ 65536 := by
      rw [hp2]; show b2.cp.length ≤ 65536; omega
    have hlen1 : (b.class_ o).2.cp.length ≤ 65536 := by
      rw [hp1]
      show b1.cp.length ≤ 65536
      have : b2.cp.length = b1.cp.length + t2.length := by rw [hb2]; simp
      omega
    obtain ⟨hok1, hresC, hwf1⟩ := class_sem b o hok hlen1
    rw [hp1] at hok1 hresC hwf1
    have hokB1 : MapsOk b1 := hok1
    have hresC1 : ResolvesClass b1.cp ci o := hresC
    obtain ⟨hok2, hresT, hwf2⟩ := name_and_type_sem b1 n d hokB1 hlen2
    rw [hp2] at hok2 hresT hwf2
    have hokB2 : MapsOk b2 := hok2
    have hresT2 : ResolvesNAT b2.cp ti n d := hresT
    have hresC2 : ResolvesClass b2.cp ci o := by rw [hb2]; exact ResolvesClass_mono hresC1
    have hidx : ((b2.cp ++ [CpInfo.Fieldref ci ti]).length - 1) % 65536 = b2.cp.length := by
      simp only [List.length_append, List.length_cons, List.length_nil]
      rw [Nat.add_sub_cancel, Nat.mod_eq_of_lt hb2len]
    have hres : ResolvesFieldref (b2.cp ++ [CpInfo.Fieldref ci ti])
        (((b2.cp ++ [CpInfo.Fieldref ci ti]).length - 1) % 65536) o n d := by
      rw [hidx]
      exact ⟨ci, ti, List.getElem?_concat_length b2.cp (CpInfo.Fieldref ci ti),
        ResolvesClass_mono hresC2, ResolvesNAT_mono hresT2⟩
    refine ⟨?_, hres, ?_⟩
    · intro op i hl
      cases op <;> simp only [Op.lookup] at hl <;>
        first
        | exact Option.noConfusion hl
        | exact OpResolves_mono (hokB2 _ _ hl)
        | skip
      case field_ref x y z =>
        simp only [CpMap.insert] at hl
        by_cases hk : (x, y, z) = ((o : Str), (n : Str), (d : Str))
        · rw [hk, if_pos rfl] at hl
          cases hl
          obtain ⟨hx, hyz⟩ := Prod.mk.injEq .. ▸ hk
          obtain ⟨hy, hz⟩ := Prod.mk.injEq .. ▸ hyz
          subst hx; subst hy; subst hz
          exact hres
        · rw [if_neg hk] at hl
          exact OpResolves_mono (hokB2 _ _ hl)
    · intro hwf
      obtain ⟨j, hj, _⟩ := ResolvesClass_mono (t := [CpInfo.Fieldref ci ti]) hresC2
      obtain ⟨j2, k2, hjk, _, _⟩ := ResolvesNAT_mono (t := [CpInfo.Fieldref ci ti]) hresT2
      exact (hwf2 (hwf1 hwf)).push ⟨⟨j, hj⟩, ⟨j2, k2, hjk⟩⟩

/-- Structural facts about `method_ref`. -/
theorem method_ref_spec (b : ConstantPoolBuilder) (o n d : Str) :
    (∃ tail, (b.method_ref o n d).2.cp = b.cp ++ tail ∧ tail.length ≤ 6) ∧
    MapsLE b (b.method_ref o n d).2 ∧
    (b.method_ref o n d).2.methodRefMap (o, n, d) = some (b.method_ref o n d).1 ∧
    (b.methodRefMap (o, n, d) = none →
      ((b.method_ref o n d).2.classMap o).isSome ∧
      ((b.method_ref o n d).2.nameAndTypeMap (n, d)).isSome ∧
      ∃ m c t, (b.method_ref o n d).2.cp = m ++ [CpInfo.Methodref c t] ∧
        b.cp.length ≤ m.length ∧ m.length ≤ b.cp.length + 5 ∧
        (b.method_ref o n d).1 = m.length % 65536) := by
  unfold ConstantPoolBuilder.method_ref
  cases h : b.methodRefMap (o, n, d) with
  | some i =>
    simp only [h]
    exact ⟨⟨[], by simp, by simp⟩, MapsLE.refl b, trivial, fun hc => by simp [h] at hc⟩
  | none =>
    obtain ⟨hcp1, hle1, hpost1, _⟩ := class_spec b o
    rcases hp1 : b.class_ o with ⟨ci, b1⟩
    rw [hp1] at hcp1 hle1 hpost1
    obtain ⟨hcp2, hle2, hpost2, _⟩ := name_and_type_spec b1 n d
    rcases hp2 : b1.name_and_type n d with ⟨ti, b2⟩
    rw [hp2] at hcp2 hle2 hpost2
    simp only [h, hp1, hp2, ConstantPoolBuilder.push]
    obtain ⟨t1, ht1, hl1⟩ := hcp1
    obtain ⟨t2, ht2, hl2⟩ := hcp2
    have hb1 : b1.cp = b.cp ++ t1 := ht1
    have hb2 : b2.cp = b1.cp ++ t2 := ht2
    refine ⟨⟨t1 ++ t2 ++ [CpInfo.Methodref ci ti],
      by rw [hb2, hb1]; simp [List.append_assoc],
      by simp only [List.length_append, List.length_cons, List.length_nil]; omega⟩, ?_, ?_, ?_⟩
    · intro op i hl
      have hlK : Op.lookup b2 op = some i := (hle1.trans hle2) op i hl
      cases op <;> simp only [Op.lookup] at hl hlK ⊢ <;> try exact hlK
      rename_i x y z
      simp only [CpMap.insert]
      by_cases hk : (x, y, z) = ((o : Str), (n : Str), (d : Str))
      · rw [hk] at hl; rw [hl] at h; exact Option.noConfusion h
      · rw [if_neg hk]; exact hlK
    · simp [CpMap.insert]
    · intro _
      have hc : b2.classMap o = some ci := hle2 (.class_ o) ci hpost1
      have ht : b2.nameAndTypeMap (n, d) = some ti := hpost2
      refine ⟨by show (b2.classMap o).isSome = true; rw [hc]; rfl,
        by show (b2.nameAndTypeMap (n, d)).isSome = true; rw [ht]; rfl,
        b2.cp, ci, ti, rfl, ?_, ?_, ?_⟩
      · rw [hb2, hb1]; simp only [List.length_append]; omega
      · rw [hb2, hb1]; simp only [List.length_append]; omega
      · simp only [List.length_append, List.length_cons, List.length_nil, Nat.add_sub_cancel]

/-- Semantic facts about `method_ref`. -/
theorem method_ref_sem (b : ConstantPoolBuilder) (o n d : Str) (hok : MapsOk b)
    (hlen : (b.method_ref o n d).2.cp.length ≤ 65536) :
    MapsOk (b.method_ref o n d).2 ∧
    ResolvesMethodref (b.method_ref o n d).2.cp (b.method_ref o n d).1 o n d ∧
    (WFpool b.cp → WFpool (b.method_ref o n d).2.cp) := by
  unfold ConstantPoolBuilder.method_ref at hlen ⊢
  cases h : b.methodRefMap (o, n, d) with
  | some i =>
    simp only [h] at hlen ⊢
    exact ⟨hok, hok (.method_ref o n d) i h, fun hwf => hwf⟩
  | none =>
    obtain ⟨hcp1, _, _, _⟩ := class_spec b o
    rcases hp1 : b.class_ o with ⟨ci, b1⟩
    rw [hp1] at hcp1
    obtain ⟨hcp2, _, _, _⟩ := name_and_type_spec b1 n d
    rcases hp2 : b1.name_and_type n d with ⟨ti, b2⟩
    rw [hp2] at hcp2
    simp only [h, hp1, hp2, ConstantPoolBuilder.push] at hlen ⊢
    obtain ⟨t1, ht1, _⟩ := hcp1
    obtain ⟨t2, ht2, _⟩ := hcp2
    have hb1 : b1.cp = b.cp ++ t1 := ht1
    have hb2 : b2.cp = b1.cp ++ t2 := ht2
    have hb2len : b2.cp.length < 65536 := by
      simp only [List.length_append, List.length_cons, List.length_nil] at hlen
      omega
    have hlen2 : (b1.name_and_type n d).2.cp.length ≤ 65536 := by
      rw [hp2]; show b2.cp.length ≤ 65536; omega
    have hlen1 : (b.class_ o).2.cp.length ≤ 65536 := by
      rw [hp1]
      show b1.cp.length ≤ 65536
      have : b2.cp.length = b1.cp.length + t2.length := by rw [hb2]; simp
      omega
    obtain ⟨hok1, hresC, hwf1⟩ := class_sem b o hok hlen1
    rw [hp1] at hok1 hresC hwf1
    have hokB1 : MapsOk b1 := hok1
    have hresC1 : ResolvesClass b1.cp ci o := hresC
    obtain ⟨hok2, hresT, hwf2⟩ := name_and_type_sem b1 n d hokB1 hlen2
    rw [hp2] at hok2 hresT hwf2
    have hokB2 : MapsOk b2 := hok2
    have hresT2 : ResolvesNAT b2.cp ti n d := hresT
    have hresC2 : ResolvesClass b2.cp ci o := by rw [hb2]; exact ResolvesClass_mono hresC1
    have hidx : ((b2.cp ++ [CpInfo.Methodref ci ti]).length - 1) % 65536 = b2.cp.length := by
      simp only [List.length_append, List.length_cons, List.length_nil]
      rw [Nat.add_sub_cancel, Nat.mod_eq_of_lt hb2len]
    have hres : ResolvesMethodref (b2.cp ++ [CpInfo.Methodref ci ti])
        (((b2.cp ++ [CpInfo.Methodref ci ti]).length - 1) % 65536) o n d := by
      rw [hidx]
      exact ⟨ci, ti, List.getElem?_concat_length b2.cp (CpInfo.Methodref ci ti),
        ResolvesClass_mono hresC2, ResolvesNAT_mono hresT2⟩
    refine ⟨?_, hres, ?_⟩
    · intro op i hl
      cases op <;> simp only [Op.lookup] at hl <;>
        first
        | exact Option.noConfusion hl
        | exact OpResolves_mono (hokB2 _ _ hl)
        | skip
      case method_ref x y z =>
        simp only [CpMap.insert] at hl
        by_cases hk : (x, y, z) = ((o : Str), (n : Str), (d : Str))
        · rw [hk, if_pos rfl] at hl
          cases hl
          obtain ⟨hx, hyz⟩ := Prod.mk.injEq .. ▸ hk
          obtain ⟨hy, hz⟩ := Prod.mk.injEq .. ▸ hyz
          subst hx; subst hy; subst hz
          exact hres
        · rw [if_neg hk] at hl
          exact OpResolves_mono (hokB2 _ _ hl)
    · intro hwf
      obtain ⟨j, hj, _⟩ := ResolvesClass_mono (t := [CpInfo.Methodref ci ti]) hresC2
      obtain ⟨j2, k2, hjk, _, _⟩ := ResolvesNAT_mono (t := [CpInfo.Methodref ci ti]) hresT2
      exact (hwf2 (hwf1 hwf)).push ⟨⟨j, hj⟩, ⟨j2, k2, hjk⟩⟩

/-- Structural facts about `interface_method_ref`. -/
theorem interface_method_ref_spec (b : ConstantPoolBuilder) (o n d : Str) :
    (∃ tail, (b.interface_method_ref o n d).2.cp = b.cp ++ tail ∧ tail.length ≤ 6) ∧
    MapsLE b (b.interface_method_ref o n d).2 ∧
    (b.interface_method_ref o n d).2.interfaceMethodRefMap (o, n, d) = some (b.interface_method_ref o n d).1 ∧
    (b.interfaceMethodRefMap (o, n, d) = none →
      ((b.interface_method_ref o n d).2.classMap o).isSome ∧
      ((b.interface_method_ref o n d).2.nameAndTypeMap (n, d)).isSome ∧
      ∃ m c t, (b.interface_method_ref o n d).2.cp = m ++ [CpInfo.InterfaceMethodref c t] ∧
        b.cp.length ≤ m.length ∧ m.length ≤ b.cp.length + 5 ∧
        (b.interface_method_ref o n d).1 = m.length % 65536) := by
  unfold ConstantPoolBuilder.interface_method_ref
  cases h : b.interfaceMethodRefMap (o, n, d) with
  | some i =>
    simp only [h]
    exact ⟨⟨[], by simp, by simp⟩, MapsLE.refl b, trivial, fun hc => by simp [h] at hc⟩
  | none =>
    obtain ⟨hcp1, hle1, hpost1, _⟩ := class_spec b o
    rcases hp1 : b.class_ o with ⟨ci, b1⟩
    rw [hp1] at hcp1 hle1 hpost1
    obtain ⟨hcp2, hle2, hpost2, _⟩ := name_and_type_spec b1 n d
    rcases hp2 : b1.name_and_type n d with ⟨ti, b2⟩
    rw [hp2] at hcp2 hle2 hpost2
    simp only [h, hp1, hp2, ConstantPoolBuilder.push]
    obtain ⟨t1, ht1, hl1⟩ := hcp1
    obtain ⟨t2, ht2, hl2⟩ := hcp2
    have hb1 : b1.cp = b.cp ++ t1 := ht1
    have hb2 : b2.cp = b1.cp ++ t2 := ht2
    refine ⟨⟨t1 ++ t2 ++ [CpInfo.InterfaceMethodref ci ti],
      by rw [hb2, hb1]; simp [List.append_assoc],
      by simp only [List.length_append, List.length_cons, List.length_nil]; omega⟩, ?_, ?_, ?_⟩
    · intro op i hl
      have hlK : Op.lookup b2 op = some i := (hle1.trans hle2) op i hl
      cases op <;> simp only [Op.lookup] at hl hlK ⊢ <;> try exact hlK
      rename_i x y z
      simp only [CpMap.insert]
      by_cases hk : (x, y, z) = ((o : Str), (n : Str), (d : Str))
      · rw [hk] at hl; rw [hl] at h; exact Option.noConfusion h
      · rw [if_neg hk]; exact hlK
    · simp [CpMap.insert]
    · intro _
      have hc : b2.classMap o = some ci := hle2 (.class_ o) ci hpost1
      have ht : b2.nameAndTypeMap (n, d) = some ti := hpost2
      refine ⟨by show (b2.classMap o).isSome = true; rw [hc]; rfl,
        by show (b2.nameAndTypeMap (n, d)).isSome = true; rw [ht]; rfl,
        b2.cp, ci, ti, rfl, ?_, ?_, ?_⟩
      · rw [hb2, hb1]; simp only [List.length_append]; omega
      · rw [hb2, hb1]; simp only [List.length_append]; omega
      · simp only [List.length_append, List.length_cons, List.length_nil, Nat.add_sub_cancel]

/-- Semantic facts about `interface_method_ref`. -/
theorem interface_method_ref_sem (b : ConstantPoolBuilder) (o n d : Str) (hok : MapsOk b)
    (hlen : (b.interface_method_ref o n d).2.cp.length ≤ 65536) :
    MapsOk (b.interface_method_ref o n d).2 ∧
    ResolvesInterfaceMethodref (b.interface_method_ref o n d).2.cp (b.interface_method_ref o n d).1 o n d ∧
    (WFpool b.cp → WFpool (b.interface_method_ref o n d).2.cp) := by
  unfold ConstantPoolBuilder.interface_method_ref at hlen ⊢
  cases h : b.interfaceMethodRefMap (o, n, d) with
  | some i =>
    simp only [h] at hlen ⊢
    exact ⟨hok, hok (.interface_method_ref o n d) i h, fun hwf => hwf⟩
  | none =>
    obtain ⟨hcp1, _, _, _⟩ := class_spec b o
    rcases hp1 : b.class_ o with ⟨ci, b1⟩
    rw [hp1] at hcp1
    obtain ⟨hcp2, _, _, _⟩ := name_and_type_spec b1 n d
    rcases hp2 : b1.name_and_type n d with ⟨ti, b2⟩
    rw [hp2] at hcp2
    simp only [h, hp1, hp2, ConstantPoolBuilder.push] at hlen ⊢
    obtain ⟨t1, ht1, _⟩ := hcp1
    obtain ⟨t2, ht2, _⟩ := hcp2
    have hb1 : b1.cp = b.cp ++ t1 := ht1
    have hb2 : b2.cp = b1.cp ++ t2 := ht2
    have hb2len : b2.cp.length < 65536 := by
      simp only [List.length_append, List.length_cons, List.length_nil] at hlen
      omega
    have hlen2 : (b1.name_and_type n d).2.cp.length ≤ 65536 := by
      rw [hp2]; show b2.cp.length ≤ 65536; omega
    have hlen1 : (b.class_ o).2.cp.length ≤ 65536 := by
      rw [hp1]
      show b1.cp.length ≤ 65536
      have : b2.cp.length = b1.cp.length + t2.length := by rw [hb2]; simp
      omega
    obtain ⟨hok1, hresC, hwf1⟩ := class_sem b o hok hlen1
    rw [hp1] at hok1 hresC hwf1
    have hokB1 : MapsOk b1 := hok1
    have hresC1 : ResolvesClass b1.cp ci o := hresC
    obtain ⟨hok2, hresT, hwf2⟩ := name_and_type_sem b1 n d hokB1 hlen2
    rw [hp2] at hok2 hresT hwf2
    have hokB2 : MapsOk b2 := hok2
    have hresT2 : ResolvesNAT b2.cp ti n d := hresT
    have hresC2 : ResolvesClass b2.cp ci o := by rw [hb2]; exact ResolvesClass_mono hresC1
    have hidx : ((b2.cp ++ [CpInfo.InterfaceMethodref ci ti]).length - 1) % 65536 = b2.cp.length := by
      simp only [List.length_append, List.length_cons, List.length_nil]
      rw [Nat.add_sub_cancel, Nat.mod_eq_of_lt hb2len]
    have hres : ResolvesInterfaceMethodref (b2.cp ++ [CpInfo.InterfaceMethodref ci ti])
        (((b2.cp ++ [CpInfo.InterfaceMethodref ci ti]).length - 1) % 65536) o n d := by
      rw [hidx]
      exact ⟨ci, ti, List.getElem?_concat_length b2.cp (CpInfo.InterfaceMethodref ci ti),
        ResolvesClass_mono hresC2, ResolvesNAT_mono hresT2⟩
    refine ⟨?_, hres, ?_⟩
    · intro op i hl
      cases op <;> simp only [Op.lookup] at hl <;>
        first
        | exact Option.noConfusion hl
        | exact OpResolves_mono (hokB2 _ _ hl)
        | skip
      case interface_method_ref x y z =>
        simp only [CpMap.insert] at hl
        by_cases hk : (x, y, z) = ((o : Str), (n : Str), (d : Str))
        · rw [hk, if_pos rfl] at hl
          cases hl
          obtain ⟨hx, hyz⟩ := Prod.mk.injEq .. ▸ hk
          obtain ⟨hy, hz⟩ := Prod.mk.injEq .. ▸ hyz
          subst hx; subst hy; subst hz
          exact hres
        · rw [if_neg hk] at hl
          exact OpResolves_mono (hokB2 _ _ hl)
    · intro hwf
      obtain ⟨j, hj, _⟩ := ResolvesClass_mono (t := [CpInfo.InterfaceMethodref ci ti]) hresC2
      obtain ⟨j2, k2, hjk, _, _⟩ := ResolvesNAT_mono (t := [CpInfo.InterfaceMethodref ci ti]) hresT2
      exact (hwf2 (hwf1 hwf)).push ⟨⟨j, hj⟩, ⟨j2, k2, hjk⟩⟩

end ConstantPoolBuilder

namespace ConstantPoolBuilder

/-- Structural facts about `integer`: always appends a fresh entry. -/
theorem integer_spec (b : ConstantPoolBuilder) (v : Int) :
    (b.integer v).2.cp = b.cp ++ [CpInfo.Integer v] ∧
    (b.integer v).1 = b.cp.length % 65536 ∧
    MapsLE b (b.integer v).2 := by
  unfold ConstantPoolBuilder.integer ConstantPoolBuilder.push
  refine ⟨rfl, by simp, ?_⟩
  intro op i hl
  cases op <;> simp only [Op.lookup] at hl ⊢ <;> exact hl

/-- Structural facts about `float`. -/
theorem float_spec (b : ConstantPoolBuilder) (v : Nat) :
    (b.float v).2.cp = b.cp ++ [CpInfo.Float v] ∧
    (b.float v).1 = b.cp.length % 65536 ∧
    MapsLE b (b.float v).2 := by
  unfold ConstantPoolBuilder.float ConstantPoolBuilder.push
  refine ⟨rfl, by simp, ?_⟩
  intro op i hl
  cases op <;> simp only [Op.lookup] at hl ⊢ <;> exact hl

/-- Structural facts about `long`: primary entry plus `Unusable`
placeholder. -/
theorem long_spec (b : ConstantPoolBuilder) (v : Int) :
    (b.long v).2.cp = b.cp ++ [CpInfo.Long v, CpInfo.Unusable] ∧
    (b.long v).1 = b.cp.length % 65536 ∧
    MapsLE b (b.long v).2 := by
  unfold ConstantPoolBuilder.long ConstantPoolBuilder.push
  refine ⟨by simp, by simp, ?_⟩
  intro op i hl
  cases op <;> simp only [Op.lookup] at hl ⊢ <;> exact hl

/-- Structural facts about `double`. -/
theorem double_spec (b : ConstantPoolBuilder) (v : Nat) :
    (b.double v).2.cp = b.cp ++ [CpInfo.Double v, CpInfo.Unusable] ∧
    (b.double v).1 = b.cp.length % 65536 ∧
    MapsLE b (b.double v).2 := by
  unfold ConstantPoolBuilder.double ConstantPoolBuilder.push
  refine ⟨by simp, by simp, ?_⟩
  intro op i hl
  cases op <;> simp only [Op.lookup] at hl ⊢ <;> exact hl

/-- Semantic facts about the numeric operations: no map changes, entries with
no index fields. -/
theorem integer_sem (b : ConstantPoolBuilder) (v : Int) (hok : MapsOk b) :
    MapsOk (b.integer v).2 ∧ (WFpool b.cp → WFpool (b.integer v).2.cp) := by
  obtain ⟨hcp, _, _⟩ := integer_spec b v
  constructor
  · intro op i hl
    have hlb : Op.lookup b op = some i := by
      cases op <;> simp only [Op.lookup] at hl ⊢ <;> exact hl
    rw [hcp]
    exact OpResolves_mono (hok op i hlb)
  · intro hwf
    rw [hcp]
    exact hwf.push trivial

theorem float_sem (b : ConstantPoolBuilder) (v : Nat) (hok : MapsOk b) :
    MapsOk (b.float v).2 ∧ (WFpool b.cp → WFpool (b.float v).2.cp) := by
  obtain ⟨hcp, _, _⟩ := float_spec b v
  constructor
  · intro op i hl
    have hlb : Op.lookup b op = some i := by
      cases op <;> simp only [Op.lookup] at hl ⊢ <;> exact hl
    rw [hcp]
    exact OpResolves_mono (hok op i hlb)
  · intro hwf
    rw [hcp]
    exact hwf.push trivial

theorem long_sem (b : ConstantPoolBuilder) (v : Int) (hok : MapsOk b) :
    MapsOk (b.long v).2 ∧ (WFpool b.cp → WFpool (b.long v).2.cp) := by
  obtain ⟨hcp, _, _⟩ := long_spec b v
  constructor
  · intro op i hl
    have hlb : Op.lookup b op = some i := by
      cases op <;> simp only [Op.lookup] at hl ⊢ <;> exact hl
    rw [hcp]
    exact OpResolves_mono (hok op i hlb)
  · intro hwf
    rw [hcp, show b.cp ++ [CpInfo.Long v, CpInfo.Unusable]
      = (b.cp ++ [CpInfo.Long v]) ++ [CpInfo.Unusable] by simp]
    exact ((hwf.push (e := CpInfo.Long v) trivial).push (e := CpInfo.Unusable) trivial)

theorem double_sem (b : ConstantPoolBuilder) (v : Nat) (hok : MapsOk b) :
    MapsOk (b.double v).2 ∧ (WFpool b.cp → WFpool (b.double v).2.cp) := by
  obtain ⟨hcp, _, _⟩ := double_spec b v
  constructor
  · intro op i hl
    have hlb : Op.lookup b op = some i := by
      cases op <;> simp only [Op.lookup] at hl ⊢ <;> exact hl
    rw [hcp]
    exact OpResolves_mono (hok op i hlb)
  · intro hwf
    rw [hcp, show b.cp ++ [CpInfo.Double v, CpInfo.Unusable]
      = (b.cp ++ [CpInfo.Double v]) ++ [CpInfo.Unusable] by simp]
    exact ((hwf.push (e := CpInfo.Double v) trivial).push (e := CpInfo.Unusable) trivial)

end ConstantPoolBuilder

namespace ConstantPoolBuilder

/-- Structural facts about `method_handle`. -/
theorem method_handle_spec (b : ConstantPoolBuilder) (handle : Handle) :
    (∃ tail, (b.method_handle handle).2.cp = b.cp ++ tail ∧ tail.length ≤ 7) ∧
    MapsLE b (b.method_handle handle).2 ∧
    (b.method_handle handle).2.methodHandleMap
      (handle.reference_kind, handle.owner, handle.name, handle.descriptor, handle.is_interface)
      = some (b.method_handle handle).1 ∧
    (b.methodHandleMap
        (handle.reference_kind, handle.owner, handle.name, handle.descriptor, handle.is_interface)
        = none →
      ∀ dep ∈ Op.deps (.method_handle handle),
        (Op.lookup (b.method_handle handle).2 dep).isSome) := by
  unfold ConstantPoolBuilder.method_handle
  cases h : b.methodHandleMap
      (handle.reference_kind, handle.owner, handle.name, handle.descriptor, handle.is_interface) with
  | some i =>
    simp only [h]
    exact ⟨⟨[], by simp, by simp⟩, MapsLE.refl b, trivial, fun hc => by simp [h] at hc⟩
  | none =>
    simp only [h]
    by_cases h4 : handle.reference_kind = 1 ∨ handle.reference_kind = 2 ∨
        handle.reference_kind = 3 ∨ handle.reference_kind = 4
    · rw [if_pos h4]
      obtain ⟨hcp1, hle1, hpost1, _⟩ := field_ref_spec b handle.owner handle.name handle.descriptor
      rcases hp1 : b.field_ref handle.owner handle.name handle.descriptor with ⟨ri, b1⟩
      rw [hp1] at hcp1 hle1 hpost1
      simp only [hp1, ConstantPoolBuilder.push]
      obtain ⟨t1, ht1, htl1⟩ := hcp1
      have hb1 : b1.cp = b.cp ++ t1 := ht1
      have hpost1a : b1.fieldRefMap (handle.owner, handle.name, handle.descriptor) = some ri := hpost1
      refine ⟨⟨t1 ++ [CpInfo.MethodHandle handle.reference_kind ri],
        by rw [hb1]; simp [List.append_assoc],
        by simp only [List.length_append, List.length_cons, List.length_nil]; omega⟩, ?_, ?_, ?_⟩
      · intro op i hl
        have hlK : Op.lookup b1 op = some i := hle1 op i hl
        cases op <;> simp only [Op.lookup] at hl hlK ⊢ <;> try exact hlK
        rename_i k
        simp only [CpMap.insert]
        by_cases hk : (k.reference_kind, k.owner, k.name, k.descriptor, k.is_interface)
            = (handle.reference_kind, handle.owner, handle.name, handle.descriptor, handle.is_interface)
        · rw [hk] at hl; rw [hl] at h; exact Option.noConfusion h
        · rw [if_neg hk]; exact hlK
      · simp [CpMap.insert]
      · intro _ dep hdep
        simp only [Op.deps] at hdep
        rw [if_pos h4] at hdep
        simp only [List.mem_singleton] at hdep
        subst hdep
        simp only [Op.lookup]
        show (b1.fieldRefMap (handle.owner, handle.name, handle.descriptor)).isSome = true
        rw [hpost1a]
        rfl
    · rw [if_neg h4]
      by_cases h9 : handle.reference_kind = 9
      · rw [if_pos h9]
        obtain ⟨hcp1, hle1, hpost1, _⟩ := interface_method_ref_spec b handle.owner handle.name handle.descriptor
        rcases hp1 : b.interface_method_ref handle.owner handle.name handle.descriptor with ⟨ri, b1⟩
        rw [hp1] at hcp1 hle1 hpost1
        simp only [hp1, ConstantPoolBuilder.push]
        obtain ⟨t1, ht1, htl1⟩ := hcp1
        have hb1 : b1.cp = b.cp ++ t1 := ht1
        have hpost1a : b1.interfaceMethodRefMap (handle.owner, handle.name, handle.descriptor) = some ri := hpost1
        refine ⟨⟨t1 ++ [CpInfo.MethodHandle handle.reference_kind ri],
          by rw [hb1]; simp [List.append_assoc],
          by simp only [List.length_append, List.length_cons, List.length_nil]; omega⟩, ?_, ?_, ?_⟩
        · intro op i hl
          have hlK : Op.lookup b1 op = some i := hle1 op i hl
          cases op <;> simp only [Op.lookup] at hl hlK ⊢ <;> try exact hlK
          rename_i k
          simp only [CpMap.insert]
          by_cases hk : (k.reference_kind, k.owner, k.name, k.descriptor, k.is_interface)
              = (handle.reference_kind, handle.owner, handle.name, handle.descriptor, handle.is_interface)
          · rw [hk] at hl; rw [hl] at h; exact Option.noConfusion h
          · rw [if_neg hk]; exact hlK
        · simp [CpMap.insert]
        · intro _ dep hdep
          simp only [Op.deps] at hdep
          rw [if_neg h4, if_pos h9] at hdep
          simp only [List.mem_singleton] at hdep
          subst hdep
          simp only [Op.lookup]
          show (b1.interfaceMethodRefMap (handle.owner, handle.name, handle.descriptor)).isSome = true
          rw [hpost1a]
          rfl
      · rw [if_neg h9]
        obtain ⟨hcp1, hle1, hpost1, _⟩ := method_ref_spec b handle.owner handle.name handle.descriptor
        rcases hp1 : b.method_ref handle.owner handle.name handle.descriptor with ⟨ri, b1⟩
        rw [hp1] at hcp1 hle1 hpost1
        simp only [hp1, ConstantPoolBuilder.push]
        obtain ⟨t1, ht1, htl1⟩ := hcp1
        have hb1 : b1.cp = b.cp ++ t1 := ht1
        have hpost1a : b1.methodRefMap (handle.owner, handle.name, handle.descriptor) = some ri := hpost1
        refine ⟨⟨t1 ++ [CpInfo.MethodHandle handle.reference_kind ri],
          by rw [hb1]; simp [List.append_assoc],
          by simp only [List.length_append, List.length_cons, List.length_nil]; omega⟩, ?_, ?_, ?_⟩
        · intro op i hl
          have hlK : Op.lookup b1 op = some i := hle1 op i hl
          cases op <;> simp only [Op.lookup] at hl hlK ⊢ <;> try exact hlK
          rename_i k
          simp only [CpMap.insert]
          by_cases hk : (k.reference_kind, k.owner, k.name, k.descriptor, k.is_interface)
              = (handle.reference_kind, handle.owner, handle.name, handle.descriptor, handle.is_interface)
          · rw [hk] at hl; rw [hl] at h; exact Option.noConfusion h
          · rw [if_neg hk]; exact hlK
        · simp [CpMap.insert]
        · intro _ dep hdep
          simp only [Op.deps] at hdep
          rw [if_neg h4, if_neg h9] at hdep
          simp only [List.mem_singleton] at hdep
          subst hdep
          simp only [Op.lookup]
          show (b1.methodRefMap (handle.owner, handle.name, handle.descriptor)).isSome = true
          rw [hpost1a]
          rfl

end ConstantPoolBuilder

namespace ConstantPoolBuilder

/-- Semantic facts about `method_handle`. -/
theorem method_handle_sem (b : ConstantPoolBuilder) (handle : Handle) (hok : MapsOk b)
    (hlen : (b.method_handle handle).2.cp.length ≤ 65536) :
    MapsOk (b.method_handle handle).2 ∧
    ResolvesMethodHandle (b.method_handle handle).2.cp (b.method_handle handle).1
      handle.reference_kind handle.owner handle.name handle.descriptor ∧
    (WFpool b.cp → WFpool (b.method_handle handle).2.cp) := by
  unfold ConstantPoolBuilder.method_handle at hlen ⊢
  cases h : b.methodHandleMap
      (handle.reference_kind, handle.owner, handle.name, handle.descriptor,
       handle.is_interface) with
  | some i =>
    simp only [h] at hlen ⊢
    exact ⟨hok, hok (.method_handle handle) i h, fun hwf => hwf⟩
  | none =>
    simp only [h] at hlen ⊢
    by_cases h4 : handle.reference_kind = 1 ∨ handle.reference_kind = 2 ∨
        handle.reference_kind = 3 ∨ handle.reference_kind = 4
    · rw [if_pos h4] at hlen ⊢
      obtain ⟨hcp1, _, _, _⟩ := field_ref_spec b handle.owner handle.name handle.descriptor
      rcases hp1 : b.field_ref handle.owner handle.name handle.descriptor with ⟨ri, b1⟩
      rw [hp1] at hcp1
      simp only [hp1, ConstantPoolBuilder.push] at hlen ⊢
      obtain ⟨t1, ht1, _⟩ := hcp1
      have hb1 : b1.cp = b.cp ++ t1 := ht1
      have hb1len : b1.cp.length < 65536 := by
        simp only [List.length_append, List.length_cons, List.length_nil] at hlen
        omega
      have hlen1 : (b.field_ref handle.owner handle.name handle.descriptor).2.cp.length ≤ 65536 := by
        rw [hp1]; show b1.cp.length ≤ 65536; omega
      obtain ⟨hok1, hresF, hwf1⟩ := field_ref_sem b handle.owner handle.name handle.descriptor hok hlen1
      rw [hp1] at hok1 hresF hwf1
      have hokB1 : MapsOk b1 := hok1
      have hresF1 : ResolvesFieldref b1.cp ri handle.owner handle.name handle.descriptor := hresF
      have hidx : ((b1.cp ++ [CpInfo.MethodHandle handle.reference_kind ri]).length - 1) % 65536
          = b1.cp.length := by
        simp only [List.length_append, List.length_cons, List.length_nil]
        rw [Nat.add_sub_cancel, Nat.mod_eq_of_lt hb1len]
      have hres : ResolvesMethodHandle (b1.cp ++ [CpInfo.MethodHandle handle.reference_kind ri])
          (((b1.cp ++ [CpInfo.MethodHandle handle.reference_kind ri]).length - 1) % 65536)
          handle.reference_kind handle.owner handle.name handle.descriptor := by
        rw [hidx]
        refine ⟨ri,
          List.getElem?_concat_length b1.cp (CpInfo.MethodHandle handle.reference_kind ri), ?_⟩
        rw [if_pos h4]
        exact ResolvesFieldref_mono hresF1
      refine ⟨?_, hres, ?_⟩
      · intro op i hl
        cases op <;> simp only [Op.lookup] at hl <;>
          first
          | exact Option.noConfusion hl
          | exact OpResolves_mono (hokB1 _ _ hl)
          | skip
        rename_i k
        simp only [CpMap.insert] at hl
        by_cases hk : (k.reference_kind, k.owner, k.name, k.descriptor, k.is_interface)
            = (handle.reference_kind, handle.owner, handle.name, handle.descriptor,
               handle.is_interface)
        · rw [hk, if_pos rfl] at hl
          cases hl
          obtain ⟨e1, er⟩ := Prod.mk.injEq .. ▸ hk
          obtain ⟨e2, er2⟩ := Prod.mk.injEq .. ▸ er
          obtain ⟨e3, er3⟩ := Prod.mk.injEq .. ▸ er2
          obtain ⟨e4, _⟩ := Prod.mk.injEq .. ▸ er3
          simp only [OpResolves]
          rw [e1, e2, e3, e4]
          exact hres
        · rw [if_neg hk] at hl
          exact OpResolves_mono (hokB1 _ _ hl)
      · intro hwf
        obtain ⟨c, t, hct, _, _⟩ :=
          ResolvesFieldref_mono (t := [CpInfo.MethodHandle handle.reference_kind ri]) hresF1
        exact (hwf1 hwf).push (e := CpInfo.MethodHandle handle.reference_kind ri) (Or.inl ⟨c, t, hct⟩)
    · rw [if_neg h4] at hlen ⊢
      by_cases h9 : handle.reference_kind = 9
      · rw [if_pos h9] at hlen ⊢
        obtain ⟨hcp1, _, _, _⟩ := interface_method_ref_spec b handle.owner handle.name handle.descriptor
        rcases hp1 : b.interface_method_ref handle.owner handle.name handle.descriptor with ⟨ri, b1⟩
        rw [hp1] at hcp1
        simp only [hp1, ConstantPoolBuilder.push] at hlen ⊢
        obtain ⟨t1, ht1, _⟩ := hcp1
        have hb1 : b1.cp = b.cp ++ t1 := ht1
        have hb1len : b1.cp.length < 65536 := by
          simp only [List.length_append, List.length_cons, List.length_nil] at hlen
          omega
        have hlen1 : (b.interface_method_ref handle.owner handle.name handle.descriptor).2.cp.length ≤ 65536 := by
          rw [hp1]; show b1.cp.length ≤ 65536; omega
        obtain ⟨hok1, hresF, hwf1⟩ := interface_method_ref_sem b handle.owner handle.name handle.descriptor hok hlen1
        rw [hp1] at hok1 hresF hwf1
        have hokB1 : MapsOk b1 := hok1
        have hresF1 : ResolvesInterfaceMethodref b1.cp ri handle.owner handle.name handle.descriptor := hresF
        have hidx : ((b1.cp ++ [CpInfo.MethodHandle handle.reference_kind ri]).length - 1) % 65536
            = b1.cp.length := by
          simp only [List.length_append, List.length_cons, List.length_nil]
          rw [Nat.add_sub_cancel, Nat.mod_eq_of_lt hb1len]
        have hres : ResolvesMethodHandle (b1.cp ++ [CpInfo.MethodHandle handle.reference_kind ri])
            (((b1.cp ++ [CpInfo.MethodHandle handle.reference_kind ri]).length - 1) % 65536)
            handle.reference_kind handle.owner handle.name handle.descriptor := by
          rw [hidx]
          refine ⟨ri,
            List.getElem?_concat_length b1.cp (CpInfo.MethodHandle handle.reference_kind ri), ?_⟩
          rw [if_neg h4, if_pos h9]
          exact ResolvesInterfaceMethodref_mono hresF1
        refine ⟨?_, hres, ?_⟩
        · intro op i hl
          cases op <;> simp only [Op.lookup] at hl <;>
            first
            | exact Option.noConfusion hl
            | exact OpResolves_mono (hokB1 _ _ hl)
            | skip
          rename_i k
          simp only [CpMap.insert] at hl
          by_cases hk : (k.reference_kind, k.owner, k.name, k.descriptor, k.is_interface)
              = (handle.reference_kind, handle.owner, handle.name, handle.descriptor,
                 handle.is_interface)
          · rw [hk, if_pos rfl] at hl
            cases hl
            obtain ⟨e1, er⟩ := Prod.mk.injEq .. ▸ hk
            obtain ⟨e2, er2⟩ := Prod.mk.injEq .. ▸ er
            obtain ⟨e3, er3⟩ := Prod.mk.injEq .. ▸ er2
            obtain ⟨e4, _⟩ := Prod.mk.injEq .. ▸ er3
            simp only [OpResolves]
            rw [e1, e2, e3, e4]
            exact hres
          · rw [if_neg hk] at hl
            exact OpResolves_mono (hokB1 _ _ hl)
        · intro hwf
          obtain ⟨c, t, hct, _, _⟩ :=
            ResolvesInterfaceMethodref_mono (t := [CpInfo.MethodHandle handle.reference_kind ri]) hresF1
          exact (hwf1 hwf).push (e := CpInfo.MethodHandle handle.reference_kind ri) (Or.inr (Or.inr ⟨c, t, hct⟩))
      · rw [if_neg h9] at hlen ⊢
        obtain ⟨hcp1, _, _, _⟩ := method_ref_spec b handle.owner handle.name handle.descriptor
        rcases hp1 : b.method_ref handle.owner handle.name handle.descriptor with ⟨ri, b1⟩
        rw [hp1] at hcp1
        simp only [hp1, ConstantPoolBuilder.push] at hlen ⊢
        obtain ⟨t1, ht1, _⟩ := hcp1
        have hb1 : b1.cp = b.cp ++ t1 := ht1
        have hb1len : b1.cp.length < 65536 := by
          simp only [List.length_append, List.length_cons, List.length_nil] at hlen
          omega
        have hlen1 : (b.method_ref handle.owner handle.name handle.descriptor).2.cp.length ≤ 65536 := by
          rw [hp1]; show b1.cp.length ≤ 65536; omega
        obtain ⟨hok1, hresF, hwf1⟩ := method_ref_sem b handle.owner handle.name handle.descriptor hok hlen1
        rw [hp1] at hok1 hresF hwf1
        have hokB1 : MapsOk b1 := hok1
        have hresF1 : ResolvesMethodref b1.cp ri handle.owner handle.name handle.descriptor := hresF
        have hidx : ((b1.cp ++ [CpInfo.MethodHandle handle.reference_kind ri]).length - 1) % 65536
            = b1.cp.length := by
          simp only [List.length_append, List.length_cons, List.length_nil]
          rw [Nat.add_sub_cancel, Nat.mod_eq_of_lt hb1len]
        have hres : ResolvesMethodHandle (b1.cp ++ [CpInfo.MethodHandle handle.reference_kind ri])
            (((b1.cp ++ [CpInfo.MethodHandle handle.reference_kind ri]).length - 1) % 65536)
            handle.reference_kind handle.owner handle.name handle.descriptor := by
          rw [hidx]
          refine ⟨ri,
            List.getElem?_concat_length b1.cp (CpInfo.MethodHandle handle.reference_kind ri), ?_⟩
          rw [if_neg h4, if_neg h9]
          exact ResolvesMethodref_mono hresF1
        refine ⟨?_, hres, ?_⟩
        · intro op i hl
          cases op <;> simp only [Op.lookup] at hl <;>
            first
            | exact Option.noConfusion hl
            | exact OpResolves_mono (hokB1 _ _ hl)
            | skip
          rename_i k
          simp only [CpMap.insert] at hl
          by_cases hk : (k.reference_kind, k.owner, k.name, k.descriptor, k.is_interface)
              = (handle.reference_kind, handle.owner, handle.name, handle.descriptor,
                 handle.is_interface)
          · rw [hk, if_pos rfl] at hl
            cases hl
            obtain ⟨e1, er⟩ := Prod.mk.injEq .. ▸ hk
            obtain ⟨e2, er2⟩ := Prod.mk.injEq .. ▸ er
            obtain ⟨e3, er3⟩ := Prod.mk.injEq .. ▸ er2
            obtain ⟨e4, _⟩ := Prod.mk.injEq .. ▸ er3
            simp only [OpResolves]
            rw [e1, e2, e3, e4]
            exact hres
          · rw [if_neg hk] at hl
            exact OpResolves_mono (hokB1 _ _ hl)
        · intro hwf
          obtain ⟨c, t, hct, _, _⟩ :=
            ResolvesMethodref_mono (t := [CpInfo.MethodHandle handle.reference_kind ri]) hresF1
          exact (hwf1 hwf).push (e := CpInfo.MethodHandle handle.reference_kind ri) (Or.inr (Or.inl ⟨c, t, hct⟩))

end ConstantPoolBuilder

namespace ConstantPoolBuilder

/-- Structural facts about `invoke_dynamic`. -/
theorem invoke_dynamic_spec (b : ConstantPoolBuilder) (bsm : Nat) (n d : Str) :
    (∃ tail, (b.invoke_dynamic bsm n d).2.cp = b.cp ++ tail ∧ tail.length ≤ 4) ∧
    MapsLE b (b.invoke_dynamic bsm n d).2 ∧
    (b.invoke_dynamic bsm n d).2.invokeDynamicMap (bsm, n, d)
      = some (b.invoke_dynamic bsm n d).1 ∧
    (b.invokeDynamicMap (bsm, n, d) = none →
      ((b.invoke_dynamic bsm n d).2.nameAndTypeMap (n, d)).isSome) := by
  unfold ConstantPoolBuilder.invoke_dynamic
  cases h : b.invokeDynamicMap (bsm, n, d) with
  | some i =>
    simp only [h]
    exact ⟨⟨[], by simp, by simp⟩, MapsLE.refl b, trivial, fun hc => by simp [h] at hc⟩
  | none =>
    obtain ⟨hcp1, hle1, hpost1, _⟩ := name_and_type_spec b n d
    rcases hp1 : b.name_and_type n d with ⟨ti, b1⟩
    rw [hp1] at hcp1 hle1 hpost1
    simp only [h, hp1, ConstantPoolBuilder.push]
    obtain ⟨t1, ht1, htl1⟩ := hcp1
    have hb1 : b1.cp = b.cp ++ t1 := ht1
    have hpost1a : b1.nameAndTypeMap (n, d) = some ti := hpost1
    refine ⟨⟨t1 ++ [CpInfo.InvokeDynamic bsm ti],
      by rw [hb1]; simp [List.append_assoc],
      by simp only [List.length_append, List.length_cons, List.length_nil]; omega⟩, ?_, ?_, ?_⟩
    · intro op i hl
      have hlK : Op.lookup b1 op = some i := hle1 op i hl
      cases op <;> simp only [Op.lookup] at hl hlK ⊢ <;> try exact hlK
      rename_i x y z
      simp only [CpMap.insert]
      by_cases hk : (x, y, z) = (bsm, (n : Str), (d : Str))
      · rw [hk] at hl; rw [hl] at h; exact Option.noConfusion h
      · rw [if_neg hk]; exact hlK
    · simp [CpMap.insert]
    · intro _
      show (b1.nameAndTypeMap (n, d)).isSome = true
      rw [hpost1a]
      rfl

/-- Semantic facts about `invoke_dynamic`. -/
theorem invoke_dynamic_sem (b : ConstantPoolBuilder) (bsm : Nat) (n d : Str) (hok : MapsOk b)
    (hlen : (b.invoke_dynamic bsm n d).2.cp.length ≤ 65536) :
    MapsOk (b.invoke_dynamic bsm n d).2 ∧
    ResolvesInvokeDynamic (b.invoke_dynamic bsm n d).2.cp (b.invoke_dynamic bsm n d).1 bsm n d ∧
    (WFpool b.cp → WFpool (b.invoke_dynamic bsm n d).2.cp) := by
  unfold ConstantPoolBuilder.invoke_dynamic at hlen ⊢
  cases h : b.invokeDynamicMap (bsm, n, d) with
  | some i =>
    simp only [h] at hlen ⊢
    exact ⟨hok, hok (.invoke_dynamic bsm n d) i h, fun hwf => hwf⟩
  | none =>
    obtain ⟨hcp1, _, _, _⟩ := name_and_type_spec b n d
    rcases hp1 : b.name_and_type n d with ⟨ti, b1⟩
    rw [hp1] at hcp1
    simp only [h, hp1, ConstantPoolBuilder.push] at hlen ⊢
    obtain ⟨t1, ht1, _⟩ := hcp1
    have hb1 : b1.cp = b.cp ++ t1 := ht1
    have hb1len : b1.cp.length < 65536 := by
      simp only [List.length_append, List.length_cons, List.length_nil] at hlen
      omega
    have hlen1 : (b.name_and_type n d).2.cp.length ≤ 65536 := by
      rw [hp1]; show b1.cp.length ≤ 65536; omega
    obtain ⟨hok1, hresT, hwf1⟩ := name_and_type_sem b n d hok hlen1
    rw [hp1] at hok1 hresT hwf1
    have hokB1 : MapsOk b1 := hok1
    have hresT1 : ResolvesNAT b1.cp ti n d := hresT
    have hidx : ((b1.cp ++ [CpInfo.InvokeDynamic bsm ti]).length - 1) % 65536
        = b1.cp.length := by
      simp only [List.length_append, List.length_cons, List.length_nil]
      rw [Nat.add_sub_cancel, Nat.mod_eq_of_lt hb1len]
    have hres : ResolvesInvokeDynamic (b1.cp ++ [CpInfo.InvokeDynamic bsm ti])
        (((b1.cp ++ [CpInfo.InvokeDynamic bsm ti]).length - 1) % 65536) bsm n d := by
      rw [hidx]
      exact ⟨ti, List.getElem?_concat_length b1.cp (CpInfo.InvokeDynamic bsm ti), ResolvesNAT_mono hresT1⟩
    refine ⟨?_, hres, ?_⟩
    · intro op i hl
      cases op <;> simp only [Op.lookup] at hl <;>
        first
        | exact Option.noConfusion hl
        | exact OpResolves_mono (hokB1 _ _ hl)
        | skip
      rename_i x y z
      simp only [CpMap.insert] at hl
      by_cases hk : (x, y, z) = (bsm, (n : Str), (d : Str))
      · rw [hk, if_pos rfl] at hl
        cases hl
        obtain ⟨hx, hyz⟩ := Prod.mk.injEq .. ▸ hk
        obtain ⟨hy, hz⟩ := Prod.mk.injEq .. ▸ hyz
        subst hx; subst hy; subst hz
        exact hres
      · rw [if_neg hk] at hl
        exact OpResolves_mono (hokB1 _ _ hl)
    · intro hwf
      obtain ⟨j2, k2, hjk, _, _⟩ := ResolvesNAT_mono (t := [CpInfo.InvokeDynamic bsm ti]) hresT1
      exact (hwf1 hwf).push (e := CpInfo.InvokeDynamic bsm ti) ⟨j2, k2, hjk⟩

end ConstantPoolBuilder

namespace Op

/-- Presence implies identity: an operation whose dedup map already binds its
semantic key returns the bound index and leaves the builder (pool and maps)
entirely unchanged. -/
theorem run_of_lookup {b : ConstantPoolBuilder} {op : Op} {i : Nat}
    (h : Op.lookup b op = some i) : Op.run b op = (i, b) := by
  cases op <;> simp only [Op.lookup] at h <;>
    first
    | exact Option.noConfusion h
    | simp [Op.run, ConstantPoolBuilder.utf8, ConstantPoolBuilder.class_,
        ConstantPoolBuilder.string, ConstantPoolBuilder.name_and_type,
        ConstantPoolBuilder.field_ref, ConstantPoolBuilder.method_ref,
        ConstantPoolBuilder.interface_method_ref, ConstantPoolBuilder.method_type,
        ConstantPoolBuilder.method_handle, ConstantPoolBuilder.invoke_dynamic, h]

/-- Dedup-map bindings persist across any later operation. -/
theorem run_le (b : ConstantPoolBuilder) (op : Op) : MapsLE b (Op.run b op).2 := by
  cases op with
  | utf8 v => exact (ConstantPoolBuilder.utf8_spec b v).2.1
  | class_ n => exact (ConstantPoolBuilder.class_spec b n).2.1
  | string v => exact (ConstantPoolBuilder.string_spec b v).2.1
  | integer v => exact (ConstantPoolBuilder.integer_spec b v).2.2
  | float v => exact (ConstantPoolBuilder.float_spec b v).2.2
  | long v => exact (ConstantPoolBuilder.long_spec b v).2.2
  | double v => exact (ConstantPoolBuilder.double_spec b v).2.2
  | name_and_type n d => exact (ConstantPoolBuilder.name_and_type_spec b n d).2.1
  | field_ref o n d => exact (ConstantPoolBuilder.field_ref_spec b o n d).2.1
  | method_ref o n d => exact (ConstantPoolBuilder.method_ref_spec b o n d).2.1
  | interface_method_ref o n d =>
    exact (ConstantPoolBuilder.interface_method_ref_spec b o n d).2.1
  | method_type d => exact (ConstantPoolBuilder.method_type_spec b d).2.1
  | method_handle h => exact (ConstantPoolBuilder.method_handle_spec b h).2.1
  | invoke_dynamic x n d => exact (ConstantPoolBuilder.invoke_dynamic_spec b x n d).2.1

/-- After any deduplicating operation, its semantic key is bound to the index
it returned. -/
theorem run_post (b : ConstantPoolBuilder) (op : Op) (hd : op.dedupable = true) :
    Op.lookup (Op.run b op).2 op = some (Op.run b op).1 := by
  cases op with
  | utf8 v => exact (ConstantPoolBuilder.utf8_spec b v).2.2
  | class_ n => exact (ConstantPoolBuilder.class_spec b n).2.2.1
  | string v => exact (ConstantPoolBuilder.string_spec b v).2.2.1
  | integer v => exact Bool.noConfusion hd
  | float v => exact Bool.noConfusion hd
  | long v => exact Bool.noConfusion hd
  | double v => exact Bool.noConfusion hd
  | name_and_type n d => exact (ConstantPoolBuilder.name_and_type_spec b n d).2.2.1
  | field_ref o n d => exact (ConstantPoolBuilder.field_ref_spec b o n d).2.2.1
  | method_ref o n d => exact (ConstantPoolBuilder.method_ref_spec b o n d).2.2.1
  | interface_method_ref o n d =>
    exact (ConstantPoolBuilder.interface_method_ref_spec b o n d).2.2.1
  | method_type d => exact (ConstantPoolBuilder.method_type_spec b d).2.2.1
  | method_handle h => exact (ConstantPoolBuilder.method_handle_spec b h).2.2.1
  | invoke_dynamic x n d => exact (ConstantPoolBuilder.invoke_dynamic_spec b x n d).2.2.1

/-- A fresh composite insertion registers every recursively inserted
dependency in its own dedup map. -/
theorem run_deps (b : ConstantPoolBuilder) (op : Op) (h : Op.lookup b op = none) :
    ∀ dep ∈ Op.deps op, (Op.lookup (Op.run b op).2 dep).isSome = true := by
  cases op with
  | utf8 v => intro dep hdep; simp [Op.deps] at hdep
  | integer v => intro dep hdep; simp [Op.deps] at hdep
  | float v => intro dep hdep; simp [Op.deps] at hdep
  | long v => intro dep hdep; simp [Op.deps] at hdep
  | double v => intro dep hdep; simp [Op.deps] at hdep
  | class_ n =>
    intro dep hdep
    simp only [Op.deps, List.mem_singleton] at hdep
    subst hdep
    exact (ConstantPoolBuilder.class_spec b n).2.2.2 h
  | string v =>
    intro dep hdep
    simp only [Op.deps, List.mem_singleton] at hdep
    subst hdep
    exact (ConstantPoolBuilder.string_spec b v).2.2.2 h
  | method_type d =>
    intro dep hdep
    simp only [Op.deps, List.mem_singleton] at hdep
    subst hdep
    exact (ConstantPoolBuilder.method_type_spec b d).2.2.2 h
  | name_and_type n d =>
    intro dep hdep
    simp only [Op.deps, List.mem_cons, List.mem_singleton, List.not_mem_nil, or_false] at hdep
    rcases hdep with hdep | hdep <;> subst hdep
    · exact ((ConstantPoolBuilder.name_and_type_spec b n d).2.2.2 h).1
    · exact ((ConstantPoolBuilder.name_and_type_spec b n d).2.2.2 h).2
  | field_ref o n d =>
    intro dep hdep
    simp only [Op.deps, List.mem_cons, List.mem_singleton, List.not_mem_nil, or_false] at hdep
    rcases hdep with hdep | hdep <;> subst hdep
    · exact ((ConstantPoolBuilder.field_ref_spec b o n d).2.2.2 h).1
    · exact ((ConstantPoolBuilder.field_ref_spec b o n d).2.2.2 h).2.1
  | method_ref o n d =>
    intro dep hdep
    simp only [Op.deps, List.mem_cons, List.mem_singleton, List.not_mem_nil, or_false] at hdep
    rcases hdep with hdep | hdep <;> subst hdep
    · exact ((ConstantPoolBuilder.method_ref_spec b o n d).2.2.2 h).1
    · exact ((ConstantPoolBuilder.method_ref_spec b o n d).2.2.2 h).2.1
  | interface_method_ref o n d =>
    intro dep hdep
    simp only [Op.deps, List.mem_cons, List.mem_singleton, List.not_mem_nil, or_false] at hdep
    rcases hdep with hdep | hdep <;> subst hdep
    · exact ((ConstantPoolBuilder.interface_method_ref_spec b o n d).2.2.2 h).1
    · exact ((ConstantPoolBuilder.interface_method_ref_spec b o n d).2.2.2 h).2.1
  | method_handle hh =>
    exact (ConstantPoolBuilder.method_handle_spec b hh).2.2.2 h
  | invoke_dynamic x n d =>
    intro dep hdep
    simp only [Op.deps, List.mem_singleton] at hdep
    subst hdep
    exact (ConstantPoolBuilder.invoke_dynamic_spec b x n d).2.2.2 h

/-- Any operation preserves map consistency and pool well-formedness while
the pool stays within the `u16` range. -/
theorem run_sem {b : ConstantPoolBuilder} {op : Op} (hok : MapsOk b)
    (hlen : (Op.run b op).2.cp.length ≤ 65536) :
    MapsOk (Op.run b op).2 ∧ (WFpool b.cp → WFpool (Op.run b op).2.cp) := by
  cases op with
  | utf8 v =>
    obtain ⟨a1, _, a3⟩ := ConstantPoolBuilder.utf8_sem b v hok hlen
    exact ⟨a1, a3⟩
  | class_ n =>
    obtain ⟨a1, _, a3⟩ := ConstantPoolBuilder.class_sem b n hok hlen
    exact ⟨a1, a3⟩
  | string v =>
    obtain ⟨a1, _, a3⟩ := ConstantPoolBuilder.string_sem b v hok hlen
    exact ⟨a1, a3⟩
  | integer v => exact ConstantPoolBuilder.integer_sem b v hok
  | float v => exact ConstantPoolBuilder.float_sem b v hok
  | long v => exact ConstantPoolBuilder.long_sem b v hok
  | double v => exact ConstantPoolBuilder.double_sem b v hok
  | name_and_type n d =>
    obtain ⟨a1, _, a3⟩ := ConstantPoolBuilder.name_and_type_sem b n d hok hlen
    exact ⟨a1, a3⟩
  | field_ref o n d =>
    obtain ⟨a1, _, a3⟩ := ConstantPoolBuilder.field_ref_sem b o n d hok hlen
    exact ⟨a1, a3⟩
  | method_ref o n d =>
    obtain ⟨a1, _, a3⟩ := ConstantPoolBuilder.method_ref_sem b o n d hok hlen
    exact ⟨a1, a3⟩
  | interface_method_ref o n d =>
    obtain ⟨a1, _, a3⟩ := ConstantPoolBuilder.interface_method_ref_sem b o n d hok hlen
    exact ⟨a1, a3⟩
  | method_type d =>
    obtain ⟨a1, _, a3⟩ := ConstantPoolBuilder.method_type_sem b d hok hlen
    exact ⟨a1, a3⟩
  | method_handle h =>
    obtain ⟨a1, _, a3⟩ := ConstantPoolBuilder.method_handle_sem b h hok hlen
    exact ⟨a1, a3⟩
  | invoke_dynamic x n d =>
    obtain ⟨a1, _, a3⟩ := ConstantPoolBuilder.invoke_dynamic_sem b x n d hok hlen
    exact ⟨a1, a3⟩

end Op

/-- A freshly created builder has consistent (empty) maps. -/
theorem mapsOk_new : MapsOk ConstantPoolBuilder.new := by
  intro op i hl
  cases op <;> simp [Op.lookup, ConstantPoolBuilder.new, CpMap.empty] at hl

/-- A freshly created builder's pool (the single `Unusable` slot) is
well-wired. -/
theorem wfpool_new : WFpool ConstantPoolBuilder.new.cp := by
  intro i e h
  cases i with
  | zero =>
    simp only [ConstantPoolBuilder.new] at h
    cases h
    trivial
  | succ n =>
    simp [ConstantPoolBuilder.new] at h

/-- C3.  Two-slot accounting for `long` and `double`: the pool grows by
exactly two slots, the last slot is the `Unusable` placeholder, the primary
slot holds the `Long`/`Double` entry, and the returned index is the primary
slot's (within the `u16` range, which spec section 6 fixes as the format
ceiling — beyond it every index is undefined behavior). -/
theorem spec_C3_two_slot_accounting :
    ∀ (b : ConstantPoolBuilder) (v : Int) (w : Nat), b.cp.length + 2 ≤ 65536 →
      ((b.long v).2.cp.length = b.cp.length + 2 ∧
       (b.long v).2.cp.getLast? = some CpInfo.Unusable ∧
       (b.long v).2.cp[b.cp.length]? = some (CpInfo.Long v) ∧
       (b.long v).1 = b.cp.length) ∧
      ((b.double w).2.cp.length = b.cp.length + 2 ∧
       (b.double w).2.cp.getLast? = some CpInfo.Unusable ∧
       (b.double w).2.cp[b.cp.length]? = some (CpInfo.Double w) ∧
       (b.double w).1 = b.cp.length) := by
  intro b v w hlen
  obtain ⟨hcpL, hiL, _⟩ := ConstantPoolBuilder.long_spec b v
  obtain ⟨hcpD, hiD, _⟩ := ConstantPoolBuilder.double_spec b w
  have hsplitL : b.cp ++ [CpInfo.Long v, CpInfo.Unusable]
      = (b.cp ++ [CpInfo.Long v]) ++ [CpInfo.Unusable] := by simp
  have hsplitD : b.cp ++ [CpInfo.Double w, CpInfo.Unusable]
      = (b.cp ++ [CpInfo.Double w]) ++ [CpInfo.Unusable] := by simp
  have hblen : b.cp.length < 65536 := by omega
  refine ⟨⟨?_, ?_, ?_, ?_⟩, ⟨?_, ?_, ?_, ?_⟩⟩
  · rw [hcpL]; simp
  · rw [hcpL, hsplitL]; exact List.getLast?_concat _
  · rw [hcpL, hsplitL]
    rw [List.getElem?_append_left (by simp)]
    exact List.getElem?_concat_length b.cp (CpInfo.Long v)
  · rw [hiL, Nat.mod_eq_of_lt hblen]
  · rw [hcpD]; simp
  · rw [hcpD, hsplitD]; exact List.getLast?_concat _
  · rw [hcpD, hsplitD]
    rw [List.getElem?_append_left (by simp)]
    exact List.getElem?_concat_length b.cp (CpInfo.Double w)
  · rw [hiD, Nat.mod_eq_of_lt hblen]

/-- Witness for C3 on a fresh builder. -/
theorem spec_C3_witness :
    ConstantPoolBuilder.new.cp.length + 2 ≤ 65536 ∧
    ((ConstantPoolBuilder.new.long 5).2.cp.length = ConstantPoolBuilder.new.cp.length + 2 ∧
     (ConstantPoolBuilder.new.long 5).2.cp.getLast? = some CpInfo.Unusable ∧
     (ConstantPoolBuilder.new.long 5).2.cp[ConstantPoolBuilder.new.cp.length]?
       = some (CpInfo.Long 5) ∧
     (ConstantPoolBuilder.new.long 5).1 = ConstantPoolBuilder.new.cp.length) ∧
    ((ConstantPoolBuilder.new.double 7).2.cp.length = ConstantPoolBuilder.new.cp.length + 2 ∧
     (ConstantPoolBuilder.new.double 7).2.cp.getLast? = some CpInfo.Unusable ∧
     (ConstantPoolBuilder.new.double 7).2.cp[ConstantPoolBuilder.new.cp.length]?
       = some (CpInfo.Double 7) ∧
     (ConstantPoolBuilder.new.double 7).1 = ConstantPoolBuilder.new.cp.length) :=
  ⟨by decide,
   (spec_C3_two_slot_accounting ConstantPoolBuilder.new 5 7 (by decide)).1,
   (spec_C3_two_slot_accounting ConstantPoolBuilder.new 5 7 (by decide)).2⟩

/-- C4.  Method-handle reference-kind dispatch: on any builder with
semantically consistent dedup maps (the representation invariant of every
builder the API produces) and within the `u16` pool ceiling, the index
returned by `method_handle` addresses a `MethodHandle` entry whose
`reference_index` addresses a `Fieldref` resolving to the handle's
owner/name/descriptor for kinds 1-4, an `InterfaceMethodref` for kind 9, and
a `Methodref` for every other kind. -/
theorem spec_C4_reference_kind_dispatch :
    ∀ (b : ConstantPoolBuilder) (h : Handle), MapsOk b →
      (b.method_handle h).2.cp.length ≤ 65536 →
      ∃ r, (b.method_handle h).2.cp[(b.method_handle h).1]?
          = some (CpInfo.MethodHandle h.reference_kind r) ∧
        ((h.reference_kind = 1 ∨ h.reference_kind = 2 ∨
          h.reference_kind = 3 ∨ h.reference_kind = 4) →
          ResolvesFieldref (b.method_handle h).2.cp r h.owner h.name h.descriptor) ∧
        (h.reference_kind = 9 →
          ResolvesInterfaceMethodref (b.method_handle h).2.cp r h.owner h.name h.descriptor) ∧
        (¬(h.reference_kind = 1 ∨ h.reference_kind = 2 ∨
           h.reference_kind = 3 ∨ h.reference_kind = 4) → h.reference_kind ≠ 9 →
          ResolvesMethodref (b.method_handle h).2.cp r h.owner h.name h.descriptor) := by
  intro b h hok hlen
  obtain ⟨_, hres, _⟩ := ConstantPoolBuilder.method_handle_sem b h hok hlen
  obtain ⟨r, h1, h2⟩ := hres
  refine ⟨r, h1, ?_, ?_, ?_⟩
  · intro h4
    rwa [if_pos h4] at h2
  · intro h9
    have hn4 : ¬(h.reference_kind = 1 ∨ h.reference_kind = 2 ∨
        h.reference_kind = 3 ∨ h.reference_kind = 4) := by omega
    rwa [if_neg hn4, if_pos h9] at h2
  · intro hn4 hn9
    rwa [if_neg hn4, if_neg hn9] at h2

/-- Witness for C4: a GetStatic handle (kind 2) on a fresh builder stores a
`MethodHandle` whose reference index addresses a `Fieldref` for the handle's
member. -/
theorem spec_C4_witness :
    ∃ r, (ConstantPoolBuilder.new.method_handle ⟨2, "C", "f", "I", false⟩).2.cp[
        (ConstantPoolBuilder.new.method_handle ⟨2, "C", "f", "I", false⟩).1]?
        = some (CpInfo.MethodHandle 2 r) ∧
      ResolvesFieldref (ConstantPoolBuilder.new.method_handle ⟨2, "C", "f", "I", false⟩).2.cp
        r "C" "f" "I" := by
  obtain ⟨r, h1, h2, _, _⟩ := spec_C4_reference_kind_dispatch ConstantPoolBuilder.new
    ⟨2, "C", "f", "I", false⟩ mapsOk_new (by decide)
  exact ⟨r, h1, h2 (Or.inr (Or.inl rfl))⟩

/-- C5.  Recursive dependency materialization: `method_ref "a/B" "m" "()V"`
on a fresh builder yields a pool containing a `Utf8 "a/B"`, a `Class`
addressing it, `Utf8 "m"` and `Utf8 "()V"`, a `NameAndType` addressing those,
and a `Methodref` addressing the `Class` and the `NameAndType`, whose index
is the returned value. -/
theorem spec_C5_recursive_materialization :
    ∃ iu ic im id it ir,
      (ConstantPoolBuilder.new.method_ref "a/B" "m" "()V").2.cp[iu]?
        = some (CpInfo.Utf8 "a/B") ∧
      (ConstantPoolBuilder.new.method_ref "a/B" "m" "()V").2.cp[ic]?
        = some (CpInfo.Class iu) ∧
      (ConstantPoolBuilder.new.method_ref "a/B" "m" "()V").2.cp[im]?
        = some (CpInfo.Utf8 "m") ∧
      (ConstantPoolBuilder.new.method_ref "a/B" "m" "()V").2.cp[id]?
        = some (CpInfo.Utf8 "()V") ∧
      (ConstantPoolBuilder.new.method_ref "a/B" "m" "()V").2.cp[it]?
        = some (CpInfo.NameAndType im id) ∧
      (ConstantPoolBuilder.new.method_ref "a/B" "m" "()V").2.cp[ir]?
        = some (CpInfo.Methodref ic it) ∧
      (ConstantPoolBuilder.new.method_ref "a/B" "m" "()V").1 = ir :=
  ⟨1, 2, 3, 4, 5, 6, by decide⟩

/-- C7.  Index-wiring invariant: starting from `new()`, after any sequence of
insertion operations during which the pool length never exceeds 65536 slots,
every index field of every entry addresses a slot holding the variant the
referencing variant expects. -/
theorem spec_C7_index_wiring :
    ∀ ops : List Op, Op.boundedRun ConstantPoolBuilder.new ops = true →
      WFpool (Op.runSeq ConstantPoolBuilder.new ops).cp := by
  have master : ∀ (ops : List Op) (b : ConstantPoolBuilder), MapsOk b → WFpool b.cp →
      Op.boundedRun b ops = true → WFpool (Op.runSeq b ops).cp := by
    intro ops
    induction ops with
    | nil => intro b _ hwf _; exact hwf
    | cons op rest ih =>
      intro b hok hwf hb
      simp only [Op.boundedRun, Bool.and_eq_true, decide_eq_true_eq] at hb
      obtain ⟨hlen, hrest⟩ := hb
      obtain ⟨hok', hwfpres⟩ := Op.run_sem hok hlen
      exact ih (Op.run b op).2 hok' (hwfpres hwf) hrest
  intro ops hb
  exact master ops ConstantPoolBuilder.new mapsOk_new wfpool_new hb

/-- Witness for C7: a small concrete sequence stays bounded and yields a
well-wired pool. -/
theorem spec_C7_witness :
    WFpool (Op.runSeq ConstantPoolBuilder.new
      [Op.method_ref "a/B" "m" "()V", Op.long 5, Op.class_ "a/B"]).cp :=
  spec_C7_index_wiring [Op.method_ref "a/B" "m" "()V", Op.long 5, Op.class_ "a/B"] (by decide)

/-- C8.  Non-deduplication of 32-bit numeric literals: two successive calls to
`integer` (resp. `float`) with the same value each append a fresh entry and
return distinct indices, the second strictly greater (within the `u16` pool
ceiling of spec section 6). -/
theorem spec_C8_numeric_no_dedup :
    ∀ (b : ConstantPoolBuilder) (v : Int) (w : Nat), b.cp.length + 2 ≤ 65536 →
      (((b.integer v).2.integer v).2.cp = b.cp ++ [CpInfo.Integer v, CpInfo.Integer v] ∧
       (b.integer v).1 ≠ ((b.integer v).2.integer v).1 ∧
       (b.integer v).1 < ((b.integer v).2.integer v).1) ∧
      (((b.float w).2.float w).2.cp = b.cp ++ [CpInfo.Float w, CpInfo.Float w] ∧
       (b.float w).1 ≠ ((b.float w).2.float w).1 ∧
       (b.float w).1 < ((b.float w).2.float w).1) := by
  intro b v w hlen
  have hblen : b.cp.length < 65536 := by omega
  have hblen1 : b.cp.length + 1 < 65536 := by omega
  obtain ⟨hcp1, hi1, _⟩ := ConstantPoolBuilder.integer_spec b v
  obtain ⟨hcp2, hi2, _⟩ := ConstantPoolBuilder.integer_spec (b.integer v).2 v
  obtain ⟨hcp1f, hi1f, _⟩ := ConstantPoolBuilder.float_spec b w
  obtain ⟨hcp2f, hi2f, _⟩ := ConstantPoolBuilder.float_spec (b.float w).2 w
  rw [hcp1] at hcp2 hi2
  rw [hcp1f] at hcp2f hi2f
  have hlen2 : (b.cp ++ [CpInfo.Integer v]).length = b.cp.length + 1 := by simp
  have hlen2f : (b.cp ++ [CpInfo.Float w]).length = b.cp.length + 1 := by simp
  refine ⟨⟨?_, ?_, ?_⟩, ⟨?_, ?_, ?_⟩⟩
  · rw [hcp2]; simp
  · rw [hi1, hi2, hlen2, Nat.mod_eq_of_lt hblen, Nat.mod_eq_of_lt hblen1]; omega
  · rw [hi1, hi2, hlen2, Nat.mod_eq_of_lt hblen, Nat.mod_eq_of_lt hblen1]; omega
  · rw [hcp2f]; simp
  · rw [hi1f, hi2f, hlen2f, Nat.mod_eq_of_lt hblen, Nat.mod_eq_of_lt hblen1]; omega
  · rw [hi1f, hi2f, hlen2f, Nat.mod_eq_of_lt hblen, Nat.mod_eq_of_lt hblen1]; omega

/-- Witness for C8 on a fresh builder with `integer 5` and `float` bits 3. -/
theorem spec_C8_witness :
    ConstantPoolBuilder.new.cp.length + 2 ≤ 65536 ∧
    ((ConstantPoolBuilder.new.integer 5).2.integer 5).2.cp
      = ConstantPoolBuilder.new.cp ++ [CpInfo.Integer 5, CpInfo.Integer 5] ∧
    (ConstantPoolBuilder.new.integer 5).1 < ((ConstantPoolBuilder.new.integer 5).2.integer 5).1 :=
  ⟨by decide,
   ((spec_C8_numeric_no_dedup ConstantPoolBuilder.new 5 3 (by decide)).1).1,
   ((spec_C8_numeric_no_dedup ConstantPoolBuilder.new 5 3 (by decide)).1).2.2⟩

namespace ConstantPoolBuilder

/-- Registering an entry never touches the entry sequence. -/
theorem registerEntry_cp (cp : List CpInfo) (b : ConstantPoolBuilder) (i : Nat)
    (e : CpInfo) : (registerEntry cp b i e).cp = b.cp := by
  unfold registerEntry
  cases e <;> (repeat' split) <;> rfl

/-- The whole registration loop never touches the entry sequence. -/
theorem registerAll_cp (cp : List CpInfo) :
    ∀ (l : List CpInfo) (i : Nat) (b : ConstantPoolBuilder),
      (registerAll cp i l b).cp = b.cp := by
  intro l
  induction l with
  | nil => intro i b; rfl
  | cons e rest ih =>
    intro i b
    rw [registerAll, ih, registerEntry_cp]

/-- `from_pool` adopts a nonempty pool verbatim. -/
theorem from_pool_cp {pool : List CpInfo} (h : pool ≠ []) :
    (from_pool pool).cp = pool := by
  cases pool with
  | nil => exact absurd rfl h
  | cons e rest =>
    unfold from_pool
    rw [registerAll_cp]
    rfl

/-- Registering one entry adds a `fieldRefMap` binding only for a `Fieldref`
entry whose dependencies fully resolve, and then only at the entry's own
(truncated) index. -/
theorem registerEntry_fieldRefMap {cp : List CpInfo} {b : ConstantPoolBuilder} {i : Nat}
    {e : CpInfo} {k : Str × Str × Str} {v : Nat}
    (h : (registerEntry cp b i e).fieldRefMap k = some v) :
    b.fieldRefMap k = some v ∨
    ∃ ci nat, e = CpInfo.Fieldref ci nat ∧
      cp_class_name cp ci ≠ none ∧ cp_name_and_type cp nat ≠ none ∧ v = i % 65536 := by
  unfold registerEntry at h
  cases e with
  | Unusable => exact Or.inl h
  | Utf8 val => exact Or.inl h
  | Integer val => exact Or.inl h
  | Float val => exact Or.inl h
  | Long val => exact Or.inl h
  | Double val => exact Or.inl h
  | Dynamic x y => exact Or.inl h
  | Module x => exact Or.inl h
  | Package x => exact Or.inl h
  | Class ni =>
    cases hc : cp_utf8 cp ni <;> simp only [hc] at h <;> exact Or.inl h
  | String ni =>
    cases hc : cp_utf8 cp ni <;> simp only [hc] at h <;> exact Or.inl h
  | MethodType ni =>
    cases hc : cp_utf8 cp ni <;> simp only [hc] at h <;> exact Or.inl h
  | NameAndType ni di =>
    cases hc : cp_utf8 cp ni with
    | none => simp only [hc] at h; exact Or.inl h
    | some x =>
      cases hd : cp_utf8 cp di with
      | none => simp only [hc, hd] at h; exact Or.inl h
      | some y => simp only [hc, hd] at h; exact Or.inl h
  | MethodHandle kind ri =>
    cases hc : cp_member_ref cp ri with
    | none => simp only [hc] at h; exact Or.inl h
    | some p =>
      obtain ⟨o, n, d, itf⟩ := p
      simp only [hc] at h
      exact Or.inl h
  | InvokeDynamic bsm ti =>
    cases hc : cp_name_and_type cp ti with
    | none => simp only [hc] at h; exact Or.inl h
    | some p =>
      obtain ⟨n, d⟩ := p
      simp only [hc] at h
      exact Or.inl h
  | Methodref ci nat =>
    cases hc : cp_class_name cp ci with
    | none => simp only [hc] at h; exact Or.inl h
    | some o =>
      cases ht : cp_name_and_type cp nat with
      | none => simp only [hc, ht] at h; exact Or.inl h
      | some p =>
        obtain ⟨n, d⟩ := p
        simp only [hc, ht] at h
        exact Or.inl h
  | InterfaceMethodref ci nat =>
    cases hc : cp_class_name cp ci with
    | none => simp only [hc] at h; exact Or.inl h
    | some o =>
      cases ht : cp_name_and_type cp nat with
      | none => simp only [hc, ht] at h; exact Or.inl h
      | some p =>
        obtain ⟨n, d⟩ := p
        simp only [hc, ht] at h
        exact Or.inl h
  | Fieldref ci nat =>
    cases hc : cp_class_name cp ci with
    | none => simp only [hc] at h; exact Or.inl h
    | some o =>
      cases ht : cp_name_and_type cp nat with
      | none => simp only [hc, ht] at h; exact Or.inl h
      | some p =>
        obtain ⟨n, d⟩ := p
        simp only [hc, ht] at h
        have h' : (b.fieldRefMap.orInsert (o, n, d) (i % 65536)) k = some v := h
        unfold CpMap.orInsert CpMap.insert at h'
        cases hm : b.fieldRefMap (o, n, d) with
        | some j => simp only [hm] at h'; exact Or.inl h'
        | none =>
          simp only [hm] at h'
          by_cases hk : k = (o, n, d)
          · rw [if_pos hk] at h'
            cases h'
            exact Or.inr ⟨ci, nat, rfl, by rw [hc]; simp, by rw [ht]; simp, rfl⟩
          · rw [if_neg hk] at h'
            exact Or.inl h'

/-- Any `fieldRefMap` binding produced by the registration loop over a slice
of `cp` comes from a fully resolving `Fieldref` entry of `cp` and carries that
entry's own index. -/
theorem registerAll_field_inv (cp : List CpInfo) :
    ∀ (l : List CpInfo) (i0 : Nat) (b : ConstantPoolBuilder),
      (∀ k v, b.fieldRefMap k = some v →
        ∃ j ci nat, cp[j]? = some (CpInfo.Fieldref ci nat) ∧
          cp_class_name cp ci ≠ none ∧ cp_name_and_type cp nat ≠ none ∧ v = j % 65536) →
      (∀ (j : Nat) (e : CpInfo), l[j]? = some e → cp[i0 + j]? = some e) →
      ∀ k v, (registerAll cp i0 l b).fieldRefMap k = some v →
        ∃ j ci nat, cp[j]? = some (CpInfo.Fieldref ci nat) ∧
          cp_class_name cp ci ≠ none ∧ cp_name_and_type cp nat ≠ none ∧ v = j % 65536 := by
  intro l
  induction l with
  | nil => intro i0 b hQ _ k v h; exact hQ k v h
  | cons e rest ih =>
    intro i0 b hQ hslice k v h
    rw [registerAll] at h
    refine ih (i0 + 1) (registerEntry cp b i0 e) ?_ ?_ k v h
    · intro k' v' hk'
      rcases registerEntry_fieldRefMap hk' with hold | ⟨ci, nat, he, hc, ht, hv⟩
      · exact hQ k' v' hold
      · refine ⟨i0, ci, nat, ?_, hc, ht, hv⟩
        have := hslice 0 e (by simp)
        rw [Nat.add_zero] at this
        rw [← he]
        exact this
    · intro j e' hj
      have := hslice (j + 1) e' (by simpa using hj)
      rwa [show i0 + (j + 1) = i0 + 1 + j by omega] at this

/-- Any `fieldRefMap` binding of a freshly adopted builder comes from a fully
resolving `Fieldref` entry of the pool, at that entry's own index. -/
theorem from_pool_fieldRefMap {pool : List CpInfo} (hne : pool ≠ []) :
    ∀ k v, (from_pool pool).fieldRefMap k = some v →
      ∃ j ci nat, pool[j]? = some (CpInfo.Fieldref ci nat) ∧
        cp_class_name pool ci ≠ none ∧ cp_name_and_type pool nat ≠ none ∧ v = j % 65536 := by
  cases pool with
  | nil => exact absurd rfl hne
  | cons e rest =>
    intro k v h
    refine registerAll_field_inv (e :: rest) (e :: rest) 0 _ ?_ ?_ k v h
    · intro k' v' hk'
      exact absurd hk' (by simp [CpMap.empty])
    · intro j e' hj
      simpa using hj

end ConstantPoolBuilder

/-- C6.  Adoption leniency of `from_pool`: a `Fieldref` whose class or
name-and-type dependency does not resolve is adopted verbatim (no failure),
kept at its original slot, and not registered in the `field_ref` dedup map;
a subsequent `field_ref` call whose semantic identity is unregistered appends
a fresh `Fieldref` entry and returns a new index, not the malformed entry's
slot (within the `u16` pool ceiling of spec section 6). -/
theorem spec_C6_adoption_leniency :
    ∀ (pool : List CpInfo) (i ci nat : Nat),
      pool[i]? = some (CpInfo.Fieldref ci nat) →
      (ConstantPoolBuilder.cp_class_name pool ci = none ∨
       ConstantPoolBuilder.cp_name_and_type pool nat = none) →
      pool.length + 6 ≤ 65536 →
      (ConstantPoolBuilder.from_pool pool).cp = pool ∧
      (∀ k, (ConstantPoolBuilder.from_pool pool).fieldRefMap k ≠ some i) ∧
      (∀ o n d, (ConstantPoolBuilder.from_pool pool).fieldRefMap (o, n, d) = none →
        (∃ c t, ((ConstantPoolBuilder.from_pool pool).field_ref o n d).2.cp.getLast?
            = some (CpInfo.Fieldref c t)) ∧
        pool.length < ((ConstantPoolBuilder.from_pool pool).field_ref o n d).2.cp.length ∧
        ((ConstantPoolBuilder.from_pool pool).field_ref o n d).1 ≠ i) := by
  intro pool i ci nat hfield hbad hlen
  have hne : pool ≠ [] := by
    intro hnil
    rw [hnil] at hfield
    simp at hfield
  have hcp := ConstantPoolBuilder.from_pool_cp hne
  have hi : i < pool.length := (List.getElem?_eq_some.mp hfield).1
  refine ⟨hcp, ?_, ?_⟩
  · intro k hk
    obtain ⟨j, ci', nat', hj, hc', ht', hv⟩ :=
      ConstantPoolBuilder.from_pool_fieldRefMap hne k i hk
    have hjlen : j < pool.length := (List.getElem?_eq_some.mp hj).1
    rw [Nat.mod_eq_of_lt (by omega)] at hv
    subst hv
    rw [hfield] at hj
    simp only [Option.some.injEq, CpInfo.Fieldref.injEq] at hj
    obtain ⟨hc2, ht2⟩ := hj
    subst hc2
    subst ht2
    rcases hbad with hbad | hbad
    · exact hc' hbad
    · exact ht' hbad
  · intro o n d hnone
    obtain ⟨_, _, _, hfresh⟩ :=
      ConstantPoolBuilder.field_ref_spec (ConstantPoolBuilder.from_pool pool) o n d
    obtain ⟨_, _, m, c, t, hcp', hge, hlt, hidx⟩ := hfresh hnone
    rw [hcp] at hge hlt
    refine ⟨⟨c, t, by rw [hcp']; exact List.getLast?_concat _⟩, ?_, ?_⟩
    · rw [hcp']
      simp only [List.length_append, List.length_cons, List.length_nil]
      omega
    · rw [hidx, Nat.mod_eq_of_lt (by omega)]
      omega

/-- Witness for C6: adopting `[Unusable, Fieldref 0 0]` (whose `class_index 0`
addresses the `Unusable` slot) keeps the pool verbatim, registers nothing for
it, and a subsequent `field_ref` appends a fresh entry with a fresh index. -/
theorem spec_C6_witness :
    (ConstantPoolBuilder.from_pool [CpInfo.Unusable, CpInfo.Fieldref 0 0]).cp
      = [CpInfo.Unusable, CpInfo.Fieldref 0 0] ∧
    (ConstantPoolBuilder.from_pool [CpInfo.Unusable, CpInfo.Fieldref 0 0]).fieldRefMap
      ("x", "y", "z") ≠ some 1 ∧
    ((ConstantPoolBuilder.from_pool [CpInfo.Unusable, CpInfo.Fieldref 0 0]).field_ref
      "x" "y" "z").1 ≠ 1 := by
  obtain ⟨h1, h2, h3⟩ := spec_C6_adoption_leniency [CpInfo.Unusable, CpInfo.Fieldref 0 0]
    1 0 0 (by decide) (Or.inl (by decide)) (by decide)
  exact ⟨h1, h2 ("x", "y", "z"), (h3 "x" "y" "z" rfl).2.2⟩

theorem insert_ne {α : Type} [DecidableEq α] {m : CpMap α} {K k : α} {v : Nat}
    (h : k ≠ K) : CpMap.insert m K v k = m k := by
  show (if k = K then some v else m k) = m k
  rw [if_neg h]

theorem isSome_insert {α : Type} [DecidableEq α] {m : CpMap α} {K : α} {v : Nat} {k : α}
    (h : (m k).isSome = true) : (CpMap.insert m K v k).isSome = true := by
  show (if k = K then some v else m k).isSome = true
  by_cases hk : k = K
  · rw [if_pos hk]; rfl
  · rw [if_neg hk]; exact h

theorem mapsLE_isSome {a b : ConstantPoolBuilder} (h : MapsLE a b) (op : Op)
    (hs : (Op.lookup a op).isSome = true) : (Op.lookup b op).isSome = true := by
  cases heq : Op.lookup a op with
  | none => rw [heq] at hs; exact Bool.noConfusion hs
  | some j => rw [h op j heq]; rfl

namespace ConstantPoolBuilder

/-- Every binding present after `utf8` either was present before, or is a
binding all of whose immediate dependencies are registered afterwards. -/
theorem utf8_created (b : ConstantPoolBuilder) (v : Str) :
    ∀ op' i', Op.lookup (b.utf8 v).2 op' = some i' →
      Op.lookup b op' = some i' ∨
      ∀ dep ∈ Op.deps op', (Op.lookup (b.utf8 v).2 dep).isSome = true := by
  unfold ConstantPoolBuilder.utf8
  cases h : b.utf8Map v with
  | some i => simp only [h]; intro op' i' hl'; exact Or.inl hl'
  | none =>
    simp only [h, ConstantPoolBuilder.push]
    intro op' i' hl'
    cases op' <;> simp only [Op.lookup] at hl' ⊢ <;> try (exact Or.inl hl')
    rename_i k
    by_cases hk : k = v
    · subst hk
      right
      intro dep hdep
      simp [Op.deps] at hdep
    · rw [insert_ne hk] at hl'
      exact Or.inl hl'

/-- As `utf8_created`, for the numeric operations (no map changes at all). -/
theorem integer_created (b : ConstantPoolBuilder) (v : Int) :
    ∀ op' i', Op.lookup (b.integer v).2 op' = some i' →
      Op.lookup b op' = some i' ∨
      ∀ dep ∈ Op.deps op', (Op.lookup (b.integer v).2 dep).isSome = true := by
  intro op' i' hl'
  left
  cases op' <;> simp only [Op.lookup] at hl' ⊢ <;> exact hl'

theorem float_created (b : ConstantPoolBuilder) (v : Nat) :
    ∀ op' i', Op.lookup (b.float v).2 op' = some i' →
      Op.lookup b op' = some i' ∨
      ∀ dep ∈ Op.deps op', (Op.lookup (b.float v).2 dep).isSome = true := by
  intro op' i' hl'
  left
  cases op' <;> simp only [Op.lookup] at hl' ⊢ <;> exact hl'

theorem long_created (b : ConstantPoolBuilder) (v : Int) :
    ∀ op' i', Op.lookup (b.long v).2 op' = some i' →
      Op.lookup b op' = some i' ∨
      ∀ dep ∈ Op.deps op', (Op.lookup (b.long v).2 dep).isSome = true := by
  intro op' i' hl'
  left
  cases op' <;> simp only [Op.lookup] at hl' ⊢ <;> exact hl'

theorem double_created (b : ConstantPoolBuilder) (v : Nat) :
    ∀ op' i', Op.lookup (b.double v).2 op' = some i' →
      Op.lookup b op' = some i' ∨
      ∀ dep ∈ Op.deps op', (Op.lookup (b.double v).2 dep).isSome = true := by
  intro op' i' hl'
  left
  cases op' <;> simp only [Op.lookup] at hl' ⊢ <;> exact hl'

end ConstantPoolBuilder

theorem Handle.ext_of_fields {a b : Handle}
    (h : (a.reference_kind, a.owner, a.name, a.descriptor, a.is_interface)
       = (b.reference_kind, b.owner, b.name, b.descriptor, b.is_interface)) : a = b := by
  cases a
  cases b
  simp only [Prod.mk.injEq] at h
  obtain ⟨h1, h2, h3, h4, h5⟩ := h
  subst h1; subst h2; subst h3; subst h4; subst h5
  rfl

namespace ConstantPoolBuilder

/-- As `utf8_created`, for `class_`. -/
theorem class_created (b : ConstantPoolBuilder) (n : Str) :
    ∀ op' i', Op.lookup (b.class_ n).2 op' = some i' →
      Op.lookup b op' = some i' ∨
      ∀ dep ∈ Op.deps op', (Op.lookup (b.class_ n).2 dep).isSome = true := by
  unfold ConstantPoolBuilder.class_
  cases h : b.classMap n with
  | some i => simp only [h]; intro op' i' hl'; exact Or.inl hl'
  | none =>
    obtain ⟨_, _, hpost1⟩ := utf8_spec b n
    have hcr1 := utf8_created b n
    rcases hp : b.utf8 n with ⟨ni, b1⟩
    rw [hp] at hpost1 hcr1
    simp only [h, hp, ConstantPoolBuilder.push]
    have hpost1a : b1.utf8Map n = some ni := hpost1
    have hcr1a : ∀ q j, Op.lookup b1 q = some j →
        Op.lookup b q = some j ∨
        ∀ dep ∈ Op.deps q, (Op.lookup b1 dep).isSome = true := hcr1
    intro op' i' hl'
    by_cases hE : op' = Op.class_ n
    · subst hE
      right
      intro dep hdep
      simp only [Op.deps, List.mem_singleton] at hdep
      subst hdep
      simp only [Op.lookup]
      show (b1.utf8Map n).isSome = true
      rw [hpost1a]
      rfl
    · have hl2 : Op.lookup b1 op' = some i' := by
        cases op' <;> try exact hl'
        rename_i k
        simp only [Op.lookup] at hl' ⊢
        by_cases hk : k = n
        · subst hk
          exact absurd rfl hE
        · rw [insert_ne hk] at hl'
          exact hl'
      rcases hcr1a op' i' hl2 with hold | hnew
      · exact Or.inl hold
      · right
        intro dep hdep
        have hd := hnew dep hdep
        cases dep <;> simp only [Op.lookup] at hd ⊢ <;>
          first
          | exact hd
          | exact isSome_insert hd

/-- As `utf8_created`, for `string`. -/
theorem string_created (b : ConstantPoolBuilder) (v : Str) :
    ∀ op' i', Op.lookup (b.string v).2 op' = some i' →
      Op.lookup b op' = some i' ∨
      ∀ dep ∈ Op.deps op', (Op.lookup (b.string v).2 dep).isSome = true := by
  unfold ConstantPoolBuilder.string
  cases h : b.stringMap v with
  | some i => simp only [h]; intro op' i' hl'; exact Or.inl hl'
  | none =>
    obtain ⟨_, _, hpost1⟩ := utf8_spec b v
    have hcr1 := utf8_created b v
    rcases hp : b.utf8 v with ⟨ni, b1⟩
    rw [hp] at hpost1 hcr1
    simp only [h, hp, ConstantPoolBuilder.push]
    have hpost1a : b1.utf8Map v = some ni := hpost1
    have hcr1a : ∀ q j, Op.lookup b1 q = some j →
        Op.lookup b q = some j ∨
        ∀ dep ∈ Op.deps q, (Op.lookup b1 dep).isSome = true := hcr1
    intro op' i' hl'
    by_cases hE : op' = Op.string v
    · subst hE
      right
      intro dep hdep
      simp only [Op.deps, List.mem_singleton] at hdep
      subst hdep
      simp only [Op.lookup]
      show (b1.utf8Map v).isSome = true
      rw [hpost1a]
      rfl
    · have hl2 : Op.lookup b1 op' = some i' := by
        cases op' <;> try exact hl'
        rename_i k
        simp only [Op.lookup] at hl' ⊢
        by_cases hk : k = v
        · subst hk
          exact absurd rfl hE
        · rw [insert_ne hk] at hl'
          exact hl'
      rcases hcr1a op' i' hl2 with hold | hnew
      · exact Or.inl hold
      · right
        intro dep hdep
        have hd := hnew dep hdep
        cases dep <;> simp only [Op.lookup] at hd ⊢ <;>
          first
          | exact hd
          | exact isSome_insert hd

/-- As `utf8_created`, for `method_type`. -/
theorem method_type_created (b : ConstantPoolBuilder) (d : Str) :
    ∀ op' i', Op.lookup (b.method_type d).2 op' = some i' →
      Op.lookup b op' = some i' ∨
      ∀ dep ∈ Op.deps op', (Op.lookup (b.method_type d).2 dep).isSome = true := by
  unfold ConstantPoolBuilder.method_type
  cases h : b.methodTypeMap d with
  | some i => simp only [h]; intro op' i' hl'; exact Or.inl hl'
  | none =>
    obtain ⟨_, _, hpost1⟩ := utf8_spec b d
    have hcr1 := utf8_created b d
    rcases hp : b.utf8 d with ⟨ni, b1⟩
    rw [hp] at hpost1 hcr1
    simp only [h, hp, ConstantPoolBuilder.push]
    have hpost1a : b1.utf8Map d = some ni := hpost1
    have hcr1a : ∀ q j, Op.lookup b1 q = some j →
        Op.lookup b q = some j ∨
        ∀ dep ∈ Op.deps q, (Op.lookup b1 dep).isSome = true := hcr1
    intro op' i' hl'
    by_cases hE : op' = Op.method_type d
    · subst hE
      right
      intro dep hdep
      simp only [Op.deps, List.mem_singleton] at hdep
      subst hdep
      simp only [Op.lookup]
      show (b1.utf8Map d).isSome = true
      rw [hpost1a]
      rfl
    · have hl2 : Op.lookup b1 op' = some i' := by
        cases op' <;> try exact hl'
        rename_i k
        simp only [Op.lookup] at hl' ⊢
        by_cases hk : k = d
        · subst hk
          exact absurd rfl hE
        · rw [insert_ne hk] at hl'
          exact hl'
      rcases hcr1a op' i' hl2 with hold | hnew
      · exact Or.inl hold
      · right
        intro dep hdep
        have hd := hnew dep hdep
        cases dep <;> simp only [Op.lookup] at hd ⊢ <;>
          first
          | exact hd
          | exact isSome_insert hd

end ConstantPoolBuilder

namespace ConstantPoolBuilder

/-- As `utf8_created`, for `name_and_type`. -/
theorem name_and_type_created (b : ConstantPoolBuilder) (n d : Str) :
    ∀ op' i', Op.lookup (b.name_and_type n d).2 op' = some i' →
      Op.lookup b op' = some i' ∨
      ∀ dep ∈ Op.deps op', (Op.lookup (b.name_and_type n d).2 dep).isSome = true := by
  unfold ConstantPoolBuilder.name_and_type
  cases h : b.nameAndTypeMap (n, d) with
  | some i => simp only [h]; intro op' i' hl'; exact Or.inl hl'
  | none =>
    obtain ⟨_, _, hpost1⟩ := utf8_spec b n
    have hcr1 := utf8_created b n
    rcases hp1 : b.utf8 n with ⟨ni, b1⟩
    rw [hp1] at hpost1 hcr1
    obtain ⟨_, hle2, hpost2⟩ := utf8_spec b1 d
    have hcr2 := utf8_created b1 d
    rcases hp2 : b1.utf8 d with ⟨di, b2⟩
    rw [hp2] at hpost2 hcr2 hle2
    simp only [h, hp1, hp2, ConstantPoolBuilder.push]
    have hpost2a : b2.utf8Map d = some di := hpost2
    have hle2a : MapsLE b1 b2 := hle2
    have hpost1a : b2.utf8Map n = some ni := hle2a (Op.utf8 n) ni hpost1
    have hcr1a : ∀ q j, Op.lookup b1 q = some j →
        Op.lookup b q = some j ∨
        ∀ dep ∈ Op.deps q, (Op.lookup b1 dep).isSome = true := hcr1
    have hcr2a : ∀ q j, Op.lookup b2 q = some j →
        Op.lookup b1 q = some j ∨
        ∀ dep ∈ Op.deps q, (Op.lookup b2 dep).isSome = true := hcr2
    intro op' i' hl'
    by_cases hE : op' = Op.name_and_type n d
    · subst hE
      right
      intro dep hdep
      simp only [Op.deps, List.mem_cons, List.not_mem_nil, or_false] at hdep
      rcases hdep with hdep | hdep
      · subst hdep
        simp only [Op.lookup]
        show (b2.utf8Map n).isSome = true
        rw [hpost1a]
        rfl
      · subst hdep
        simp only [Op.lookup]
        show (b2.utf8Map d).isSome = true
        rw [hpost2a]
        rfl
    · have hl2 : Op.lookup b2 op' = some i' := by
        cases op' <;> try exact hl'
        rename_i k1 k2
        simp only [Op.lookup] at hl' ⊢
        by_cases hk : (k1, k2) = (n, d)
        · injection hk with hk1 hk2
          subst hk1; subst hk2
          exact absurd rfl hE
        · rw [insert_ne hk] at hl'
          exact hl'
      rcases hcr2a op' i' hl2 with hold2 | hnew2
      · rcases hcr1a op' i' hold2 with hold1 | hnew1
        · exact Or.inl hold1
        · right
          intro dep hdep
          have hd : (Op.lookup b2 dep).isSome = true :=
            mapsLE_isSome hle2a dep (hnew1 dep hdep)
          cases dep <;> simp only [Op.lookup] at hd ⊢ <;>
            first
            | exact hd
            | exact isSome_insert hd
      · right
        intro dep hdep
        have hd := hnew2 dep hdep
        cases dep <;> simp only [Op.lookup] at hd ⊢ <;>
          first
          | exact hd
          | exact isSome_insert hd

/-- As `utf8_created`, for `invoke_dynamic`. -/
theorem invoke_dynamic_created (b : ConstantPoolBuilder) (bsm : Nat) (n d : Str) :
    ∀ op' i', Op.lookup (b.invoke_dynamic bsm n d).2 op' = some i' →
      Op.lookup b op' = some i' ∨
      ∀ dep ∈ Op.deps op', (Op.lookup (b.invoke_dynamic bsm n d).2 dep).isSome = true := by
  unfold ConstantPoolBuilder.invoke_dynamic
  cases h : b.invokeDynamicMap (bsm, n, d) with
  | some i => simp only [h]; intro op' i' hl'; exact Or.inl hl'
  | none =>
    obtain ⟨_, _, hpost1, _⟩ := name_and_type_spec b n d
    have hcr1 := name_and_type_created b n d
    rcases hp : b.name_and_type n d with ⟨ti, b1⟩
    rw [hp] at hpost1 hcr1
    simp only [h, hp, ConstantPoolBuilder.push]
    have hpost1a : b1.nameAndTypeMap (n, d) = some ti := hpost1
    have hcr1a : ∀ q j, Op.lookup b1 q = some j →
        Op.lookup b q = some j ∨
        ∀ dep ∈ Op.deps q, (Op.lookup b1 dep).isSome = true := hcr1
    intro op' i' hl'
    by_cases hE : op' = Op.invoke_dynamic bsm n d
    · subst hE
      right
      intro dep hdep
      simp only [Op.deps, List.mem_singleton] at hdep
      subst hdep
      simp only [Op.lookup]
      show (b1.nameAndTypeMap (n, d)).isSome = true
      rw [hpost1a]
      rfl
    · have hl2 : Op.lookup b1 op' = some i' := by
        cases op' <;> try exact hl'
        rename_i k1 k2 k3
        simp only [Op.lookup] at hl' ⊢
        by_cases hk : (k1, k2, k3) = (bsm, n, d)
        · injection hk with hk1 hkr
          injection hkr with hk2 hk3
          subst hk1; subst hk2; subst hk3
          exact absurd rfl hE
        · rw [insert_ne hk] at hl'
          exact hl'
      rcases hcr1a op' i' hl2 with hold | hnew
      · exact Or.inl hold
      · right
        intro dep hdep
        have hd := hnew dep hdep
        cases dep <;> simp only [Op.lookup] at hd ⊢ <;>
          first
          | exact hd
          | exact isSome_insert hd

end ConstantPoolBuilder

namespace ConstantPoolBuilder

/-- As `utf8_created`, for `field_ref`. -/
theorem field_ref_created (b : ConstantPoolBuilder) (o n d : Str) :
    ∀ op' i', Op.lookup (b.field_ref o n d).2 op' = some i' →
      Op.lookup b op' = some i' ∨
      ∀ dep ∈ Op.deps op', (Op.lookup (b.field_ref o n d).2 dep).isSome = true := by
  unfold ConstantPoolBuilder.field_ref
  cases h : b.fieldRefMap (o, n, d) with
  | some i => simp only [h]; intro op' i' hl'; exact Or.inl hl'
  | none =>
    obtain ⟨_, _, hpostC, _⟩ := class_spec b o
    have hcrC := class_created b o
    rcases hp1 : b.class_ o with ⟨ci, b1⟩
    rw [hp1] at hpostC hcrC
    obtain ⟨_, hleT, hpostT, _⟩ := name_and_type_spec b1 n d
    have hcrT := name_and_type_created b1 n d
    rcases hp2 : b1.name_and_type n d with ⟨ti, b2⟩
    rw [hp2] at hpostT hcrT hleT
    simp only [h, hp1, hp2, ConstantPoolBuilder.push]
    have hpostTa : b2.nameAndTypeMap (n, d) = some ti := hpostT
    have hleTa : MapsLE b1 b2 := hleT
    have hpostCa : b2.classMap o = some ci := hleTa (Op.class_ o) ci hpostC
    have hcrCa : ∀ q j, Op.lookup b1 q = some j →
        Op.lookup b q = some j ∨
        ∀ dep ∈ Op.deps q, (Op.lookup b1 dep).isSome = true := hcrC
    have hcrTa : ∀ q j, Op.lookup b2 q = some j →
        Op.lookup b1 q = some j ∨
        ∀ dep ∈ Op.deps q, (Op.lookup b2 dep).isSome = true := hcrT
    intro op' i' hl'
    by_cases hE : op' = Op.field_ref o n d
    · subst hE
      right
      intro dep hdep
      simp only [Op.deps, List.mem_cons, List.not_mem_nil, or_false] at hdep
      rcases hdep with hdep | hdep
      · subst hdep
        simp only [Op.lookup]
        show (b2.classMap o).isSome = true
        rw [hpostCa]
        rfl
      · subst hdep
        simp only [Op.lookup]
        show (b2.nameAndTypeMap (n, d)).isSome = true
        rw [hpostTa]
        rfl
    · have hl2 : Op.lookup b2 op' = some i' := by
        cases op' <;> try exact hl'
        rename_i k1 k2 k3
        simp only [Op.lookup] at hl' ⊢
        by_cases hk : (k1, k2, k3) = (o, n, d)
        · injection hk with hk1 hkr
          injection hkr with hk2 hk3
          subst hk1; subst hk2; subst hk3
          exact absurd rfl hE
        · rw [insert_ne hk] at hl'
          exact hl'
      rcases hcrTa op' i' hl2 with hold2 | hnew2
      · rcases hcrCa op' i' hold2 with hold1 | hnew1
        · exact Or.inl hold1
        · right
          intro dep hdep
          have hd : (Op.lookup b2 dep).isSome = true :=
            mapsLE_isSome hleTa dep (hnew1 dep hdep)
          cases dep <;> simp only [Op.lookup] at hd ⊢ <;>
            first
            | exact hd
            | exact isSome_insert hd
      · right
        intro dep hdep
        have hd := hnew2 dep hdep
        cases dep <;> simp only [Op.lookup] at hd ⊢ <;>
          first
          | exact hd
          | exact isSome_insert hd

end ConstantPoolBuilder

namespace ConstantPoolBuilder

/-- As `utf8_created`, for `method_ref`. -/
theorem method_ref_created (b : ConstantPoolBuilder) (o n d : Str) :
    ∀ op' i', Op.lookup (b.method_ref o n d).2 op' = some i' →
      Op.lookup b op' = some i' ∨
      ∀ dep ∈ Op.deps op', (Op.lookup (b.method_ref o n d).2 dep).isSome = true := by
  unfold ConstantPoolBuilder.method_ref
  cases h : b.methodRefMap (o, n, d) with
  | some i => simp only [h]; intro op' i' hl'; exact Or.inl hl'
  | none =>
    obtain ⟨_, _, hpostC, _⟩ := class_spec b o
    have hcrC := class_created b o
    rcases hp1 : b.class_ o with ⟨ci, b1⟩
    rw [hp1] at hpostC hcrC
    obtain ⟨_, hleT, hpostT, _⟩ := name_and_type_spec b1 n d
    have hcrT := name_and_type_created b1 n d
    rcases hp2 : b1.name_and_type n d with ⟨ti, b2⟩
    rw [hp2] at hpostT hcrT hleT
    simp only [h, hp1, hp2, ConstantPoolBuilder.push]
    have hpostTa : b2.nameAndTypeMap (n, d) = some ti := hpostT
    have hleTa : MapsLE b1 b2 := hleT
    have hpostCa : b2.classMap o = some ci := hleTa (Op.class_ o) ci hpostC
    have hcrCa : ∀ q j, Op.lookup b1 q = some j →
        Op.lookup b q = some j ∨
        ∀ dep ∈ Op.deps q, (Op.lookup b1 dep).isSome = true := hcrC
    have hcrTa : ∀ q j, Op.lookup b2 q = some j →
        Op.lookup b1 q = some j ∨
        ∀ dep ∈ Op.deps q, (Op.lookup b2 dep).isSome = true := hcrT
    intro op' i' hl'
    by_cases hE : op' = Op.method_ref o n d
    · subst hE
      right
      intro dep hdep
      simp only [Op.deps, List.mem_cons, List.not_mem_nil, or_false] at hdep
      rcases hdep with hdep | hdep
      · subst hdep
        simp only [Op.lookup]
        show (b2.classMap o).isSome = true
        rw [hpostCa]
        rfl
      · subst hdep
        simp only [Op.lookup]
        show (b2.nameAndTypeMap (n, d)).isSome = true
        rw [hpostTa]
        rfl
    · have hl2 : Op.lookup b2 op' = some i' := by
        cases op' <;> try exact hl'
        rename_i k1 k2 k3
        simp only [Op.lookup] at hl' ⊢
        by_cases hk : (k1, k2, k3) = (o, n, d)
        · injection hk with hk1 hkr
          injection hkr with hk2 hk3
          subst hk1; subst hk2; subst hk3
          exact absurd rfl hE
        · rw [insert_ne hk] at hl'
          exact hl'
      rcases hcrTa op' i' hl2 with hold2 | hnew2
      · rcases hcrCa op' i' hold2 with hold1 | hnew1
        · exact Or.inl hold1
        · right
          intro dep hdep
          have hd : (Op.lookup b2 dep).isSome = true :=
            mapsLE_isSome hleTa dep (hnew1 dep hdep)
          cases dep <;> simp only [Op.lookup] at hd ⊢ <;>
            first
            | exact hd
            | exact isSome_insert hd
      · right
        intro dep hdep
        have hd := hnew2 dep hdep
        cases dep <;> simp only [Op.lookup] at hd ⊢ <;>
          first
          | exact hd
          | exact isSome_insert hd

end ConstantPoolBuilder

namespace ConstantPoolBuilder

/-- As `utf8_created`, for `interface_method_ref`. -/
theorem interface_method_ref_created (b : ConstantPoolBuilder) (o n d : Str) :
    ∀ op' i', Op.lookup (b.interface_method_ref o n d).2 op' = some i' →
      Op.lookup b op' = some i' ∨
      ∀ dep ∈ Op.deps op', (Op.lookup (b.interface_method_ref o n d).2 dep).isSome = true := by
  unfold ConstantPoolBuilder.interface_method_ref
  cases h : b.interfaceMethodRefMap (o, n, d) with
  | some i => simp only [h]; intro op' i' hl'; exact Or.inl hl'
  | none =>
    obtain ⟨_, _, hpostC, _⟩ := class_spec b o
    have hcrC := class_created b o
    rcases hp1 : b.class_ o with ⟨ci, b1⟩
    rw [hp1] at hpostC hcrC
    obtain ⟨_, hleT, hpostT, _⟩ := name_and_type_spec b1 n d
    have hcrT := name_and_type_created b1 n d
    rcases hp2 : b1.name_and_type n d with ⟨ti, b2⟩
    rw [hp2] at hpostT hcrT hleT
    simp only [h, hp1, hp2, ConstantPoolBuilder.push]
    have hpostTa : b2.nameAndTypeMap (n, d) = some ti := hpostT
    have hleTa : MapsLE b1 b2 := hleT
    have hpostCa : b2.classMap o = some ci := hleTa (Op.class_ o) ci hpostC
    have hcrCa : ∀ q j, Op.lookup b1 q = some j →
        Op.lookup b q = some j ∨
        ∀ dep ∈ Op.deps q, (Op.lookup b1 dep).isSome = true := hcrC
    have hcrTa : ∀ q j, Op.lookup b2 q = some j →
        Op.lookup b1 q = some j ∨
        ∀ dep ∈ Op.deps q, (Op.lookup b2 dep).isSome = true := hcrT
    intro op' i' hl'
    by_cases hE : op' = Op.interface_method_ref o n d
    · subst hE
      right
      intro dep hdep
      simp only [Op.deps, List.mem_cons, List.not_mem_nil, or_false] at hdep
      rcases hdep with hdep | hdep
      · subst hdep
        simp only [Op.lookup]
        show (b2.classMap o).isSome = true
        rw [hpostCa]
        rfl
      · subst hdep
        simp only [Op.lookup]
        show (b2.nameAndTypeMap (n, d)).isSome = true
        rw [hpostTa]
        rfl
    · have hl2 : Op.lookup b2 op' = some i' := by
        cases op' <;> try exact hl'
        rename_i k1 k2 k3
        simp only [Op.lookup] at hl' ⊢
        by_cases hk : (k1, k2, k3) = (o, n, d)
        · injection hk with hk1 hkr
          injection hkr with hk2 hk3
          subst hk1; subst hk2; subst hk3
          exact absurd rfl hE
        · rw [insert_ne hk] at hl'
          exact hl'
      rcases hcrTa op' i' hl2 with hold2 | hnew2
      · rcases hcrCa op' i' hold2 with hold1 | hnew1
        · exact Or.inl hold1
        · right
          intro dep hdep
          have hd : (Op.lookup b2 dep).isSome = true :=
            mapsLE_isSome hleTa dep (hnew1 dep hdep)
          cases dep <;> simp only [Op.lookup] at hd ⊢ <;>
            first
            | exact hd
            | exact isSome_insert hd
      · right
        intro dep hdep
        have hd := hnew2 dep hdep
        cases dep <;> simp only [Op.lookup] at hd ⊢ <;>
          first
          | exact hd
          | exact isSome_insert hd

end ConstantPoolBuilder

namespace ConstantPoolBuilder

/-- As `utf8_created`, for `method_handle`. -/
theorem method_handle_created (b : ConstantPoolBuilder) (handle : Handle) :
    ∀ op' i', Op.lookup (b.method_handle handle).2 op' = some i' →
      Op.lookup b op' = some i' ∨
      ∀ dep ∈ Op.deps op', (Op.lookup (b.method_handle handle).2 dep).isSome = true := by
  unfold ConstantPoolBuilder.method_handle
  cases h : b.methodHandleMap
      (handle.reference_kind, handle.owner, handle.name, handle.descriptor, handle.is_interface) with
  | some i => simp only [h]; intro op' i' hl'; exact Or.inl hl'
  | none =>
    simp only [h]
    by_cases h4 : handle.reference_kind = 1 ∨ handle.reference_kind = 2 ∨
        handle.reference_kind = 3 ∨ handle.reference_kind = 4
    · rw [if_pos h4]
      obtain ⟨_, _, hpostR, _⟩ := field_ref_spec b handle.owner handle.name handle.descriptor
      have hcrR := field_ref_created b handle.owner handle.name handle.descriptor
      rcases hp1 : b.field_ref handle.owner handle.name handle.descriptor with ⟨ri, b1⟩
      rw [hp1] at hpostR hcrR
      simp only [hp1, ConstantPoolBuilder.push]
      have hpostRa : b1.fieldRefMap (handle.owner, handle.name, handle.descriptor) = some ri := hpostR
      have hcrRa : ∀ q j, Op.lookup b1 q = some j →
          Op.lookup b q = some j ∨
          ∀ dep ∈ Op.deps q, (Op.lookup b1 dep).isSome = true := hcrR
      intro op' i' hl'
      by_cases hE : op' = Op.method_handle handle
      · subst hE
        right
        intro dep hdep
        simp only [Op.deps] at hdep
        rw [if_pos h4] at hdep
        simp only [List.mem_singleton] at hdep
        subst hdep
        simp only [Op.lookup]
        show (b1.fieldRefMap (handle.owner, handle.name, handle.descriptor)).isSome = true
        rw [hpostRa]
        rfl
      · have hl2 : Op.lookup b1 op' = some i' := by
          cases op' <;> try exact hl'
          rename_i k
          simp only [Op.lookup] at hl' ⊢
          by_cases hk : (k.reference_kind, k.owner, k.name, k.descriptor, k.is_interface)
              = (handle.reference_kind, handle.owner, handle.name, handle.descriptor, handle.is_interface)
          · rw [Handle.ext_of_fields hk] at hE
            exact absurd rfl hE
          · rw [insert_ne hk] at hl'
            exact hl'
        rcases hcrRa op' i' hl2 with hold | hnew
        · exact Or.inl hold
        · right
          intro dep hdep
          have hd := hnew dep hdep
          cases dep <;> simp only [Op.lookup] at hd ⊢ <;>
            first
            | exact hd
            | exact isSome_insert hd
    · rw [if_neg h4]
      by_cases h9 : handle.reference_kind = 9
      · rw [if_pos h9]
        obtain ⟨_, _, hpostR, _⟩ := interface_method_ref_spec b handle.owner handle.name handle.descriptor
        have hcrR := interface_method_ref_created b handle.owner handle.name handle.descriptor
        rcases hp1 : b.interface_method_ref handle.owner handle.name handle.descriptor with ⟨ri, b1⟩
        rw [hp1] at hpostR hcrR
        simp only [hp1, ConstantPoolBuilder.push]
        have hpostRa : b1.interfaceMethodRefMap (handle.owner, handle.name, handle.descriptor) = some ri := hpostR
        have hcrRa : ∀ q j, Op.lookup b1 q = some j →
            Op.lookup b q = some j ∨
            ∀ dep ∈ Op.deps q, (Op.lookup b1 dep).isSome = true := hcrR
        intro op' i' hl'
        by_cases hE : op' = Op.method_handle handle
        · subst hE
          right
          intro dep hdep
          simp only [Op.deps] at hdep
          rw [if_neg h4, if_pos h9] at hdep
          simp only [List.mem_singleton] at hdep
          subst hdep
          simp only [Op.lookup]
          show (b1.interfaceMethodRefMap (handle.owner, handle.name, handle.descriptor)).isSome = true
          rw [hpostRa]
          rfl
        · have hl2 : Op.lookup b1 op' = some i' := by
            cases op' <;> try exact hl'
            rename_i k
            simp only [Op.lookup] at hl' ⊢
            by_cases hk : (k.reference_kind, k.owner, k.name, k.descriptor, k.is_interface)
                = (handle.reference_kind, handle.owner, handle.name, handle.descriptor, handle.is_interface)
            · rw [Handle.ext_of_fields hk] at hE
              exact absurd rfl hE
            · rw [insert_ne hk] at hl'
              exact hl'
          rcases hcrRa op' i' hl2 with hold | hnew
          · exact Or.inl hold
          · right
            intro dep hdep
            have hd := hnew dep hdep
            cases dep <;> simp only [Op.lookup] at hd ⊢ <;>
              first
              | exact hd
              | exact isSome_insert hd
      · rw [if_neg h9]
        obtain ⟨_, _, hpostR, _⟩ := method_ref_spec b handle.owner handle.name handle.descriptor
        have hcrR := method_ref_created b handle.owner handle.name handle.descriptor
        rcases hp1 : b.method_ref handle.owner handle.name handle.descriptor with ⟨ri, b1⟩
        rw [hp1] at hpostR hcrR
        simp only [hp1, ConstantPoolBuilder.push]
        have hpostRa : b1.methodRefMap (handle.owner, handle.name, handle.descriptor) = some ri := hpostR
        have hcrRa : ∀ q j, Op.lookup b1 q = some j →
            Op.lookup b q = some j ∨
            ∀ dep ∈ Op.deps q, (Op.lookup b1 dep).isSome = true := hcrR
        intro op' i' hl'
        by_cases hE : op' = Op.method_handle handle
        · subst hE
          right
          intro dep hdep
          simp only [Op.deps] at hdep
          rw [if_neg h4, if_neg h9] at hdep
          simp only [List.mem_singleton] at hdep
          subst hdep
          simp only [Op.lookup]
          show (b1.methodRefMap (handle.owner, handle.name, handle.descriptor)).isSome = true
          rw [hpostRa]
          rfl
        · have hl2 : Op.lookup b1 op' = some i' := by
            cases op' <;> try exact hl'
            rename_i k
            simp only [Op.lookup] at hl' ⊢
            by_cases hk : (k.reference_kind, k.owner, k.name, k.descriptor, k.is_interface)
                = (handle.reference_kind, handle.owner, handle.name, handle.descriptor, handle.is_interface)
            · rw [Handle.ext_of_fields hk] at hE
              exact absurd rfl hE
            · rw [insert_ne hk] at hl'
              exact hl'
          rcases hcrRa op' i' hl2 with hold | hnew
          · exact Or.inl hold
          · right
            intro dep hdep
            have hd := hnew dep hdep
            cases dep <;> simp only [Op.lookup] at hd ⊢ <;>
              first
              | exact hd
              | exact isSome_insert hd

end ConstantPoolBuilder

namespace Op

/-- Every binding present after any operation either was present before (with
the same index) or has all of its immediate dependency keys registered in the
resulting builder. -/
theorem run_created (b : ConstantPoolBuilder) (op : Op) :
    ∀ op' i', Op.lookup (Op.run b op).2 op' = some i' →
      Op.lookup b op' = some i' ∨
      ∀ dep ∈ Op.deps op', (Op.lookup (Op.run b op).2 dep).isSome = true := by
  cases op with
  | utf8 v => exact ConstantPoolBuilder.utf8_created b v
  | class_ n => exact ConstantPoolBuilder.class_created b n
  | string v => exact ConstantPoolBuilder.string_created b v
  | integer v => exact ConstantPoolBuilder.integer_created b v
  | float v => exact ConstantPoolBuilder.float_created b v
  | long v => exact ConstantPoolBuilder.long_created b v
  | double v => exact ConstantPoolBuilder.double_created b v
  | name_and_type n d => exact ConstantPoolBuilder.name_and_type_created b n d
  | field_ref o n d => exact ConstantPoolBuilder.field_ref_created b o n d
  | method_ref o n d => exact ConstantPoolBuilder.method_ref_created b o n d
  | interface_method_ref o n d =>
    exact ConstantPoolBuilder.interface_method_ref_created b o n d
  | method_type d => exact ConstantPoolBuilder.method_type_created b d
  | method_handle h => exact ConstantPoolBuilder.method_handle_created b h
  | invoke_dynamic x n d => exact ConstantPoolBuilder.invoke_dynamic_created b x n d

end Op

/-- Dependency closure: every key registered in a dedup map has all of its
immediate dependency keys registered as well.  `new()` satisfies this and
every operation preserves it, so it holds of every builder produced by the
public API. -/
def DepsClosed (b : ConstantPoolBuilder) : Prop :=
  ∀ op i, Op.lookup b op = some i →
    ∀ dep ∈ Op.deps op, (Op.lookup b dep).isSome = true

/-- A freshly created builder (all dedup maps empty) is dependency-closed. -/
theorem depsClosed_new : DepsClosed ConstantPoolBuilder.new := by
  intro op i h
  cases op <;> simp [Op.lookup, ConstantPoolBuilder.new, CpMap.empty] at h

/-- Every operation preserves dependency closure. -/
theorem run_depsClosed {b : ConstantPoolBuilder} {op : Op} (hdc : DepsClosed b) :
    DepsClosed (Op.run b op).2 := by
  intro op' i' hl' dep hdep
  rcases Op.run_created b op op' i' hl' with hold | hnew
  · exact mapsLE_isSome (Op.run_le b op) dep (hdc op' i' hold dep hdep)
  · exact hnew dep hdep

/-- `dep` is a recursively inserted dependency of `op`: reachable through one
or more `Op.deps` steps (e.g. `utf8 o` is one for `method_ref o n d`, through
`class_ o`). -/
inductive Op.TransDep : Op → Op → Prop where
  | head {op dep : Op} : dep ∈ Op.deps op → Op.TransDep op dep
  | tail {op dep dep' : Op} : dep ∈ Op.deps op → Op.TransDep dep dep' →
      Op.TransDep op dep'

/-- In a dependency-closed builder, every transitive dependency of a
registered key is registered. -/
theorem depsClosed_transDep {b : ConstantPoolBuilder} (hdc : DepsClosed b) :
    ∀ {op dep : Op}, Op.TransDep op dep → (Op.lookup b op).isSome = true →
      (Op.lookup b dep).isSome = true := by
  intro op dep ht
  induction ht with
  | head hmem =>
    rename_i op1 dep1
    intro hs
    cases heq : Op.lookup b op1 with
    | none => rw [heq] at hs; exact Bool.noConfusion hs
    | some j => exact hdc op1 j heq dep1 hmem
  | tail hmem ht2 ih =>
    rename_i op1 dep1 dep2
    intro hs
    apply ih
    cases heq : Op.lookup b op1 with
    | none => rw [heq] at hs; exact Bool.noConfusion hs
    | some j => exact hdc op1 j heq dep1 hmem

/-- C2.  Deduplication by semantic identity, covering every call history:
(1) a call whose semantic key is already bound returns the previously
assigned index and leaves the builder — pool and maps — unchanged; (2) after
any deduplicating call, its key is bound to the returned index; (3) bindings
persist across arbitrary intervening calls; (4) a fresh composite insertion
registers each immediately inserted dependency; (5) on a dependency-closed
builder, after any deduplicating call every recursively inserted dependency —
immediate or transitive, e.g. `utf8(owner)` two `Op.deps` steps below
`method_ref(owner, ...)`, or `class(owner)` below `method_handle` — has its
key registered, so a later direct call for that constant hits case (1) and
returns its previously assigned index with the pool unchanged; (6) `new()` is
dependency-closed and (7) every operation preserves dependency closure, so
(5)'s hypothesis holds for every builder reachable through the public API. -/
theorem spec_C2_dedup_by_identity :
    (∀ (b : ConstantPoolBuilder) (op : Op) (i : Nat),
      Op.lookup b op = some i → Op.run b op = (i, b)) ∧
    (∀ (b : ConstantPoolBuilder) (op : Op), op.dedupable = true →
      Op.lookup (Op.run b op).2 op = some (Op.run b op).1) ∧
    (∀ (b : ConstantPoolBuilder) (op op' : Op) (i : Nat),
      Op.lookup b op = some i → Op.lookup (Op.run b op').2 op = some i) ∧
    (∀ (b : ConstantPoolBuilder) (op : Op), Op.lookup b op = none →
      ∀ dep ∈ Op.deps op, (Op.lookup (Op.run b op).2 dep).isSome = true) ∧
    (∀ (b : ConstantPoolBuilder) (op : Op), DepsClosed b → op.dedupable = true →
      ∀ dep, Op.TransDep op dep → (Op.lookup (Op.run b op).2 dep).isSome = true) ∧
    DepsClosed ConstantPoolBuilder.new ∧
    (∀ (b : ConstantPoolBuilder) (op : Op), DepsClosed b → DepsClosed (Op.run b op).2) :=
  ⟨fun _ _ _ h => Op.run_of_lookup h,
   Op.run_post,
   fun b op op' i h => Op.run_le b op' op i h,
   Op.run_deps,
   fun b op hdc hd dep ht =>
     depsClosed_transDep (run_depsClosed hdc) ht
       (by rw [Op.run_post b op hd]; rfl),
   depsClosed_new,
   fun _ _ hdc => run_depsClosed hdc⟩

/-- Witness for C2 at concrete inputs: a repeated `utf8 "x"` returns the same
index with the builder unchanged; a `class_` call registers its key; a
binding survives an unrelated `integer` call; after
`method_ref "a/B" "m" "()V"` on a fresh builder the owner's `Class` key
(immediate dependency) and the owner's `Utf8` key (transitive dependency, two
`Op.deps` steps down) are both registered; and the builder produced by
`class_ "a/B"` on `new()` is dependency-closed at its own key, so the
`Utf8 "a/B"` key is registered there too. -/
theorem spec_C2_witness :
    Op.run (Op.run ConstantPoolBuilder.new (Op.utf8 "x")).2 (Op.utf8 "x")
      = (1, (Op.run ConstantPoolBuilder.new (Op.utf8 "x")).2) ∧
    Op.lookup (Op.run ConstantPoolBuilder.new (Op.class_ "a/B")).2 (Op.class_ "a/B")
      = some (Op.run ConstantPoolBuilder.new (Op.class_ "a/B")).1 ∧
    Op.lookup (Op.run (Op.run ConstantPoolBuilder.new (Op.utf8 "x")).2 (Op.integer 5)).2
      (Op.utf8 "x") = some 1 ∧
    (Op.lookup (Op.run ConstantPoolBuilder.new (Op.method_ref "a/B" "m" "()V")).2
      (Op.class_ "a/B")).isSome = true ∧
    (Op.lookup (Op.run ConstantPoolBuilder.new (Op.method_ref "a/B" "m" "()V")).2
      (Op.utf8 "a/B")).isSome = true ∧
    (Op.lookup (Op.run ConstantPoolBuilder.new (Op.class_ "a/B")).2
      (Op.utf8 "a/B")).isSome = true :=
  ⟨spec_C2_dedup_by_identity.1 _ (Op.utf8 "x") 1 rfl,
   spec_C2_dedup_by_identity.2.1 ConstantPoolBuilder.new (Op.class_ "a/B") rfl,
   spec_C2_dedup_by_identity.2.2.1 _ (Op.utf8 "x") (Op.integer 5) 1 rfl,
   spec_C2_dedup_by_identity.2.2.2.1 ConstantPoolBuilder.new
     (Op.method_ref "a/B" "m" "()V") rfl (Op.class_ "a/B") (by simp [Op.deps]),
   spec_C2_dedup_by_identity.2.2.2.2.1 ConstantPoolBuilder.new
     (Op.method_ref "a/B" "m" "()V") spec_C2_dedup_by_identity.2.2.2.2.2.1 rfl
     (Op.utf8 "a/B")
     (Op.TransDep.tail (List.mem_cons_self _ _)
       (Op.TransDep.head (List.mem_cons_self _ _))),
   spec_C2_dedup_by_identity.2.2.2.2.2.2 ConstantPoolBuilder.new (Op.class_ "a/B")
     spec_C2_dedup_by_identity.2.2.2.2.2.1 (Op.class_ "a/B") 2 rfl
     (Op.utf8 "a/B") (List.mem_cons_self _ _)⟩
